import Mathlib

/-!
# cznic/lexer: range normalisation, token-definition classification, lexer compilation

A shallow embedding of `ranges.go` and `lexer.go`.

* Go's `uint32` fields are natural numbers; the one addition of `ranges.go`
  (`y.Hi+1`) is reduced modulo `2^32`.
* Functions of the Go standard library (`sort.Sort`, `regexp.QuoteMeta`,
  `unicode.IsLetter`, `ebnf.Parse`, ...) are parameters; each theorem names the
  part of their documented contract it relies on.
-/

namespace CznicLexer

/-! ## ranges.go -/

/-- The type `unicode.Range32`: three `uint32` fields. -/
structure Range32 where
  Lo : Nat
  Hi : Nat
  Stride : Nat
  deriving DecidableEq, Repr

/-- The type `rangeSlice`. -/
abbrev rangeSlice := List Range32

/-- Every field of the range fits in a `uint32`. -/
def Range32.inBounds (x : Range32) : Prop :=
  x.Lo < 4294967296 ∧ x.Hi < 4294967296 ∧ x.Stride < 4294967296

instance (x : Range32) : Decidable x.inBounds := by
  unfold Range32.inBounds; infer_instance

/-- The method `Less` of `rangeSlice`, on two elements: `r[i].Lo < r[j].Lo`. -/
def rangeLess (a b : Range32) : Bool := decide (a.Lo < b.Lo)

/-- The test of `normalize` on two neighbours `y = r[i-1]`, `z = r[i]`:
`y.Hi >= z.Lo || y.Hi+1 == z.Lo`, the sum taken in `uint32`. -/
def joinable (y z : Range32) : Bool :=
  decide (y.Hi ≥ z.Lo) || decide ((y.Hi + 1) % 4294967296 = z.Lo)

/-- The body of the `if` in `normalize`: `y` with `Hi` raised to `z.Hi` when
`z.Hi > y.Hi`; it takes the place of `r[i-1]` and `z` is removed. -/
def joined (y z : Range32) : Range32 :=
  if z.Hi > y.Hi then { y with Hi := z.Hi } else y

/-- One run of the inner loop `for i := len(r) - 1; i > 0; i--` of `normalize`.
The loop walks from the last index down, so index `i` is handled after every
larger index: the slice from `i` on has its final shape when `r[i-1]` is compared
with `r[i]`.  The result is the slice after the run and the value of `ok`
(`true` when no pair was joined). -/
def mergePass : rangeSlice → rangeSlice × Bool
  | [] => ([], true)
  | y :: rest =>
    match mergePass rest with
    | ([], ok) => ([y], ok)
    | (z :: t, ok) =>
      if joinable y z then (joined y z :: t, false) else (y :: z :: t, ok)

/-- The outer loop `for ok := false; !ok; { ... }` of `normalize`, bounded by
`fuel` runs of the inner loop; `none` when the bound is reached before a run
leaves `ok` true. -/
def mergeLoop : Nat → rangeSlice → Option rangeSlice
  | 0, _ => none
  | fuel + 1, r =>
    match mergePass r with
    | (r', true) => some r'
    | (r', false) => mergeLoop fuel r'

/-- The method `normalize` of `rangeSlice`.  `sort` stands for `sort.Sort` of the
Go library applied with `Less` and `Swap` of `rangeSlice`.  The outer loop is run
with a bound of `len(r) + 1`; `normalize_returns` shows the bound is never
reached. -/
def normalize (sort : rangeSlice → rangeSlice) (r : rangeSlice) : Option rangeSlice :=
  mergeLoop ((sort r).length + 1) (sort r)

/-- What the documentation of `sort.Sort` promises: the elements are rearranged
(nothing is added or lost) and afterwards no later element is `Less` than an
earlier one.  The sort is not promised to be stable. -/
def SortContract (sort : rangeSlice → rangeSlice) : Prop :=
  (∀ r, (sort r).Perm r) ∧
  (∀ r, (sort r).Pairwise (fun a b => rangeLess b a = false))

/-- The code points of a `unicode.Range32`: from `Lo` to `Hi`, both included, in
steps of `Stride`. -/
def Range32.contains (x : Range32) (c : Nat) : Prop :=
  x.Lo ≤ c ∧ c ≤ x.Hi ∧ (c - x.Lo) % x.Stride = 0

/-- Insertion of one element in front of the first element that is not smaller. -/
def insertByLo (x : Range32) : rangeSlice → rangeSlice
  | [] => [x]
  | y :: t => if x.Lo ≤ y.Lo then x :: y :: t else y :: insertByLo x t

/-- A stable sort on `Lo`: insertion sort. -/
def stableSort : rangeSlice → rangeSlice
  | [] => []
  | x :: t => insertByLo x (stableSort t)

/-! ## lexer.go -/

/-- A Go `string`: a sequence of bytes. -/
abbrev GoString := List Nat

/-- The byte `'/'`. -/
def slash : Nat := 47

/-- The byte `'_'`, also the rune `'_'`. -/
def underscore : Nat := 95

/-- The function `isRE`: `n := len(s); n > 2 && s[0] == '/' && s[n-1] == '/'`, then
`s[1 : n-1]` and true, otherwise `s` and false. -/
def isRE (s : GoString) : GoString × Bool :=
  let n := s.length
  if n > 2 ∧ s[0]? = some slash ∧ s[n - 1]? = some slash then
    ((s.take (n - 1)).drop 1, true)
  else
    (s, false)

/-- The function `identFirst`; `isLetter` stands for `unicode.IsLetter`. -/
def identFirst (isLetter : Nat → Bool) (rune : Nat) : Bool :=
  isLetter rune || rune == underscore

/-- The function `identNext`; `isDigit` stands for `unicode.IsDigit`. -/
def identNext (isLetter isDigit : Nat → Bool) (rune : Nat) : Bool :=
  identFirst isLetter rune || isDigit rune

/-- The loop of `isIdent` over the pairs `(i, rune)` that `range s` yields, `i` being
the byte index at which `rune` starts. -/
def isIdentLoop (isLetter isDigit : Nat → Bool) : List (Nat × Nat) → Bool
  | [] => true
  | (i, rune) :: rest =>
    if i == 0 && !identFirst isLetter rune then false
    else if !identNext isLetter isDigit rune then false
    else isIdentLoop isLetter isDigit rest

/-- The function `isIdent`.  `rangeString s` stands for the sequence of pairs
`(i, rune)` of the Go statement `for i, rune := range s`. -/
def isIdent (isLetter isDigit : Nat → Bool) (rangeString : GoString → List (Nat × Nat))
    (s : GoString) : Bool :=
  isIdentLoop isLetter isDigit (rangeString s)

/-- What Go promises of `for i, rune := range s`: the empty string yields nothing, a
string that is not empty yields at least one rune, the first rune starts at byte
index 0 and every later one at a positive index. -/
def RangeContract (rangeString : GoString → List (Nat × Nat)) : Prop :=
  rangeString [] = [] ∧
  (∀ s, s ≠ [] → rangeString s ≠ []) ∧
  (∀ s i r rest, rangeString s = (i, r) :: rest → i = 0 ∧ ∀ p ∈ rest, 0 < p.1)

/-- The words of the specification: a string is an identifier when its first rune is
a letter or `'_'` and every following rune is a letter, a digit or `'_'`. -/
def specIdentifier (isLetter isDigit : Nat → Bool) (runes : List Nat) : Prop :=
  ∃ c rest, runes = c :: rest ∧ (isLetter c = true ∨ c = underscore) ∧
    ∀ r ∈ rest, isLetter r = true ∨ isDigit r = true ∨ r = underscore

/-- A `range` for strings of ASCII bytes: every byte is one rune. -/
def asciiRange (s : GoString) : List (Nat × Nat) := s.enum

/-- Letters of ASCII. -/
def asciiLetter (r : Nat) : Bool := (65 ≤ r && r ≤ 90) || (97 ≤ r && r ≤ 122)

/-- Digits of ASCII. -/
def asciiDigit (r : Nat) : Bool := 48 ≤ r && r ≤ 57

/-! ### Maps, errors, grammars -/

/-- The lookup `m[k]` of a Go map held as a list of entries: the value and `ok`. -/
def mapGet {κ ν : Type} [DecidableEq κ] : List (κ × ν) → κ → Option ν
  | [], _ => none
  | (k', v) :: t, k => if k' = k then some v else mapGet t k

/-- The assignment `m[k] = v` of a Go map held as a list of entries. -/
def mapSet {κ ν : Type} [DecidableEq κ] : List (κ × ν) → κ → ν → List (κ × ν)
  | [], k, v => [(k, v)]
  | (k', v') :: t, k, v => if k' = k then (k, v) :: t else (k', v') :: mapSet t k v

/-- The values that `CompileLexer` and `ebnf2RE` panic with, and the errors that the
libraries return.  All of them are `os.Error` values, as the type assertion
`e.(os.Error)` of the deferred function requires. -/
inductive Error where
  /-- The panic `fmt.Errorf("duplicate id %d for token %q", id, tokdef)`. -/
  | duplicateID (id : Int) (tokdef : GoString)
  /-- The panic `fmt.Errorf("unknown token id %d in set %d", id, i)`. -/
  | unknownTokenID (id : Int) (set : Nat)
  /-- The panic `fmt.Errorf("unexpected type %T", x)`. -/
  | unexpectedType
  /-- The run-time panic of `p.Expr` when `p` is nil. -/
  | nilDereference
  /-- A non-nil error returned by `ebnf.Parse`, `ebnf.Verify` or `ParseRE`. -/
  | library (msg : GoString)
  deriving DecidableEq, Repr

/-- The type `ebnf.Expression` as `ebnf2RE` sees it: the eight dynamic types of its
type switch, and `Other` for every value the switch sends to `default` (nil among
them).  `Range` holds `Begin.String` and `End.String`. -/
inductive Expression where
  | Alternative (items : List Expression)
  | Group (Body : Expression)
  | Name (String : GoString)
  | Option (Body : Expression)
  | Range (Begin End : GoString)
  | Repetition (Body : Expression)
  | Sequence (items : List Expression)
  | Token (String : GoString)
  | Other

/-- The type `ebnf.Production`, of which `ebnf2RE` reads `Expr`. -/
structure Production where
  Expr : Expression

/-- The type `ebnf.Grammar`, a map from production names to productions. -/
abbrev Grammar := List (GoString × Production)

/-- The map `res` of `ebnf2RE`.  Its keys are the pointers `g[name]`; a grammar maps
different names to different productions, so the entry is kept under the name. -/
abbrev Memo := List (GoString × GoString)

/-- The map `pipe`: `""` for false, `"|"` for true. -/
def pipe (b : Bool) : GoString := if b then [124] else []

mutual

/-- The function `ebnf2RE`: the regular expression of production `name` and the
memo table after the call.  `quoteMeta` stands for `regexp.QuoteMeta`.  `fuel`
bounds the depth of the calls; `none` means the bound was reached, an `error` is
a panic. -/
def ebnf2RE (quoteMeta : GoString → GoString) :
    Nat → Grammar → GoString → Memo → Option (Except Error (GoString × Memo))
  | 0, _, _, _ => none
  | fuel + 1, g, name, res =>
    match mapGet g name with
    | none => some (.error .nilDereference)
    | some p =>
      match mapGet res name with
      | some r => some (.ok (r, res))
      | none =>
        match compile quoteMeta fuel g [] p.Expr [] res with
        | none => none
        | some (.error e) => some (.error e)
        | some (.ok (re, res')) => some (.ok (re, mapSet res' name re))

/-- The closure `compile` of `ebnf2RE`: the bytes the call writes to `buf`, and the
memo table after the call. -/
def compile (quoteMeta : GoString → GoString) :
    Nat → Grammar → GoString → Expression → GoString → Memo →
      Option (Except Error (GoString × Memo))
  | 0, _, _, _, _, _ => none
  | fuel + 1, g, pre, item, post, res =>
    match item with
    | .Other => some (.error .unexpectedType)
    | .Alternative x =>
      match compileItems quoteMeta fuel g true 0 x res with
      | none => none
      | some (.error e) => some (.error e)
      | some (.ok (body, res')) => some (.ok (pre ++ body ++ post, res'))
    | .Group body =>
      match compile quoteMeta fuel g [40] body [41] res with
      | none => none
      | some (.error e) => some (.error e)
      | some (.ok (w, res')) => some (.ok (pre ++ w ++ post, res'))
    | .Name n =>
      match ebnf2RE quoteMeta fuel g n res with
      | none => none
      | some (.error e) => some (.error e)
      | some (.ok (re, res')) => some (.ok (pre ++ ([40] ++ re ++ [41]) ++ post, res'))
    | .Option body =>
      match compile quoteMeta fuel g [40] body [41, 63] res with
      | none => none
      | some (.error e) => some (.error e)
      | some (.ok (w, res')) => some (.ok (pre ++ w ++ post, res'))
    | .Range b e =>
      some (.ok (pre ++ ([91] ++ quoteMeta b ++ [45] ++ quoteMeta e ++ [93]) ++ post, res))
    | .Repetition body =>
      match compile quoteMeta fuel g [40] body [41, 42] res with
      | none => none
      | some (.error e) => some (.error e)
      | some (.ok (w, res')) => some (.ok (pre ++ w ++ post, res'))
    | .Sequence x =>
      match compileItems quoteMeta fuel g false 0 x res with
      | none => none
      | some (.error e) => some (.error e)
      | some (.ok (body, res')) => some (.ok (pre ++ body ++ post, res'))
    | .Token t =>
      match isRE t with
      | (inner, true) => some (.ok (pre ++ inner ++ post, res))
      | (orig, false) => some (.ok (pre ++ quoteMeta orig ++ post, res))

/-- The loops `for i, item := range x` of `compile`, from index `i` on: for an
`Alternative` (`alt` true) item `i` is compiled with `pipe[i > 0]` in front, for a
`Sequence` with nothing in front. -/
def compileItems (quoteMeta : GoString → GoString) :
    Nat → Grammar → Bool → Nat → List Expression → Memo →
      Option (Except Error (GoString × Memo))
  | 0, _, _, _, _, _ => none
  | _ + 1, _, _, _, [], res => some (.ok ([], res))
  | fuel + 1, g, alt, i, item :: rest, res =>
    match compile quoteMeta fuel g (if alt then pipe (decide (i > 0)) else []) item [] res with
    | none => none
    | some (.error e) => some (.error e)
    | some (.ok (w, res')) =>
      match compileItems quoteMeta fuel g alt (i + 1) rest res' with
      | none => none
      | some (.error e) => some (.error e)
      | some (.ok (ws, res'')) => some (.ok (w ++ ws, res''))

end

/-! ### The translation of the specification -/

mutual

/-- The production names an expression refers to: the strings of its `Name` nodes. -/
def refs : Expression → List GoString
  | .Alternative x => refsList x
  | .Group body => refs body
  | .Name n => [n]
  | .Option body => refs body
  | .Range _ _ => []
  | .Repetition body => refs body
  | .Sequence x => refsList x
  | .Token _ => []
  | .Other => []

/-- The production names a list of expressions refers to. -/
def refsList : List Expression → List GoString
  | [] => []
  | x :: rest => refs x ++ refsList rest

end

mutual

/-- Every node of the expression is of one of the eight variants that the translation
knows. -/
def handled : Expression → Bool
  | .Alternative x => handledList x
  | .Group body => handled body
  | .Name _ => true
  | .Option body => handled body
  | .Range _ _ => true
  | .Repetition body => handled body
  | .Sequence x => handledList x
  | .Token _ => true
  | .Other => false

/-- Every node of every expression of the list is of a known variant. -/
def handledList : List Expression → Bool
  | [] => true
  | x :: rest => handled x && handledList rest

end

/-- The production `n` refers to the production `m`: an edge of the
production-reference graph. -/
def Refers (g : Grammar) (n m : GoString) : Prop :=
  ∃ p, mapGet g n = some p ∧ m ∈ refs p.Expr

/-- The production-reference graph has no cycle: no production refers to itself,
directly or through other productions. -/
def Acyclic (g : Grammar) : Prop :=
  ∀ n, ¬ Relation.TransGen (Refers g) n n

/-- Every name that a production refers to is defined, and every node of every
production is of one of the eight known variants. -/
def WellFormed (g : Grammar) : Prop :=
  ∀ n p, mapGet g n = some p →
    handled p.Expr = true ∧ ∀ m ∈ refs p.Expr, (mapGet g m).isSome = true

/-- A literal enclosed by `/…/`, with at least one character between the slashes:
the text between them. -/
def specInline (s : GoString) : Option GoString :=
  if 2 < s.length ∧ s.head? = some slash ∧ s.getLast? = some slash then
    some (s.drop 1).dropLast
  else none

mutual

/-- The translation `t` of the table of the specification, to the depth `d` of
nodes and references; `none` when the table gives no translation within that
depth.  `quoteMeta` is the quoting of regex metacharacters. -/
def specRE (quoteMeta : GoString → GoString) (g : Grammar) : Nat → Expression → Option GoString
  | 0, _ => none
  | d + 1, .Alternative x =>
    (specList quoteMeta g d x).map (fun ts => [124].intercalate ts)
  | d + 1, .Sequence x =>
    (specList quoteMeta g d x).map (fun ts => ts.flatten)
  | d + 1, .Group body =>
    (specRE quoteMeta g d body).map (fun t => [40] ++ t ++ [41])
  | d + 1, .Option body =>
    (specRE quoteMeta g d body).map (fun t => [40] ++ t ++ [41, 63])
  | d + 1, .Repetition body =>
    (specRE quoteMeta g d body).map (fun t => [40] ++ t ++ [41, 42])
  | _ + 1, .Range lo hi =>
    some ([91] ++ quoteMeta lo ++ [45] ++ quoteMeta hi ++ [93])
  | _ + 1, .Token s =>
    match specInline s with
    | some inner => some inner
    | none => some (quoteMeta s)
  | d + 1, .Name m =>
    match mapGet g m with
    | none => none
    | some p => (specRE quoteMeta g d p.Expr).map (fun t => [40] ++ t ++ [41])
  | _ + 1, .Other => none

/-- The translations `t(x₁), …, t(xₙ)` of the items of a list. -/
def specList (quoteMeta : GoString → GoString) (g : Grammar) :
    Nat → List Expression → Option (List GoString)
  | 0, _ => none
  | _ + 1, [] => some []
  | d + 1, x :: rest =>
    match specRE quoteMeta g d x with
    | none => none
    | some t =>
      match specList quoteMeta g d rest with
      | none => none
      | some ts => some (t :: ts)

end

/-- The table of the specification gives `e` the translation `t(e) = s`. -/
def SpecTranslation (quoteMeta : GoString → GoString) (g : Grammar) (e : Expression)
    (s : GoString) : Prop :=
  ∃ d, specRE quoteMeta g d e = some s

/-- The table of the specification gives the items `xs` the translations `ts`. -/
def SpecTranslations (quoteMeta : GoString → GoString) (g : Grammar) (xs : List Expression)
    (ts : List GoString) : Prop :=
  ∃ d, specList quoteMeta g d xs = some ts

/-- The memo table was filled by earlier calls of `ebnf2RE` on the grammar `g`: it
is the empty table, or the table that a call which returned left behind when it
started from such a table. -/
inductive FilledBy (quoteMeta : GoString → GoString) (g : Grammar) : Memo → Prop where
  | empty : FilledBy quoteMeta g []
  | call {memo memo' : Memo} {fuel : Nat} {name re : GoString} :
      FilledBy quoteMeta g memo →
      ebnf2RE quoteMeta fuel g name memo = some (.ok (re, memo')) →
      FilledBy quoteMeta g memo'

/-- What the loops of `compile` write for items with the translations `ts`, the
first of them with index `i`: for an `Alternative` every item of index above 0
has `"|"` in front. -/
def written (alt : Bool) : Nat → List GoString → GoString
  | _, [] => []
  | i, t :: ts => (if alt then pipe (decide (i > 0)) else []) ++ t ++ written alt (i + 1) ts

/-- Every entry of the memo table holds the translation of its production, and with
a production the table holds every production it refers to. -/
def MemoInv (quoteMeta : GoString → GoString) (g : Grammar) (memo : Memo) : Prop :=
  (∀ n r, mapGet memo n = some r →
    ∃ p, mapGet g n = some p ∧ SpecTranslation quoteMeta g p.Expr r) ∧
  (∀ n p, (mapGet memo n).isSome = true → mapGet g n = some p →
    ∀ m ∈ refs p.Expr, (mapGet memo m).isSome = true)

/-- The memo table `memo'` holds every entry of `memo`. -/
def MemoExtends (memo memo' : Memo) : Prop :=
  ∀ n r, mapGet memo n = some r → mapGet memo' n = some r

/-! ### CompileLexer -/

/-- What `CompileLexer` calls and `lexer.go` does not define.  `N` is the type `Nfa`
and `S` the type `*NfaState`; `Nfa`, `NewState`, `ParseRE`, `AddNonConsuming` and
`reduce` belong to other files of the package, the rest to the Go library and to
the Go language. -/
structure Env (N S : Type) where
  /-- The function `regexp.QuoteMeta`. -/
  quoteMeta : GoString → GoString
  /-- The function `unicode.IsLetter`. -/
  isLetter : Nat → Bool
  /-- The function `unicode.IsDigit`. -/
  isDigit : Nat → Bool
  /-- The pairs `(i, rune)` of `for i, rune := range s`. -/
  rangeString : GoString → List (Nat × Nat)
  /-- The verb `%d` of `fmt.Sprintf`. -/
  formatInt : Int → GoString
  /-- The call `ebnf.Parse(fset, filename, src)`: the grammar and the error. -/
  ebnfParse : GoString → GoString → Grammar × Option Error
  /-- The call `ebnf.Verify(fset, g, start)`: the error. -/
  ebnfVerify : Grammar → GoString → Option Error
  /-- The order in which the second `range tokdefs` visits the entries. -/
  rangeTokdefs : List (GoString × Int) → List (GoString × Int)
  /-- The order in which `range res` visits the entries. -/
  rangeRes : List (Int × GoString) → List (Int × GoString)
  /-- The zero value of `Nfa`. -/
  zeroNfa : N
  /-- The method `NewState` of `Nfa`: the new state and the automaton with it. -/
  newState : N → S × N
  /-- The method `ParseRE` of `Nfa`: `in`, `out`, the error, and the automaton after
  the call. -/
  parseRE : N → GoString → GoString → S × S × Option Error × N
  /-- The method `AddNonConsuming` of a state, with the fields of the `EpsilonEdge`. -/
  addNonConsuming : N → S → Int → S → N
  /-- The method `reduce` of `Nfa`. -/
  reduce : N → N

/-- The type `Lexer`. -/
structure Lexer (N S : Type) where
  nfa : N
  starts : List S
  accept : S
  deriving DecidableEq, Repr

/-- The variables `prodnames`, `res` and `xref` of `CompileLexer`. -/
structure Tables where
  prodnames : GoString
  res : List (Int × GoString)
  xref : List (Int × GoString)
  deriving DecidableEq, Repr

/-- The body of the first loop `for tokdef, id := range tokdefs` of `CompileLexer`. -/
def classifyStep {N S : Type} (env : Env N S) (grammar : GoString) (t : Tables)
    (tokdef : GoString) (id : Int) : Except Error Tables :=
  if (mapGet t.res id).isSome then
    .error (.duplicateID id tokdef)
  else
    let xref := mapSet t.xref id ([105, 100, 45] ++ env.formatInt id)
    match isRE tokdef with
    | (re, true) => .ok { t with res := mapSet t.res id re, xref := xref }
    | (_, false) =>
      if grammar = [] ∨ isIdent env.isLetter env.isDigit env.rangeString tokdef = false then
        .ok { t with res := mapSet t.res id (env.quoteMeta tokdef), xref := xref }
      else
        .ok { prodnames :=
                (if t.prodnames ≠ [] then t.prodnames ++ [32, 124, 32] else t.prodnames)
                  ++ tokdef,
              res := mapSet t.res id [],
              xref := xref }

/-- The first loop of `CompileLexer`; the list holds the entries of `tokdefs` in the
order in which `range` visits them. -/
def classify {N S : Type} (env : Env N S) (grammar : GoString) :
    Tables → List (GoString × Int) → Except Error Tables
  | t, [] => .ok t
  | t, (tokdef, id) :: rest =>
    match classifyStep env grammar t tokdef id with
    | .error e => .error e
    | .ok t' => classify env grammar t' rest

/-- The loop `for tokdef, id := range tokdefs` of the grammar pass:
`res[id], xref[id] = ebnf2RE(g, tokdef, grammarREs), tokdef` for every `tokdef` that
`isIdent` accepts. -/
def lowerAll {N S : Type} (env : Env N S) (fuel : Nat) (g : Grammar) :
    List (GoString × Int) → Memo → Tables → Option (Except Error Tables)
  | [], _, t => some (.ok t)
  | (tokdef, id) :: rest, memo, t =>
    if isIdent env.isLetter env.isDigit env.rangeString tokdef then
      match ebnf2RE env.quoteMeta fuel g tokdef memo with
      | none => none
      | some (.error e) => some (.error e)
      | some (.ok (re, memo')) =>
        lowerAll env fuel g rest memo'
          { t with res := mapSet t.res id re, xref := mapSet t.xref id tokdef }
    else
      lowerAll env fuel g rest memo t

/-- The block `if prodnames != "" { ... }` of `CompileLexer`: the tables and the
variable `err` after it. -/
def grammarPass {N S : Type} (env : Env N S) (fuel : Nat) (tokdefs : List (GoString × Int))
    (grammar start : GoString) (t : Tables) : Option (Except Error (Tables × Option Error)) :=
  if t.prodnames ≠ [] then
    let ebnfSrc := grammar ++ ([10] ++ start ++ [32, 61, 32] ++ t.prodnames ++ [32, 46])
    match env.ebnfParse start ebnfSrc with
    | (_, some e) => some (.error e)
    | (g, none) =>
      match env.ebnfVerify g start with
      | some e => some (.error e)
      | none =>
        match lowerAll env fuel g (env.rangeTokdefs tokdefs) [] t with
        | none => none
        | some (.error e) => some (.error e)
        | some (.ok t') => some (.ok (t', none))
  else
    some (.ok (t, none))

/-- `CompileLexer` up to the start sets: the first loop and the grammar pass. -/
def compileTables {N S : Type} (env : Env N S) (fuel : Nat) (tokdefs : List (GoString × Int))
    (grammar start : GoString) : Option (Except Error (Tables × Option Error)) :=
  match classify env grammar ⟨[], [], []⟩ tokdefs with
  | .error e => some (.error e)
  | .ok t => grammarPass env fuel tokdefs grammar start t

/-- The start sets the automaton is built from: `starts` as given, or, when `starts`
is nil, `[][]int{{}}` with every `id` of `range res` appended to `starts[0]`. -/
def startSets {N S : Type} (env : Env N S) (starts : Option (List (List Int)))
    (res : List (Int × GoString)) : List (List Int) :=
  match starts with
  | none => [(env.rangeRes res).map Prod.fst]
  | some ss => ss

/-- The loop `for _, id := range set` of `CompileLexer` for start set `i` with start
state `state`: the automaton and the variable `err` after it. -/
def addTokens {N S : Type} (env : Env N S) (start : GoString) (t : Tables) (accept state : S)
    (i : Nat) : List Int → N × Option Error → Except Error (N × Option Error)
  | [], st => .ok st
  | id :: rest, (nfa, _) =>
    match mapGet t.res id with
    | none => .error (.unknownTokenID id i)
    | some re =>
      match env.parseRE nfa (start ++ [45] ++ (mapGet t.xref id).getD []) re with
      | (_, _, some e, _) => .error e
      | (inState, outState, none, nfa1) =>
        let nfa2 := env.addNonConsuming nfa1 state id inState
        let nfa3 := env.addNonConsuming nfa2 outState 0 accept
        addTokens env start t accept state i rest (nfa3, none)

/-- The loop `for i, set := range starts` of `CompileLexer`, from index `i` on: the
automaton, the start states in the order of their sets, and `err`. -/
def addSets {N S : Type} (env : Env N S) (start : GoString) (t : Tables) (accept : S) :
    Nat → List (List Int) → N × Option Error → Except Error (N × List S × Option Error)
  | _, [], (nfa, err) => .ok (nfa, [], err)
  | i, set :: rest, (nfa, err) =>
    let (state, nfa1) := env.newState nfa
    match addTokens env start t accept state i set (nfa1, err) with
    | .error e => .error e
    | .ok st =>
      match addSets env start t accept (i + 1) rest st with
      | .error e => .error e
      | .ok (nfa2, states, err2) => .ok (nfa2, state :: states, err2)

/-- `CompileLexer` from the start sets on: the lexer and `err` at the `return`. -/
def buildLexer {N S : Type} (env : Env N S) (starts : Option (List (List Int)))
    (start : GoString) (t : Tables) (err : Option Error) :
    Except Error (Lexer N S × Option Error) :=
  let sets := startSets env starts t.res
  let (accept, nfa1) := env.newState env.zeroNfa
  match addSets env start t accept 0 sets (nfa1, err) with
  | .error e => .error e
  | .ok (nfa2, states, err2) =>
    .ok ({ nfa := env.reduce nfa2, starts := states, accept := accept }, err2)

/-- The function `CompileLexer`: its two results `lexer` and `err`, nil being `none`.
A panic of the body is caught by the deferred function, which sets `lexer = nil`
and `err` to the value of the panic.  The result is `none` when the lowering of
the grammar did not end within `fuel`. -/
def CompileLexer {N S : Type} (env : Env N S) (fuel : Nat) (starts : Option (List (List Int)))
    (tokdefs : List (GoString × Int)) (grammar start : GoString) :
    Option (Option (Lexer N S) × Option Error) :=
  match compileTables env fuel tokdefs grammar start with
  | none => none
  | some (.error e) => some (none, some e)
  | some (.ok (t, err)) =>
    match buildLexer env starts start t err with
    | .error e => some (none, some e)
    | .ok (lexer, err') => some (some lexer, err')

/-! ### A small environment for concrete calls -/

/-- The grammar `a = "x" | "(" a ")" .` with the production `TOK = a .` that
`CompileLexer` appends for `start = "TOK"` and `tokdefs = {"a": 1}`. -/
def nestedGrammar : Grammar :=
  [([97], ⟨.Alternative [.Token [120], .Sequence [.Token [40], .Name [97], .Token [41]]]⟩),
   ([84, 79, 75], ⟨.Name [97]⟩)]

/-- The grammar `digit = "0" … "9" . number = digit { digit } .` with the production
`TOK = number .`; the production names are abbreviated to `d` and `n`. -/
def numberGrammar : Grammar :=
  [([100], ⟨.Range [48] [57]⟩),
   ([110], ⟨.Sequence [.Name [100], .Repetition (.Name [100])]⟩),
   ([84, 79, 75], ⟨.Name [110]⟩)]

/-- The grammar `a = "x" b . b = "y" a | "z" .` with the production `TOK = a .`:
`a` refers to itself through `b`. -/
def mutualGrammar : Grammar :=
  [([97], ⟨.Sequence [.Token [120], .Name [98]]⟩),
   ([98], ⟨.Alternative [.Sequence [.Token [121], .Name [97]], .Token [122]]⟩),
   ([84, 79, 75], ⟨.Name [97]⟩)]

/-- The text `a = "x" b . b = "y" a | "z" .` -/
def mutualSource : GoString :=
  [97, 32, 61, 32, 34, 120, 34, 32, 98, 32, 46, 32,
   98, 32, 61, 32, 34, 121, 34, 32, 97, 32, 124, 32, 34, 122, 34, 32, 46]

/-- The text `a = "x" | "(" a ")" .` -/
def nestedSource : GoString :=
  [97, 32, 61, 32, 34, 120, 34, 32, 124, 32, 34, 40, 34, 32, 97, 32, 34, 41, 34, 32, 46]

/-- The text `d = "0" … "9" . n = d { d } .` -/
def numberSource : GoString :=
  [100, 32, 61, 32, 34, 48, 34, 32, 226, 128, 166, 32, 34, 57, 34, 32, 46, 32,
   110, 32, 61, 32, 100, 32, 123, 32, 100, 32, 125, 32, 46]

/-- An environment over ASCII strings in which `ebnf.Parse` returns `g` and
`ebnf.Verify` accepts it.  The automaton is the number of its states, a state is
its index, `ParseRE` rejects the empty expression and otherwise adds two states. -/
def toyEnv (g : Grammar) : Env Nat Nat where
  quoteMeta := fun s => s
  isLetter := asciiLetter
  isDigit := asciiDigit
  rangeString := asciiRange
  formatInt := fun i => (Nat.toDigits 10 i.natAbs).map Char.toNat
  ebnfParse := fun _ _ => (g, none)
  ebnfVerify := fun _ _ => none
  rangeTokdefs := fun l => l
  rangeRes := fun l => l.reverse
  zeroNfa := 0
  newState := fun n => (n, n + 1)
  parseRE := fun n _ re =>
    if re = [] then (0, 0, some (.library [101, 109, 112, 116, 121]), n)
    else (n, n + 1, none, n + 2)
  addNonConsuming := fun n _ _ _ => n
  reduce := fun n => n

/-! ## source.go

The source is written in the Go of before Go 1 (`os.Error`), in which `int` has
32 bits: the additions to `Offset`, `Line` and `Column` wrap around at `2^31`. -/

/-- The `os.Error` values a reader returns with a rune: `os.EOF` or another error. -/
inductive ReadError where
  | EOF
  | other (msg : GoString)
  deriving DecidableEq, Repr

/-- The type `token.Position`. -/
structure Position where
  Filename : GoString
  Offset : Int
  Line : Int
  Column : Int
  deriving DecidableEq, Repr

/-- The method `IsValid` of `token.Position`: `Line > 0`. -/
def Position.IsValid (p : Position) : Bool := decide (p.Line > 0)

/-- The type `ScannerRune`. -/
structure ScannerRune where
  Position : Position
  Rune : Int
  Size : Int
  Err : Option ReadError
  deriving DecidableEq, Repr

/-- An `io.RuneReader`: the results `(rune, size, err)` of its calls of `ReadRune`
from now on, the next call being number 0. -/
abbrev RuneReader := Nat → Int × Int × Option ReadError

/-- The method `ReadRune` of a reader: the result of the call and the reader after
it. -/
def RuneReader.ReadRune (r : RuneReader) : (Int × Int × Option ReadError) × RuneReader :=
  (r 0, fun n => r (n + 1))

/-- The type `EOFReader`: `ReadRune` always returns `0, 0, os.EOF`. -/
def EOFReader : RuneReader := fun _ => (0, 0, some .EOF)

/-- A reader that yields the given runes with their sizes, each without error, and
then `0, 0, os.EOF`. -/
def runesReader (runes : List (Int × Int)) : RuneReader := fun n =>
  match runes[n]? with
  | some (rune, size) => (rune, size, none)
  | none => (0, 0, some .EOF)

/-- The type `source`. -/
structure source where
  reader : RuneReader
  position : Position

/-- The function `newSource`. -/
def newSource (fname : GoString) (r : RuneReader) : source :=
  { reader := r, position := { Filename := fname, Offset := 0, Line := 1, Column := 1 } }

/-- The type `Source`.  The slice `stack` is held with its last element, the one
that `Read` takes off first, at the head of the list. -/
structure Source where
  stack : List source
  tos : source

/-- The function `NewSource`; `none` is the nil reader. -/
def NewSource (fname : GoString) (r : Option RuneReader) : Source :=
  { stack := [],
    tos := newSource fname (match r with
      | none => EOFReader
      | some r => r) }

/-- The method `Include` of `Source`. -/
def Source.Include (s : Source) (fname : GoString) (r : RuneReader) : Source :=
  { stack := s.tos :: s.stack, tos := newSource fname r }

/-- The method `Position` of `Source`. -/
def Source.Position (s : Source) : Position := s.tos.position

/-- The value of an `int` computation whose exact result is `x`: the 32 bits of
`int` hold the numbers from `-2^31` to `2^31 - 1`, and a result outside wraps
around. -/
def wrapInt (x : Int) : Int := (x + 2147483648) % 4294967296 - 2147483648

/-- The update of the position in `Read` after a rune that did not come with
`os.EOF`: `p.Offset += r.Size`, then `p.Column++`, or `p.Line++` and `p.Column = 1`
after `'\n'`. -/
def advance (p : Position) (rune size : Int) : Position :=
  if rune ≠ 10 then
    { p with Offset := wrapInt (p.Offset + size), Column := wrapInt (p.Column + 1) }
  else
    { p with Offset := wrapInt (p.Offset + size), Line := wrapInt (p.Line + 1), Column := 1 }

/-- The loop of the method `Read` of `Source`, on the stack and the top source: the
`ScannerRune` returned and the `Source` after the call. -/
def readLoop : List source → source → ScannerRune × Source
  | [], tos =>
    match tos.reader.ReadRune with
    | ((rune, size, err), reader') =>
      if err ≠ some .EOF then
        ({ Position := tos.position, Rune := rune, Size := size, Err := err },
         { stack := [], tos := { reader := reader', position := advance tos.position rune size } })
      else
        ({ Position := tos.position, Rune := 0, Size := 0, Err := err },
         { stack := [], tos := { reader := reader', position := tos.position } })
  | parent :: rest, tos =>
    match tos.reader.ReadRune with
    | ((rune, size, err), reader') =>
      if err ≠ some .EOF then
        ({ Position := tos.position, Rune := rune, Size := size, Err := err },
         { stack := parent :: rest,
           tos := { reader := reader', position := advance tos.position rune size } })
      else
        readLoop rest parent

/-- The method `Read` of `Source`. -/
def Source.Read (s : Source) : ScannerRune × Source := readLoop s.stack s.tos

/-- The results of `n` successive calls of `Read`, and the `Source` after them. -/
def readN : Nat → Source → List ScannerRune × Source
  | 0, s => ([], s)
  | n + 1, s =>
    match s.Read with
    | (r, s') =>
      match readN n s' with
      | (rs, s'') => (r :: rs, s'')

/-- The position after the given runes, read from position `p` on. -/
def positionAfter (p : Position) : List (Int × Int) → Position
  | [] => p
  | (rune, size) :: rest => positionAfter (advance p rune size) rest

/-- The given runes as `ScannerRune` values without error, each with its starting
position, the first at position `p`. -/
def runeResults (p : Position) : List (Int × Int) → List ScannerRune
  | [] => []
  | (rune, size) :: rest =>
    { Position := p, Rune := rune, Size := size, Err := none }
      :: runeResults (advance p rune size) rest

/-- The number of runes after the last `'\n'` of the list, or of all runes when the
list has no `'\n'`. -/
def sinceNewline (runes : List Int) : Nat :=
  (runes.reverse.takeWhile (fun r => r ≠ 10)).length

/-- The positions of a `Source` are positions of sources made by `newSource`: their
lines count from 1. -/
def Source.WellFormed (s : Source) : Prop :=
  0 < s.tos.position.Line ∧ ∀ x ∈ s.stack, 0 < x.position.Line

/-- The lines of the positions of a `Source` count from 1 and have not passed `n`. -/
def Source.LinesWithin (s : Source) (n : Int) : Prop :=
  (0 < s.tos.position.Line ∧ s.tos.position.Line ≤ n) ∧
    ∀ x ∈ s.stack, 0 < x.position.Line ∧ x.position.Line ≤ n

/-- The type `ScannerSource`. -/
structure ScannerSource where
  source : Source
  prev : ScannerRune
  current : ScannerRune
  next : ScannerRune
  runes : List Int

/-- The method `Current` of `ScannerSource`. -/
def ScannerSource.Current (s : ScannerSource) : Int := s.current.Rune

/-- The method `CurrentRune` of `ScannerSource`. -/
def ScannerSource.CurrentRune (s : ScannerSource) : ScannerRune := s.current

/-- The method `invalidateNext` of `ScannerSource`: `s.next.Position.Line = 0`. -/
def ScannerSource.invalidateNext (s : ScannerSource) : ScannerSource :=
  { s with next := { s.next with Position := { s.next.Position with Line := 0 } } }

/-- The method `lookahead` of `ScannerSource`. -/
def ScannerSource.lookahead (s : ScannerSource) : ScannerSource :=
  if s.next.Position.IsValid = false then
    match s.source.Read with
    | (r, src) => { s with source := src, next := r }
  else s

/-- The method `Move` of `ScannerSource`. -/
def ScannerSource.Move (s : ScannerSource) : ScannerSource :=
  let s1 : ScannerSource :=
    if s.Current ≠ 0 then { s with runes := s.runes ++ [s.Current] } else s
  let s2 : ScannerSource := { s1 with prev := s1.current }
  if s2.next.Position.IsValid = true then
    ScannerSource.invalidateNext { s2 with current := s2.next }
  else
    match s2.source.Read with
    | (r, src) => { s2 with source := src, current := r }

/-- The method `Accept` of `ScannerSource`: the result and the state after the
call. -/
def ScannerSource.Accept (s : ScannerSource) (rune : Int) : Bool × ScannerSource :=
  if rune = s.Current then (true, s.Move) else (false, s)

/-- The zero value of `ScannerRune`. -/
def zeroRune : ScannerRune :=
  { Position := { Filename := [], Offset := 0, Line := 0, Column := 0 },
    Rune := 0, Size := 0, Err := none }

/-- The function `NewScannerSource`. -/
def NewScannerSource (fname : GoString) (r : Option RuneReader) : ScannerSource :=
  ScannerSource.Move
    { source := NewSource fname r, prev := zeroRune, current := zeroRune, next := zeroRune,
      runes := [] }

/-- The method `Collect` of `ScannerSource`: the runes returned and the state after
the call. -/
def ScannerSource.Collect (s : ScannerSource) : List Int × ScannerSource :=
  (s.runes, { s with runes := [] })

/-- The method `CollectString` of `ScannerSource`; `toString` stands for the
conversion `string(runes)`. -/
def ScannerSource.CollectString (toString : List Int → GoString) (s : ScannerSource) :
    GoString × ScannerSource :=
  (toString s.Collect.1, s.Collect.2)

/-- The method `Include` of `ScannerSource`. -/
def ScannerSource.Include (s : ScannerSource) (fname : GoString) (r : RuneReader) :
    ScannerSource :=
  let s1 := s.invalidateNext
  let s2 : ScannerSource := { s1 with runes := [] }
  let s3 : ScannerSource := { s2 with source := s2.source.Include fname r }
  s3.Move

/-- The method `NextRune` of `ScannerSource`: the result and the state after the
call. -/
def ScannerSource.NextRune (s : ScannerSource) : ScannerRune × ScannerSource :=
  (s.lookahead.next, s.lookahead)

/-- The method `Next` of `ScannerSource`: the result and the state after the call. -/
def ScannerSource.Next (s : ScannerSource) : Int × ScannerSource :=
  (s.lookahead.next.Rune, s.lookahead)

/-- The method `Position` of `ScannerSource`. -/
def ScannerSource.Position (s : ScannerSource) : Position := s.source.Position

/-- The method `PrevRune` of `ScannerSource`. -/
def ScannerSource.PrevRune (s : ScannerSource) : ScannerRune := s.prev

/-- The method `Prev` of `ScannerSource`. -/
def ScannerSource.Prev (s : ScannerSource) : Int := s.prev.Rune

/-- A call on a `ScannerSource` that may change it and is not `Collect` or
`CollectString`. -/
inductive ScanCall where
  | Move
  | Accept (rune : Int)
  | Next
  | Include (fname : GoString) (r : RuneReader)

/-- The state after a call. -/
def ScannerSource.call (s : ScannerSource) : ScanCall → ScannerSource
  | .Move => s.Move
  | .Accept rune => (s.Accept rune).2
  | .Next => s.Next.2
  | .Include fname r => s.Include fname r

/-- The state after a sequence of calls. -/
def ScannerSource.calls (s : ScannerSource) : List ScanCall → ScannerSource
  | [] => s
  | c :: rest => (s.call c).calls rest

/-- The current rune as a list: empty when it is 0. -/
def currentIfNotZero (s : ScannerSource) : List Int :=
  if s.Current ≠ 0 then [s.Current] else []

/-- The runes other than 0 that were current when a sequence of calls moved past
them, after the runes `seen` before: `Move` and an `Accept` that matches move past
the current rune, `Include` forgets what was seen and moves past the current
rune. -/
def movedPast (s : ScannerSource) (seen : List Int) : List ScanCall → List Int
  | [] => seen
  | .Move :: rest => movedPast s.Move (seen ++ currentIfNotZero s) rest
  | .Accept rune :: rest =>
    if rune = s.Current then movedPast s.Move (seen ++ currentIfNotZero s) rest
    else movedPast s seen rest
  | .Next :: rest => movedPast s.Next.2 seen rest
  | .Include fname r :: rest => movedPast (s.Include fname r) (currentIfNotZero s) rest

/-! ### Lemmas on the inner loop -/

theorem joined_Lo (y z : Range32) : (joined y z).Lo = y.Lo := by
  unfold joined; split <;> rfl

theorem joined_Hi (y z : Range32) : (joined y z).Hi = max y.Hi z.Hi := by
  unfold joined; split <;> simp <;> omega

theorem joined_Stride (y z : Range32) : (joined y z).Stride = y.Stride := by
  unfold joined; split <;> rfl

theorem mergePass_cons (y : Range32) (rest : rangeSlice) :
    mergePass (y :: rest) =
      match mergePass rest with
      | ([], ok) => ([y], ok)
      | (z :: t, ok) =>
        if joinable y z then (joined y z :: t, false) else (y :: z :: t, ok) := rfl

/-- A run that leaves `ok` true changed nothing, and no two neighbours can be joined. -/
theorem mergePass_ok (r : rangeSlice) (h : (mergePass r).2 = true) :
    (mergePass r).1 = r ∧ r.Chain' (fun y z => joinable y z = false) := by
  induction r with
  | nil => exact ⟨rfl, List.chain'_nil⟩
  | cons y rest ih =>
    rw [mergePass_cons] at h ⊢
    rcases hp : mergePass rest with ⟨l, ok⟩
    rw [hp] at h ih
    cases l with
    | nil =>
      simp only at h ⊢
      obtain ⟨h1, _⟩ := ih h
      simp only at h1
      subst h1
      exact ⟨rfl, List.chain'_singleton y⟩
    | cons z t =>
      simp only at h ⊢
      by_cases hj : joinable y z = true
      · simp [hj] at h
      · simp only [hj, Bool.false_eq_true, if_false] at h ⊢
        obtain ⟨h1, h2⟩ := ih h
        simp only at h1
        subst h1
        refine ⟨rfl, ?_⟩
        exact List.chain'_cons.mpr ⟨by simpa using hj, h2⟩

/-- A run never lengthens the slice, and a run that joined a pair shortens it. -/
theorem mergePass_length (r : rangeSlice) :
    (mergePass r).1.length ≤ r.length ∧
      ((mergePass r).2 = false → (mergePass r).1.length < r.length) := by
  induction r with
  | nil => simp [mergePass]
  | cons y rest ih =>
    rw [mergePass_cons]
    rcases hp : mergePass rest with ⟨l, ok⟩
    rw [hp] at ih
    cases l with
    | nil =>
      simp only at ih ⊢
      refine ⟨by simp, fun h => ?_⟩
      have := ih.2 h
      simp only [List.length_cons, List.length_nil] at this ⊢
      omega
    | cons z t =>
      simp only at ih ⊢
      obtain ⟨ih1, ih2⟩ := ih
      by_cases hj : joinable y z = true
      · simp only [hj, if_true, List.length_cons] at ih1 ⊢
        exact ⟨by omega, fun _ => by omega⟩
      · simp only [hj, Bool.false_eq_true, if_false, List.length_cons] at ih1 ih2 ⊢
        exact ⟨by omega, fun h => by have := ih2 h; omega⟩

/-- The `Lo` fields after a run are a sublist of the `Lo` fields before it. -/
theorem mergePass_map_Lo (r : rangeSlice) :
    ((mergePass r).1.map Range32.Lo).Sublist (r.map Range32.Lo) := by
  induction r with
  | nil => simp [mergePass]
  | cons y rest ih =>
    rw [mergePass_cons]
    rcases hp : mergePass rest with ⟨l, ok⟩
    rw [hp] at ih
    cases l with
    | nil => simp
    | cons z t =>
      simp only at ih ⊢
      by_cases hj : joinable y z = true
      · simp only [hj, if_true, List.map_cons, joined_Lo]
        exact List.Sublist.cons₂ _ ((List.sublist_cons_self _ _).trans ih)
      · simp only [hj, Bool.false_eq_true, if_false, List.map_cons]
        exact List.Sublist.cons₂ _ ih

/-- A property of single ranges that `joined` keeps is kept by a run. -/
theorem mergePass_forall (Q : Range32 → Prop)
    (hQ : ∀ y z, Q y → Q z → Q (joined y z)) (r : rangeSlice)
    (h : ∀ x ∈ r, Q x) : ∀ x ∈ (mergePass r).1, Q x := by
  induction r with
  | nil => simp [mergePass]
  | cons y rest ih =>
    have ihr := ih (fun x hx => h x (List.mem_cons_of_mem _ hx))
    have hy := h y (List.mem_cons_self _ _)
    rw [mergePass_cons]
    rcases hp : mergePass rest with ⟨l, ok⟩
    rw [hp] at ihr
    cases l with
    | nil => simpa using hy
    | cons z t =>
      simp only at ihr ⊢
      by_cases hj : joinable y z = true
      · simp only [hj, if_true]
        intro x hx
        rcases List.mem_cons.mp hx with rfl | hx
        · exact hQ y z hy (ihr z (List.mem_cons_self _ _))
        · exact ihr x (List.mem_cons_of_mem _ hx)
      · simp only [hj, Bool.false_eq_true, if_false]
        intro x hx
        rcases List.mem_cons.mp hx with rfl | hx
        · exact hy
        · exact ihr x hx

/-! ### Lemmas on the outer loop -/

/-- With a bound above the length of the slice the outer loop ends by a run that
leaves `ok` true: its result admits no further join, its `Lo` fields are among
the `Lo` fields at the start, and it keeps every property that `joined` keeps. -/
theorem mergeLoop_spec (fuel : Nat) (r : rangeSlice) (hfuel : r.length < fuel) :
    ∃ out, mergeLoop fuel r = some out ∧ mergePass out = (out, true) ∧
      (out.map Range32.Lo).Sublist (r.map Range32.Lo) ∧
      ∀ Q : Range32 → Prop, (∀ y z, Q y → Q z → Q (joined y z)) →
        (∀ x ∈ r, Q x) → ∀ x ∈ out, Q x := by
  induction fuel generalizing r with
  | zero => omega
  | succ n ih =>
    rcases hp : mergePass r with ⟨r', ok⟩
    cases ok with
    | true =>
      have hok := mergePass_ok r (by rw [hp])
      rw [hp] at hok
      have hr' : r' = r := hok.1
      subst hr'
      exact ⟨r', by simp [mergeLoop, hp], hp, List.Sublist.refl _, fun _ _ h => h⟩
    | false =>
      have hlen := (mergePass_length r).2 (by rw [hp])
      rw [hp] at hlen
      simp only at hlen
      obtain ⟨out, h1, h2, h3, h4⟩ := ih r' (by omega)
      have hsub := mergePass_map_Lo r
      rw [hp] at hsub
      refine ⟨out, by simp [mergeLoop, hp, h1], h2, h3.trans hsub, ?_⟩
      intro Q hQ hr
      have := mergePass_forall Q hQ r hr
      rw [hp] at this
      exact h4 Q hQ this

/-- The outer loop of `normalize` always ends within the bound `len(r) + 1`. -/
theorem normalize_returns (sort : rangeSlice → rangeSlice) (r : rangeSlice) :
    ∃ out, normalize sort r = some out ∧ mergePass out = (out, true) := by
  obtain ⟨out, h1, h2, _⟩ := mergeLoop_spec ((sort r).length + 1) (sort r) (by omega)
  exact ⟨out, h1, h2⟩

theorem joined_le (y z : Range32) (hy : y.Lo ≤ y.Hi) : (joined y z).Lo ≤ (joined y z).Hi := by
  rw [joined_Lo, joined_Hi]; omega

theorem joined_inBounds (y z : Range32) (hy : y.inBounds) (hz : z.inBounds) :
    (joined y z).inBounds := by
  unfold Range32.inBounds at *
  rw [joined_Lo, joined_Hi, joined_Stride]
  omega

/-- Neighbours that cannot be joined are more than one apart, hence so is every pair. -/
theorem gap_of_chain (r : rangeSlice) (hc : r.Chain' (fun y z => joinable y z = false))
    (hb : ∀ x ∈ r, x.inBounds) (hr : ∀ x ∈ r, x.Lo ≤ x.Hi) :
    r.Pairwise (fun a b => a.Hi + 1 < b.Lo) := by
  induction r with
  | nil => exact List.Pairwise.nil
  | cons y rest ih =>
    have ihr := ih (List.Chain'.tail hc) (fun x hx => hb x (List.mem_cons_of_mem _ hx))
      (fun x hx => hr x (List.mem_cons_of_mem _ hx))
    refine List.Pairwise.cons ?_ ihr
    cases rest with
    | nil => simp
    | cons z t =>
      have hyz : joinable y z = false := (List.chain'_cons.mp hc).1
      have hzb : z.inBounds := hb z (by simp)
      have hzr : z.Lo ≤ z.Hi := hr z (by simp)
      unfold Range32.inBounds at hzb
      simp only [joinable, Bool.or_eq_false_iff, decide_eq_false_iff_not] at hyz
      have hgap : y.Hi + 1 < z.Lo := by
        obtain ⟨h1, h2⟩ := hyz
        have h3 : (y.Hi + 1) % 4294967296 = y.Hi + 1 := Nat.mod_eq_of_lt (by omega)
        rw [h3] at h2
        omega
      intro b hb'
      rcases List.mem_cons.mp hb' with rfl | hbt
      · exact hgap
      · have := (List.pairwise_cons.mp ihr).1 b hbt
        omega

/-- Neighbours that cannot be joined, each with `Lo ≤ Hi`, have `Lo` strictly rising. -/
theorem strict_of_chain (r : rangeSlice) (hc : r.Chain' (fun y z => joinable y z = false))
    (hr : ∀ x ∈ r, x.Lo ≤ x.Hi) :
    r.Pairwise (fun a b => a.Lo < b.Lo) := by
  induction r with
  | nil => exact List.Pairwise.nil
  | cons y rest ih =>
    have ihr := ih (List.Chain'.tail hc) (fun x hx => hr x (List.mem_cons_of_mem _ hx))
    refine List.Pairwise.cons ?_ ihr
    cases rest with
    | nil => simp
    | cons z t =>
      have hyz : joinable y z = false := (List.chain'_cons.mp hc).1
      have hyr : y.Lo ≤ y.Hi := hr y (by simp)
      simp only [joinable, Bool.or_eq_false_iff, decide_eq_false_iff_not] at hyz
      intro b hb'
      rcases List.mem_cons.mp hb' with rfl | hbt
      · omega
      · have := (List.pairwise_cons.mp ihr).1 b hbt
        omega

/-! ### Sorting -/

theorem insertByLo_perm (x : Range32) (l : rangeSlice) : (insertByLo x l).Perm (x :: l) := by
  induction l with
  | nil => exact List.Perm.refl _
  | cons y t ih =>
    unfold insertByLo
    split
    · exact List.Perm.refl _
    · exact (List.Perm.cons y ih).trans (List.Perm.swap x y t)

theorem insertByLo_sorted (x : Range32) (l : rangeSlice)
    (h : l.Pairwise (fun a b => a.Lo ≤ b.Lo)) :
    (insertByLo x l).Pairwise (fun a b => a.Lo ≤ b.Lo) := by
  induction l with
  | nil => simp [insertByLo]
  | cons y t ih =>
    obtain ⟨hy, ht⟩ := List.pairwise_cons.mp h
    unfold insertByLo
    split
    · rename_i hxy
      refine List.Pairwise.cons ?_ h
      intro b hb
      rcases List.mem_cons.mp hb with rfl | hbt
      · exact hxy
      · exact le_trans hxy (hy b hbt)
    · rename_i hxy
      refine List.Pairwise.cons ?_ (ih ht)
      intro b hb
      rcases List.mem_cons.mp ((insertByLo_perm x t).subset hb) with rfl | hbt
      · omega
      · exact hy b hbt

theorem stableSort_perm (r : rangeSlice) : (stableSort r).Perm r := by
  induction r with
  | nil => exact List.Perm.refl _
  | cons x t ih => exact (insertByLo_perm x (stableSort t)).trans (List.Perm.cons x ih)

theorem stableSort_sorted (r : rangeSlice) :
    (stableSort r).Pairwise (fun a b => a.Lo ≤ b.Lo) := by
  induction r with
  | nil => exact List.Pairwise.nil
  | cons x t ih => exact insertByLo_sorted x _ ih

theorem stableSort_contract : SortContract stableSort := by
  refine ⟨stableSort_perm, fun r => ?_⟩
  refine (stableSort_sorted r).imp ?_
  intro a b hab
  simp [rangeLess, hab]

/-- A slice whose `Lo` fields rise strictly is left as it is by every sort that
keeps the contract: there is one way only to put it in order. -/
theorem sort_fixes_strict (sort : rangeSlice → rangeSlice) (hsort : SortContract sort)
    (out : rangeSlice) (hs : out.Pairwise (fun a b => a.Lo < b.Lo)) : sort out = out := by
  obtain ⟨hperm, hsorted⟩ := hsort
  have hne : out.Pairwise (fun a b => a.Lo ≠ b.Lo) := hs.imp (fun h => Nat.ne_of_lt h)
  have hne' : (sort out).Pairwise (fun a b => a.Lo ≠ b.Lo) :=
    ((hperm out).pairwise_iff (fun h => Ne.symm h)).mpr hne
  have hle : (sort out).Pairwise (fun a b => a.Lo ≤ b.Lo) := by
    refine (hsorted out).imp ?_
    intro a b hab
    simpa [rangeLess] using hab
  have hlt : (sort out).Pairwise (fun a b => a.Lo < b.Lo) :=
    hle.imp₂ (fun a b h1 h2 => Nat.lt_of_le_of_ne h1 h2) hne'
  haveI : IsAntisymm Range32 (fun a b => a.Lo < b.Lo) :=
    ⟨fun a b h1 h2 => absurd h1 (Nat.lt_asymm h2)⟩
  exact List.eq_of_perm_of_sorted (hperm out) hlt hs

/-! ### C1, C2 -/

/-- C1. For every slice of ranges, each within `uint32` and with `Lo ≤ Hi`, and
for every sort that keeps the contract of `sort.Sort`, `normalize` ends and leaves
a slice that is sorted ascending by `Lo`, in which every range still has
`Lo ≤ Hi`, and in which `Hi_i + 1 < Lo_j` for all positions `i < j`. -/
theorem normalize_range_set (sort : rangeSlice → rangeSlice) (hsort : SortContract sort)
    (r : rangeSlice) (hb : ∀ x ∈ r, x.inBounds) (hr : ∀ x ∈ r, x.Lo ≤ x.Hi) :
    ∃ out, normalize sort r = some out ∧
      out.Pairwise (fun a b => a.Lo < b.Lo) ∧
      (∀ x ∈ out, x.Lo ≤ x.Hi) ∧
      ∀ (i j : Nat) (hij : i < j) (hj : j < out.length),
        (out.get ⟨i, Nat.lt_trans hij hj⟩).Hi + 1 < (out.get ⟨j, hj⟩).Lo := by
  obtain ⟨out, h1, h2, _, h4⟩ :=
    mergeLoop_spec ((sort r).length + 1) (sort r) (by omega)
  have hmem : ∀ x ∈ sort r, x ∈ r := fun x hx => (hsort.1 r).subset hx
  have hob : ∀ x ∈ out, x.inBounds :=
    h4 Range32.inBounds joined_inBounds (fun x hx => hb x (hmem x hx))
  have hor : ∀ x ∈ out, x.Lo ≤ x.Hi :=
    h4 (fun x => x.Lo ≤ x.Hi) (fun y z hy _ => joined_le y z hy)
      (fun x hx => hr x (hmem x hx))
  have hchain := (mergePass_ok out (by rw [h2])).2
  refine ⟨out, h1, strict_of_chain out hchain hor, hor, ?_⟩
  intro i j hij hj
  exact List.pairwise_iff_get.mp (gap_of_chain out hchain hob hor) ⟨i, _⟩ ⟨j, hj⟩ hij

/-- The statement of C1 at three ranges given out of order, two of them overlapping. -/
theorem normalize_range_set_witness :
    SortContract stableSort ∧
    (∀ x ∈ [Range32.mk 5 9 1, Range32.mk 1 3 1, Range32.mk 4 6 1], x.inBounds) ∧
    (∀ x ∈ [Range32.mk 5 9 1, Range32.mk 1 3 1, Range32.mk 4 6 1], x.Lo ≤ x.Hi) ∧
    ∃ out, normalize stableSort [Range32.mk 5 9 1, Range32.mk 1 3 1, Range32.mk 4 6 1]
        = some out ∧
      out.Pairwise (fun a b => a.Lo < b.Lo) ∧
      (∀ x ∈ out, x.Lo ≤ x.Hi) ∧
      ∀ (i j : Nat) (hij : i < j) (hj : j < out.length),
        (out.get ⟨i, Nat.lt_trans hij hj⟩).Hi + 1 < (out.get ⟨j, hj⟩).Lo :=
  ⟨stableSort_contract, by decide, by decide,
    normalize_range_set stableSort stableSort_contract _ (by decide) (by decide)⟩

/-- C2. For every range set of a compiled lexer, a slice of ranges in which each
range has `Lo ≤ Hi`, and for every sort that keeps the contract of `sort.Sort`,
`normalize` returns, and applied to its own result it returns that result again. -/
theorem normalize_idempotent (sort : rangeSlice → rangeSlice) (hsort : SortContract sort)
    (r : rangeSlice) (hr : ∀ x ∈ r, x.Lo ≤ x.Hi) :
    ∃ out, normalize sort r = some out ∧ normalize sort out = some out := by
  obtain ⟨out, h1, h2, _, h4⟩ :=
    mergeLoop_spec ((sort r).length + 1) (sort r) (by omega)
  have hmem : ∀ x ∈ sort r, x ∈ r := fun x hx => (hsort.1 r).subset hx
  have hor : ∀ x ∈ out, x.Lo ≤ x.Hi :=
    h4 (fun x => x.Lo ≤ x.Hi) (fun y z hy _ => joined_le y z hy)
      (fun x hx => hr x (hmem x hx))
  have hchain := (mergePass_ok out (by rw [h2])).2
  have hfix := sort_fixes_strict sort hsort out (strict_of_chain out hchain hor)
  refine ⟨out, h1, ?_⟩
  unfold normalize
  rw [hfix]
  simp [mergeLoop, h2]

/-- The statement of C2 at three ranges, two of them with the same `Lo`: the result
is the range 1 to 8 both times. -/
theorem normalize_idempotent_witness :
    SortContract stableSort ∧
    (∀ x ∈ [Range32.mk 7 8 1, Range32.mk 1 3 1, Range32.mk 1 6 1], x.Lo ≤ x.Hi) ∧
    normalize stableSort [Range32.mk 7 8 1, Range32.mk 1 3 1, Range32.mk 1 6 1]
      = some [Range32.mk 1 8 1] ∧
    normalize stableSort [Range32.mk 1 8 1] = some [Range32.mk 1 8 1] ∧
    ∃ out, normalize stableSort [Range32.mk 7 8 1, Range32.mk 1 3 1, Range32.mk 1 6 1]
        = some out ∧ normalize stableSort out = some out :=
  ⟨stableSort_contract, by decide, by decide, by decide,
    normalize_idempotent stableSort stableSort_contract _ (by decide)⟩

/-! ### C8, C9: isRE -/

theorem isRE_of_cond (s : GoString)
    (h : s.length > 2 ∧ s[0]? = some slash ∧ s[s.length - 1]? = some slash) :
    isRE s = ((s.take (s.length - 1)).drop 1, true) := by
  simp only [isRE, h, and_self, if_true]

theorem isRE_of_not_cond (s : GoString)
    (h : ¬ (s.length > 2 ∧ s[0]? = some slash ∧ s[s.length - 1]? = some slash)) :
    isRE s = (s, false) := by
  simp only [isRE, h, if_false]

/-- The test of `isRE` holds exactly for the strings `'/' t '/'` with `t` not empty. -/
theorem isRE_cond_iff (s : GoString) :
    (s.length > 2 ∧ s[0]? = some slash ∧ s[s.length - 1]? = some slash) ↔
      ∃ t, t ≠ [] ∧ s = slash :: (t ++ [slash]) := by
  constructor
  · rintro ⟨hlen, h0, hlast⟩
    cases s with
    | nil => simp at hlen
    | cons a s' =>
      have ha : a = slash := by simpa using h0
      have hs' : s' ≠ [] := by
        intro h; subst h; simp at hlen
      have hl : s'.getLast hs' = slash := by
        have h1 : (a :: s')[(a :: s').length - 1]? = s'[s'.length - 1]? := by
          have : (a :: s').length - 1 = (s'.length - 1) + 1 := by
            have := List.length_pos.mpr hs'
            simp only [List.length_cons]; omega
          rw [this, List.getElem?_cons_succ]
        rw [h1, ← List.getLast?_eq_getElem?, List.getLast?_eq_getLast _ hs'] at hlast
        exact Option.some.inj hlast
      refine ⟨s'.dropLast, ?_, ?_⟩
      · intro h
        have h2 : s'.dropLast.length = s'.length - 1 := List.length_dropLast s'
        rw [h] at h2
        simp only [List.length_cons, List.length_nil] at hlen h2
        omega
      · rw [ha, ← hl, List.dropLast_append_getLast hs']
  · rintro ⟨t, ht, rfl⟩
    have hpos := List.length_pos.mpr ht
    refine ⟨by simp only [List.length_cons, List.length_append, List.length_nil]; omega,
      by simp, ?_⟩
    have : (slash :: (t ++ [slash])).length - 1 = t.length + 1 := by
      simp
    rw [this, List.getElem?_cons_succ]
    simp

/-- C8. `isRE s` is `(inner, true)` exactly when `s` is `'/'`, then at least one
byte, then `'/'`, and `inner` is `s` without its first and last byte; in every
other case it is `(s, false)`.  In particular `isRE ("/" + t + "/") = (t, true)`
for every `t` that is not empty. -/
theorem isRE_spec (s : GoString) :
    ((isRE s).2 = true ↔ ∃ t, t ≠ [] ∧ s = slash :: (t ++ [slash])) ∧
    ((isRE s).2 = true → (isRE s).1 = (s.drop 1).dropLast) ∧
    ((isRE s).2 = false → (isRE s).1 = s) ∧
    (∀ t : GoString, t ≠ [] → isRE (slash :: (t ++ [slash])) = (t, true)) := by
  have key : ∀ u : GoString, ∀ t, t ≠ [] → u = slash :: (t ++ [slash]) →
      isRE u = (t, true) ∧ (u.drop 1).dropLast = t := by
    intro u t ht hu
    have hc := (isRE_cond_iff u).mpr ⟨t, ht, hu⟩
    rw [isRE_of_cond u hc]
    subst hu
    simp
  by_cases hc : s.length > 2 ∧ s[0]? = some slash ∧ s[s.length - 1]? = some slash
  · obtain ⟨t, ht, hs⟩ := (isRE_cond_iff s).mp hc
    obtain ⟨h1, h2⟩ := key s t ht hs
    refine ⟨⟨fun _ => ⟨t, ht, hs⟩, fun _ => by rw [h1]⟩, fun _ => by rw [h1, h2],
      fun h => by rw [h1] at h; simp at h, fun t' ht' => (key _ t' ht' rfl).1⟩
  · have h1 := isRE_of_not_cond s hc
    refine ⟨⟨fun h => by rw [h1] at h; simp at h,
      fun h => absurd ((isRE_cond_iff s).mpr h) hc⟩,
      fun h => by rw [h1] at h; simp at h, fun _ => by rw [h1],
      fun t' ht' => (key _ t' ht' rfl).1⟩

/-- C9, amended. For every string `s` of more than two bytes that starts with `'/'`
and ends with `'/'`, `isRE s` is `s` without the leading and the trailing `'/'`
together with true; for every other string it is the string itself and false. -/
theorem isRE_of_slashes (s : GoString) :
    isRE s =
      if 2 < s.length ∧ s.head? = some slash ∧ s.getLast? = some slash then
        ((s.drop 1).dropLast, true)
      else (s, false) := by
  have hh : s.head? = s[0]? := by cases s <;> simp
  have hl : s.getLast? = s[s.length - 1]? := List.getLast?_eq_getElem? s
  rw [hh, hl]
  by_cases hc : s.length > 2 ∧ s[0]? = some slash ∧ s[s.length - 1]? = some slash
  · obtain ⟨t, ht, hs⟩ := (isRE_cond_iff s).mp hc
    rw [if_pos hc, isRE_of_cond s hc]
    subst hs
    simp
  · rw [if_neg hc, isRE_of_not_cond s hc]

/-- C9 as stated fails: `"//"` and `"/"` start and end with `'/'`, and `isRE` returns
them unchanged with false. -/
theorem isRE_two_slashes :
    [slash, slash].head? = some slash ∧ [slash, slash].getLast? = some slash ∧
    isRE [slash, slash] = ([slash, slash], false) ∧
    [slash].head? = some slash ∧ [slash].getLast? = some slash ∧
    isRE [slash] = ([slash], false) := by
  decide

/-! ### C10: isIdent -/

/-- On runes that start at a positive byte index the loop of `isIdent` tests
`identNext` only. -/
theorem isIdentLoop_tail (isLetter isDigit : Nat → Bool) (rest : List (Nat × Nat))
    (h : ∀ p ∈ rest, 0 < p.1) :
    isIdentLoop isLetter isDigit rest = true ↔
      ∀ p ∈ rest, identNext isLetter isDigit p.2 = true := by
  induction rest with
  | nil => simp [isIdentLoop]
  | cons p t ih =>
    obtain ⟨i, rune⟩ := p
    have hi : 0 < i := h (i, rune) (List.mem_cons_self _ _)
    have hi0 : (i == 0) = false := by simp; omega
    have iht := ih (fun q hq => h q (List.mem_cons_of_mem _ hq))
    simp only [isIdentLoop, hi0, Bool.false_and, Bool.false_eq_true, if_false,
      List.mem_cons, forall_eq_or_imp]
    cases hn : identNext isLetter isDigit rune <;> simp [iht]

/-- On every string that is not empty `isIdent` agrees with the specification: it is
true exactly when the first rune is a letter or `'_'` and every following rune is a
letter, a digit or `'_'`. -/
theorem isIdent_iff_of_nonempty (isLetter isDigit : Nat → Bool)
    (rangeString : GoString → List (Nat × Nat)) (hrange : RangeContract rangeString)
    (s : GoString) (hs : s ≠ []) :
    isIdent isLetter isDigit rangeString s = true ↔
      specIdentifier isLetter isDigit ((rangeString s).map Prod.snd) := by
  obtain ⟨_, hne, hidx⟩ := hrange
  unfold isIdent specIdentifier
  cases hr : rangeString s with
  | nil => exact absurd hr (hne s hs)
  | cons p rest =>
    obtain ⟨i, rune⟩ := p
    obtain ⟨hi, hrest⟩ := hidx s i rune rest hr
    subst hi
    have htail := isIdentLoop_tail isLetter isDigit rest hrest
    have hnext : ∀ r, identNext isLetter isDigit r = true ↔
        (isLetter r = true ∨ isDigit r = true ∨ r = underscore) := by
      intro r
      simp only [identNext, identFirst, Bool.or_eq_true, beq_iff_eq]
      tauto
    constructor
    · intro h
      simp only [isIdentLoop, beq_self_eq_true, Bool.true_and] at h
      have hf : identFirst isLetter rune = true := by
        cases hf : identFirst isLetter rune
        · simp [hf] at h
        · rfl
      have hn : identNext isLetter isDigit rune = true := by simp [identNext, hf]
      simp only [hf, hn, Bool.not_true, Bool.false_eq_true, if_false] at h
      refine ⟨rune, rest.map Prod.snd, by simp, ?_, ?_⟩
      · simpa [identFirst] using hf
      · intro r hr'
        obtain ⟨q, hq, rfl⟩ := List.mem_map.mp hr'
        exact (hnext q.2).mp (htail.mp h q hq)
    · rintro ⟨c, rest', heq, hc, hall⟩
      simp only [List.map_cons, List.cons.injEq] at heq
      obtain ⟨rfl, rfl⟩ := heq
      have hf : identFirst isLetter rune = true := by simpa [identFirst] using hc
      have hn : identNext isLetter isDigit rune = true := by simp [identNext, hf]
      simp only [isIdentLoop, hf, hn, Bool.not_true, Bool.and_false, Bool.false_eq_true,
        if_false]
      refine htail.mpr (fun q hq => (hnext q.2).mpr (hall q.2 ?_))
      exact List.mem_map.mpr ⟨q, hq, rfl⟩

/-- C10 at the empty string: `range ""` yields no rune, the loop of `isIdent` is
not entered and `isIdent` returns true, while the empty string has no first rune
and is no identifier. -/
theorem isIdent_empty_string (isLetter isDigit : Nat → Bool)
    (rangeString : GoString → List (Nat × Nat)) (hempty : rangeString [] = []) :
    isIdent isLetter isDigit rangeString [] = true ∧
      ¬ specIdentifier isLetter isDigit ((rangeString []).map Prod.snd) := by
  refine ⟨by simp [isIdent, hempty, isIdentLoop], ?_⟩
  rintro ⟨c, rest, heq, _⟩
  rw [hempty] at heq
  simp at heq

/-- The empty string under the `range` of ASCII strings. -/
theorem isIdent_empty_string_witness :
    asciiRange [] = [] ∧
    isIdent asciiLetter asciiDigit asciiRange [] = true ∧
      ¬ specIdentifier asciiLetter asciiDigit ((asciiRange []).map Prod.snd) :=
  ⟨rfl, isIdent_empty_string asciiLetter asciiDigit asciiRange rfl⟩

/-! ### Lemmas on maps -/

theorem mapGet_isSome_iff {κ ν : Type} [DecidableEq κ] (m : List (κ × ν)) (k : κ) :
    (mapGet m k).isSome = true ↔ k ∈ m.map Prod.fst := by
  induction m with
  | nil => simp [mapGet]
  | cons p t ih =>
    obtain ⟨k', v⟩ := p
    by_cases h : k' = k
    · simp [mapGet, h]
    · have h' : ¬ k = k' := fun e => h e.symm
      simp [mapGet, h, h', ih]

theorem mapGet_eq_none_iff {κ ν : Type} [DecidableEq κ] (m : List (κ × ν)) (k : κ) :
    mapGet m k = none ↔ k ∉ m.map Prod.fst := by
  rw [← mapGet_isSome_iff]
  cases mapGet m k <;> simp

theorem mapSet_keys_of_not_mem {κ ν : Type} [DecidableEq κ] (m : List (κ × ν)) (k : κ) (v : ν)
    (h : k ∉ m.map Prod.fst) : (mapSet m k v).map Prod.fst = m.map Prod.fst ++ [k] := by
  induction m with
  | nil => simp [mapSet]
  | cons p t ih =>
    obtain ⟨k', v'⟩ := p
    have hk : ¬ k' = k := by
      intro e; apply h; simp [e]
    have ht : k ∉ t.map Prod.fst := by
      intro e; apply h; simp only [List.map_cons, List.mem_cons]; exact Or.inr e
    simp [mapSet, hk, ih ht]

theorem mapSet_keys_of_mem {κ ν : Type} [DecidableEq κ] (m : List (κ × ν)) (k : κ) (v : ν)
    (h : k ∈ m.map Prod.fst) : (mapSet m k v).map Prod.fst = m.map Prod.fst := by
  induction m with
  | nil => simp at h
  | cons p t ih =>
    obtain ⟨k', v'⟩ := p
    by_cases hk : k' = k
    · simp [mapSet, hk]
    · have ht : k ∈ t.map Prod.fst := by
        simp only [List.map_cons, List.mem_cons] at h
        rcases h with e | e
        · exact absurd e.symm hk
        · exact e
      simp [mapSet, hk, ih ht]

theorem mapGet_mapSet_self {κ ν : Type} [DecidableEq κ] (m : List (κ × ν)) (k : κ) (v : ν) :
    mapGet (mapSet m k v) k = some v := by
  induction m with
  | nil => simp [mapSet, mapGet]
  | cons p t ih =>
    obtain ⟨k', v'⟩ := p
    by_cases hk : k' = k
    · simp [mapSet, mapGet, hk]
    · simp [mapSet, mapGet, hk, ih]

theorem mapGet_mapSet_of_ne {κ ν : Type} [DecidableEq κ] (m : List (κ × ν)) (k k₁ : κ) (v : ν)
    (h : k ≠ k₁) : mapGet (mapSet m k v) k₁ = mapGet m k₁ := by
  induction m with
  | nil => simp [mapSet, mapGet, h]
  | cons p t ih =>
    obtain ⟨k', v'⟩ := p
    by_cases hk : k' = k
    · subst hk
      simp [mapSet, mapGet, h]
    · by_cases hk1 : k' = k₁
      · subst hk1
        simp [mapSet, mapGet, hk]
      · simp [mapSet, mapGet, hk, hk1, ih]

/-! ### Lemmas on the first loop -/

/-- The first loop stops with the duplicate-id panic exactly at an id that `res`
holds already. -/
theorem classifyStep_of_mem {N S : Type} (env : Env N S) (grammar : GoString) (t : Tables)
    (tokdef : GoString) (id : Int) (h : id ∈ t.res.map Prod.fst) :
    classifyStep env grammar t tokdef id = .error (.duplicateID id tokdef) := by
  have := (mapGet_isSome_iff t.res id).mpr h
  simp [classifyStep, this]

/-- At an id that `res` does not hold the body of the first loop does not panic; it
adds the id to `res`, after the ids held before. -/
theorem classifyStep_of_not_mem {N S : Type} (env : Env N S) (grammar : GoString) (t : Tables)
    (tokdef : GoString) (id : Int) (h : id ∉ t.res.map Prod.fst) :
    ∃ t', classifyStep env grammar t tokdef id = .ok t' ∧
      t'.res.map Prod.fst = t.res.map Prod.fst ++ [id] ∧
      (∀ k, k ≠ id → mapGet t'.res k = mapGet t.res k) ∧
      (grammar = [] → t'.prodnames = t.prodnames) ∧
      (grammar = [] → (isRE tokdef).2 = false →
        mapGet t'.res id = some (env.quoteMeta tokdef)) := by
  have hn : (mapGet t.res id).isSome = false := by
    rw [(mapGet_eq_none_iff t.res id).mpr h]; rfl
  unfold classifyStep
  simp only [hn, Bool.false_eq_true, if_false]
  rcases hre : isRE tokdef with ⟨re, b⟩
  cases b with
  | true =>
    refine ⟨_, rfl, mapSet_keys_of_not_mem _ _ _ h,
      fun k hk => mapGet_mapSet_of_ne _ _ _ _ (Ne.symm hk), fun _ => rfl, ?_⟩
    intro _ hf
    simp at hf
  | false =>
    by_cases hg : grammar = [] ∨
        isIdent env.isLetter env.isDigit env.rangeString tokdef = false
    · simp only [hg, if_true]
      exact ⟨_, rfl, mapSet_keys_of_not_mem _ _ _ h,
        fun k hk => mapGet_mapSet_of_ne _ _ _ _ (Ne.symm hk), fun _ => rfl,
        fun _ _ => mapGet_mapSet_self _ _ _⟩
    · simp only [hg, if_false]
      refine ⟨_, rfl, mapSet_keys_of_not_mem _ _ _ h,
        fun k hk => mapGet_mapSet_of_ne _ _ _ _ (Ne.symm hk), ?_, ?_⟩
      · intro hge; exact absurd (Or.inl hge) hg
      · intro hge; exact absurd (Or.inl hge) hg

/-- When an id occurs twice among the ids held by `res` and the ids still to come,
the first loop panics with the duplicate-id error for an entry of `tokdefs`. -/
theorem classify_duplicate {N S : Type} (env : Env N S) (grammar : GoString)
    (tokdefs : List (GoString × Int)) (t : Tables)
    (hnd : (t.res.map Prod.fst).Nodup)
    (hdup : ¬ (t.res.map Prod.fst ++ tokdefs.map Prod.snd).Nodup) :
    ∃ id tokdef, (tokdef, id) ∈ tokdefs ∧
      classify env grammar t tokdefs = .error (.duplicateID id tokdef) := by
  induction tokdefs generalizing t with
  | nil => simp at hdup; exact absurd hnd hdup
  | cons p rest ih =>
    obtain ⟨tokdef, id⟩ := p
    by_cases hmem : id ∈ t.res.map Prod.fst
    · refine ⟨id, tokdef, List.mem_cons_self _ _, ?_⟩
      simp [classify, classifyStep_of_mem env grammar t tokdef id hmem]
    · obtain ⟨t', h1, h2, _⟩ := classifyStep_of_not_mem env grammar t tokdef id hmem
      have hnd' : (t'.res.map Prod.fst).Nodup := by
        rw [h2]
        exact List.Nodup.append hnd (List.nodup_singleton id) (by simpa using hmem)
      have hdup' : ¬ (t'.res.map Prod.fst ++ rest.map Prod.snd).Nodup := by
        rw [h2]
        simpa using hdup
      obtain ⟨id', tokdef', hm, hc⟩ := ih t' hnd' hdup'
      refine ⟨id', tokdef', List.mem_cons_of_mem _ hm, ?_⟩
      simp [classify, h1, hc]

/-- When the first loop ends without panic, `res` holds the ids it held before and
then the ids of `tokdefs`, each once. -/
theorem classify_ok_keys {N S : Type} (env : Env N S) (grammar : GoString)
    (tokdefs : List (GoString × Int)) (t t' : Tables)
    (hnd : (t.res.map Prod.fst).Nodup)
    (h : classify env grammar t tokdefs = .ok t') :
    t'.res.map Prod.fst = t.res.map Prod.fst ++ tokdefs.map Prod.snd ∧
      (t'.res.map Prod.fst).Nodup := by
  induction tokdefs generalizing t with
  | nil =>
    simp only [classify, Except.ok.injEq] at h
    subst h
    simpa using hnd
  | cons p rest ih =>
    obtain ⟨tokdef, id⟩ := p
    by_cases hmem : id ∈ t.res.map Prod.fst
    · simp [classify, classifyStep_of_mem env grammar t tokdef id hmem] at h
    · obtain ⟨t1, h1, h2, _⟩ := classifyStep_of_not_mem env grammar t tokdef id hmem
      have hnd' : (t1.res.map Prod.fst).Nodup := by
        rw [h2]
        exact List.Nodup.append hnd (List.nodup_singleton id) (by simpa using hmem)
      simp only [classify, h1] at h
      obtain ⟨h3, h4⟩ := ih t1 hnd' h
      exact ⟨by rw [h3, h2]; simp, h4⟩

/-- When the ids of `tokdefs` are distinct and `res` holds none of them, the first
loop ends without panic. -/
theorem classify_of_nodup {N S : Type} (env : Env N S) (grammar : GoString)
    (tokdefs : List (GoString × Int)) (t : Tables)
    (hnd : (t.res.map Prod.fst ++ tokdefs.map Prod.snd).Nodup) :
    ∃ t', classify env grammar t tokdefs = .ok t' := by
  induction tokdefs generalizing t with
  | nil => exact ⟨t, rfl⟩
  | cons p rest ih =>
    obtain ⟨tokdef, id⟩ := p
    have hmem : id ∉ t.res.map Prod.fst := by
      intro hm
      have := (List.nodup_append.mp hnd).2.2
      exact this hm (by simp)
    obtain ⟨t1, h1, h2, _⟩ := classifyStep_of_not_mem env grammar t tokdef id hmem
    have hnd' : (t1.res.map Prod.fst ++ rest.map Prod.snd).Nodup := by
      rw [h2]; simpa using hnd
    obtain ⟨t', h'⟩ := ih t1 hnd'
    exact ⟨t', by simp [classify, h1, h']⟩

/-- Without a grammar the first loop leaves `prodnames` as it was, leaves the entries
of `res` for other ids as they were, and records the quoted token definition for
every entry of `tokdefs` that is not of the form `/…/`. -/
theorem classify_no_grammar {N S : Type} (env : Env N S)
    (tokdefs : List (GoString × Int)) (t t' : Tables)
    (hnd : (t.res.map Prod.fst).Nodup)
    (h : classify env [] t tokdefs = .ok t') :
    t'.prodnames = t.prodnames ∧
      (∀ k, k ∉ tokdefs.map Prod.snd → mapGet t'.res k = mapGet t.res k) ∧
      (∀ tokdef id, (tokdef, id) ∈ tokdefs → (isRE tokdef).2 = false →
        mapGet t'.res id = some (env.quoteMeta tokdef)) := by
  induction tokdefs generalizing t with
  | nil =>
    simp only [classify, Except.ok.injEq] at h
    subst h
    exact ⟨rfl, fun _ _ => rfl, fun _ _ hm => by simp at hm⟩
  | cons p rest ih =>
    obtain ⟨tokdef, id⟩ := p
    by_cases hmem : id ∈ t.res.map Prod.fst
    · simp [classify, classifyStep_of_mem env [] t tokdef id hmem] at h
    · obtain ⟨t1, h1, h2, h3, h4, h5⟩ := classifyStep_of_not_mem env [] t tokdef id hmem
      have hnd1 : (t1.res.map Prod.fst).Nodup := by
        rw [h2]
        exact List.Nodup.append hnd (List.nodup_singleton id) (by simpa using hmem)
      simp only [classify, h1] at h
      obtain ⟨i1, i2, i3⟩ := ih t1 hnd1 h
      have hkeys := classify_ok_keys env [] rest t1 t' hnd1 h
      have hid : id ∉ rest.map Prod.snd := by
        intro hm
        have hd := hkeys.2
        rw [hkeys.1, h2] at hd
        exact (List.nodup_append.mp hd).2.2 (by simp) hm
      refine ⟨by rw [i1, h4 rfl], ?_, ?_⟩
      · intro k hk
        simp only [List.map_cons, List.mem_cons, not_or] at hk
        rw [i2 k hk.2, h3 k hk.1]
      · intro tokdef' id' hm hre
        rcases List.mem_cons.mp hm with e | hm'
        · obtain ⟨rfl, rfl⟩ := Prod.mk.inj e
          rw [i2 id' hid]
          exact h5 rfl hre
        · exact i3 tokdef' id' hm' hre

/-! ### Lemmas on the grammar pass -/

/-- The loop of the grammar pass assigns to ids that `res` holds already, so it
leaves the set of ids of `res` as it was. -/
theorem lowerAll_keys {N S : Type} (env : Env N S) (fuel : Nat) (g : Grammar)
    (items : List (GoString × Int)) (memo : Memo) (t t' : Tables)
    (hitems : ∀ p ∈ items, p.2 ∈ t.res.map Prod.fst)
    (h : lowerAll env fuel g items memo t = some (.ok t')) :
    t'.res.map Prod.fst = t.res.map Prod.fst := by
  induction items generalizing memo t with
  | nil =>
    simp only [lowerAll, Option.some.injEq, Except.ok.injEq] at h
    rw [h]
  | cons p rest ih =>
    obtain ⟨tokdef, id⟩ := p
    have hid : id ∈ t.res.map Prod.fst := hitems (tokdef, id) (List.mem_cons_self _ _)
    have hrest : ∀ q ∈ rest, q.2 ∈ t.res.map Prod.fst :=
      fun q hq => hitems q (List.mem_cons_of_mem _ hq)
    unfold lowerAll at h
    split at h
    · rcases he : ebnf2RE env.quoteMeta fuel g tokdef memo with _ | ⟨e | ⟨re, memo'⟩⟩
      · rw [he] at h; simp at h
      · rw [he] at h; simp at h
      · rw [he] at h
        simp only at h
        have hk : ({ t with res := mapSet t.res id re,
                            xref := mapSet t.xref id tokdef } : Tables).res.map Prod.fst
            = t.res.map Prod.fst := mapSet_keys_of_mem _ _ _ hid
        have := ih memo' _ (by rw [hk]; exact hrest) h
        rw [this, hk]
    · exact ih memo t hrest h

/-- When the grammar pass ends without panic, `err` is nil and the tables are those
of the first loop or those its loop over `tokdefs` made of them. -/
theorem grammarPass_ok {N S : Type} (env : Env N S) (fuel : Nat)
    (tokdefs : List (GoString × Int)) (grammar start : GoString) (t0 t : Tables)
    (err : Option Error)
    (h : grammarPass env fuel tokdefs grammar start t0 = some (.ok (t, err))) :
    err = none ∧
      (t = t0 ∨ ∃ g, lowerAll env fuel g (env.rangeTokdefs tokdefs) [] t0 = some (.ok t)) := by
  unfold grammarPass at h
  split at h
  · dsimp only at h
    rcases hp : env.ebnfParse start
        (grammar ++ ([10] ++ start ++ [32, 61, 32] ++ t0.prodnames ++ [32, 46]))
      with ⟨g, _ | e⟩
    · rw [hp] at h
      simp only at h
      rcases hv : env.ebnfVerify g start with _ | e
      · rw [hv] at h
        simp only at h
        rcases hl : lowerAll env fuel g (env.rangeTokdefs tokdefs) [] t0
          with _ | ⟨e | t1⟩
        · rw [hl] at h; simp at h
        · rw [hl] at h; simp at h
        · rw [hl] at h
          simp only [Option.some.injEq, Except.ok.injEq, Prod.mk.injEq] at h
          exact ⟨h.2.symm, Or.inr ⟨g, by rw [hl, h.1]⟩⟩
      · rw [hv] at h; simp at h
    · rw [hp] at h; simp at h
  · simp only [Option.some.injEq, Except.ok.injEq, Prod.mk.injEq] at h
    exact ⟨h.2.symm, Or.inl h.1.symm⟩

/-- After the first loop and the grammar pass the variable `err` is nil. -/
theorem compileTables_err {N S : Type} (env : Env N S) (fuel : Nat)
    (tokdefs : List (GoString × Int)) (grammar start : GoString) (t : Tables)
    (err : Option Error)
    (h : compileTables env fuel tokdefs grammar start = some (.ok (t, err))) : err = none := by
  unfold compileTables at h
  rcases hc : classify env grammar ⟨[], [], []⟩ tokdefs with e | t0
  · rw [hc] at h; simp at h
  · rw [hc] at h
    exact (grammarPass_ok env fuel tokdefs grammar start t0 t err h).1

/-- After the first loop and the grammar pass `res` holds exactly the ids of
`tokdefs`, each once, when the second `range tokdefs` visits entries of `tokdefs`
only. -/
theorem compileTables_keys {N S : Type} (env : Env N S) (fuel : Nat)
    (tokdefs : List (GoString × Int)) (grammar start : GoString) (t : Tables)
    (err : Option Error)
    (hT : ∀ l, (env.rangeTokdefs l).Perm l)
    (h : compileTables env fuel tokdefs grammar start = some (.ok (t, err))) :
    t.res.map Prod.fst = tokdefs.map Prod.snd ∧ (tokdefs.map Prod.snd).Nodup := by
  unfold compileTables at h
  rcases hc : classify env grammar ⟨[], [], []⟩ tokdefs with e | t0
  · rw [hc] at h; simp at h
  · rw [hc] at h
    obtain ⟨hk, hn⟩ := classify_ok_keys env grammar tokdefs ⟨[], [], []⟩ t0 (by simp) hc
    simp only [List.map_nil, List.nil_append] at hk
    rw [hk] at hn
    refine ⟨?_, hn⟩
    rcases (grammarPass_ok env fuel tokdefs grammar start t0 t err h).2 with rfl | ⟨g, hl⟩
    · exact hk
    · have hitems : ∀ p ∈ env.rangeTokdefs tokdefs, p.2 ∈ t0.res.map Prod.fst := by
        intro p hp'
        rw [hk]
        exact List.mem_map.mpr ⟨p, (hT tokdefs).subset hp', rfl⟩
      rw [lowerAll_keys env fuel g _ [] t0 t hitems hl, hk]

/-! ### Lemmas on the start sets -/

/-- When the loop over one start set ends without panic, `err` is nil if it was nil
before: every `ParseRE` that did not lead to a panic stored nil. -/
theorem addTokens_err {N S : Type} (env : Env N S) (start : GoString) (t : Tables)
    (accept state : S) (i : Nat) (set : List Int) (nfa nfa' : N) (err' : Option Error)
    (h : addTokens env start t accept state i set (nfa, none) = .ok (nfa', err')) :
    err' = none := by
  induction set generalizing nfa with
  | nil =>
    simp only [addTokens, Except.ok.injEq, Prod.mk.injEq] at h
    exact h.2.symm
  | cons id rest ih =>
    unfold addTokens at h
    rcases hg : mapGet t.res id with _ | re
    · rw [hg] at h; simp at h
    · rw [hg] at h
      simp only at h
      rcases hp : env.parseRE nfa (start ++ [45] ++ (mapGet t.xref id).getD []) re
        with ⟨a, b, _ | e, n1⟩
      · rw [hp] at h
        exact ih _ h
      · rw [hp] at h; simp at h

/-- When the loop over the start sets ends without panic, `err` is nil if it was nil
before, and there is one start state for each start set. -/
theorem addSets_ok {N S : Type} (env : Env N S) (start : GoString) (t : Tables)
    (accept : S) (i : Nat) (sets : List (List Int)) (nfa nfa' : N) (states : List S)
    (err' : Option Error)
    (h : addSets env start t accept i sets (nfa, none) = .ok (nfa', states, err')) :
    err' = none ∧ states.length = sets.length := by
  induction sets generalizing nfa i states with
  | nil =>
    simp only [addSets, Except.ok.injEq, Prod.mk.injEq] at h
    obtain ⟨_, h2, h3⟩ := h
    subst h2
    exact ⟨h3.symm, rfl⟩
  | cons set rest ih =>
    unfold addSets at h
    dsimp only at h
    rcases ht : addTokens env start t accept (env.newState nfa).1 i set
        ((env.newState nfa).2, none) with e | ⟨n1, e1⟩
    · rw [ht] at h; simp at h
    · rw [ht] at h
      have he1 : e1 = none := addTokens_err env start t accept _ i set _ n1 e1 ht
      subst he1
      simp only at h
      rcases hs : addSets env start t accept (i + 1) rest (n1, none) with e | ⟨n2, sts, e2⟩
      · rw [hs] at h; simp at h
      · rw [hs] at h
        simp only [Except.ok.injEq, Prod.mk.injEq] at h
        obtain ⟨h1, h2, h3⟩ := h
        subst h1 h2 h3
        obtain ⟨i1, i2⟩ := ih (i + 1) n1 sts hs
        exact ⟨i1, by simp [i2]⟩

/-- The loop over a start set that lists an id without entry in `res` panics. -/
theorem addTokens_unknown {N S : Type} (env : Env N S) (start : GoString) (t : Tables)
    (accept state : S) (i : Nat) (set : List Int) (st : N × Option Error) (id : Int)
    (hid : id ∈ set) (hres : mapGet t.res id = none) :
    ∃ e, addTokens env start t accept state i set st = .error e := by
  induction set generalizing st with
  | nil => simp at hid
  | cons id' rest ih =>
    obtain ⟨nfa, err⟩ := st
    unfold addTokens
    rcases hg : mapGet t.res id' with _ | re
    · exact ⟨_, rfl⟩
    · simp only
      rcases hp : env.parseRE nfa (start ++ [45] ++ (mapGet t.xref id').getD []) re
        with ⟨a, b, _ | e, n1⟩
      · simp only
        rcases List.mem_cons.mp hid with rfl | hr
        · rw [hres] at hg; simp at hg
        · exact ih _ hr
      · exact ⟨e, rfl⟩

/-- The loop over the start sets panics when one of them lists an id without entry
in `res`. -/
theorem addSets_unknown {N S : Type} (env : Env N S) (start : GoString) (t : Tables)
    (accept : S) (i : Nat) (sets : List (List Int)) (st : N × Option Error)
    (set : List Int) (id : Int) (hset : set ∈ sets) (hid : id ∈ set)
    (hres : mapGet t.res id = none) :
    ∃ e, addSets env start t accept i sets st = .error e := by
  induction sets generalizing st i with
  | nil => simp at hset
  | cons set' rest ih =>
    obtain ⟨nfa, err⟩ := st
    unfold addSets
    dsimp only
    rcases ht : addTokens env start t accept (env.newState nfa).1 i set'
        ((env.newState nfa).2, err) with e | st1
    · exact ⟨e, rfl⟩
    · simp only
      rcases List.mem_cons.mp hset with rfl | hr
      · obtain ⟨e, he⟩ := addTokens_unknown env start t accept (env.newState nfa).1 i set
          ((env.newState nfa).2, err) id hid hres
        rw [he] at ht; simp at ht
      · obtain ⟨e, he⟩ := ih (i + 1) st1 hr
        rw [he]
        exact ⟨e, rfl⟩

/-- When `CompileLexer` returns a lexer, `err` is nil and the lexer has one start
state for each start set. -/
theorem buildLexer_ok {N S : Type} (env : Env N S) (starts : Option (List (List Int)))
    (start : GoString) (t : Tables) (lexer : Lexer N S) (err' : Option Error)
    (h : buildLexer env starts start t none = .ok (lexer, err')) :
    err' = none ∧ lexer.starts.length = (startSets env starts t.res).length := by
  unfold buildLexer at h
  dsimp only at h
  rcases hs : addSets env start t (env.newState env.zeroNfa).1 0
      (startSets env starts t.res) ((env.newState env.zeroNfa).2, none)
    with e | ⟨n2, sts, e2⟩
  · rw [hs] at h; simp at h
  · rw [hs] at h
    simp only [Except.ok.injEq, Prod.mk.injEq] at h
    obtain ⟨i1, i2⟩ := addSets_ok env start t _ 0 _ _ n2 sts e2 hs
    obtain ⟨h1, h2⟩ := h
    subst h1
    exact ⟨by rw [← h2, i1], i2⟩

/-! ### A grammar on which the lowering does not end -/

/-- On the grammar `a = "x" | "(" a ")" .` the call `ebnf2RE(g, "a", res)` with an
empty `res` reaches itself again with an empty `res`: the entry for `a` is stored
after its expression is compiled only.  No bound on the depth is enough. -/
theorem ebnf2RE_nestedGrammar (quoteMeta : GoString → GoString) (fuel : Nat) :
    ebnf2RE quoteMeta fuel nestedGrammar [97] [] = none := by
  induction fuel using Nat.strong_induction_on with
  | _ n ih =>
    match n with
    | 0 | 1 | 2 | 3 | 4 | 5 | 6 | 7 => rfl
    | k + 8 =>
      have hk := ih k (by omega)
      simp [ebnf2RE, compile, compileItems, nestedGrammar, mapGet, isRE, slash, pipe] at hk ⊢
      simp [hk]

/-- With the token definition `a` and the grammar `a = "x" | "(" a ")" .` the first
loop marks `a` for the grammar pass, and the grammar pass does not end, whatever
the bound. -/
theorem compileTables_nestedGrammar (fuel : Nat) :
    compileTables (toyEnv nestedGrammar) fuel [([97], 1)] nestedSource [84, 79, 75] = none := by
  have hc : classify (toyEnv nestedGrammar) nestedSource ⟨[], [], []⟩ [([97], 1)]
      = .ok ⟨[97], [(1, [])], [(1, [105, 100, 45, 49])]⟩ := by rfl
  have hi : isIdent (toyEnv nestedGrammar).isLetter (toyEnv nestedGrammar).isDigit
      (toyEnv nestedGrammar).rangeString [97] = true := by rfl
  have hl : ∀ t, lowerAll (toyEnv nestedGrammar) fuel nestedGrammar [([97], 1)] [] t = none := by
    intro t
    simp only [lowerAll, hi, if_true, ebnf2RE_nestedGrammar]
  unfold compileTables
  rw [hc]
  simp only [grammarPass]
  rw [if_pos (by decide)]
  have h3 := hl ⟨[97], [(1, [])], [(1, [105, 100, 45, 49])]⟩
  simp only [toyEnv] at h3 ⊢
  rw [h3]

/-! ### C3 to C7: CompileLexer -/

/-- C3. For every `tokdefs` in which two distinct token-definition strings carry the
same id, `CompileLexer` returns no lexer and the duplicate-id error for an entry of
`tokdefs`, in whatever order the entries are visited and whatever the other
arguments (and the bound on the lowering) are. -/
theorem CompileLexer_duplicate_id {N S : Type} (env : Env N S) (fuel : Nat)
    (starts : Option (List (List Int))) (tokdefs : List (GoString × Int))
    (grammar start : GoString)
    (hdup : ∃ s₁ s₂ id, s₁ ≠ s₂ ∧ (s₁, id) ∈ tokdefs ∧ (s₂, id) ∈ tokdefs) :
    ∃ id tokdef, (tokdef, id) ∈ tokdefs ∧
      CompileLexer env fuel starts tokdefs grammar start
        = some (none, some (.duplicateID id tokdef)) := by
  obtain ⟨s₁, s₂, id, hne, h1, h2⟩ := hdup
  have hnd : ¬ (tokdefs.map Prod.snd).Nodup := by
    intro hn
    have := List.inj_on_of_nodup_map hn h1 h2 rfl
    exact hne (Prod.mk.inj this).1
  obtain ⟨id', tokdef, hm, hc⟩ :=
    classify_duplicate env grammar tokdefs ⟨[], [], []⟩ (by simp) (by simpa using hnd)
  exact ⟨id', tokdef, hm, by simp [CompileLexer, compileTables, hc]⟩

/-- The statement of C3 at `tokdefs = {"if": 1, "fi": 1}`. -/
theorem CompileLexer_duplicate_id_witness :
    (∃ s₁ s₂ id, s₁ ≠ s₂ ∧ (s₁, id) ∈ [([105, 102], (1 : Int)), ([102, 105], 1)] ∧
      (s₂, id) ∈ [([105, 102], (1 : Int)), ([102, 105], 1)]) ∧
    ∃ id tokdef, (tokdef, id) ∈ [([105, 102], (1 : Int)), ([102, 105], 1)] ∧
      CompileLexer (toyEnv numberGrammar) 0 none [([105, 102], 1), ([102, 105], 1)] [] []
        = some (none, some (.duplicateID id tokdef)) :=
  ⟨⟨[105, 102], [102, 105], 1, by decide, by decide, by decide⟩,
    CompileLexer_duplicate_id (toyEnv numberGrammar) 0 none _ [] []
      ⟨[105, 102], [102, 105], 1, by decide, by decide, by decide⟩⟩

/-- C4. When `starts` is nil and both `range` loops over maps visit every entry
once, the start sets that `CompileLexer` builds the automaton from are one set, which
holds every id of `tokdefs` once and nothing else; a lexer that is returned has
one start state. -/
theorem CompileLexer_default_start_set {N S : Type} (env : Env N S) (fuel : Nat)
    (tokdefs : List (GoString × Int)) (grammar start : GoString)
    (hT : ∀ l, (env.rangeTokdefs l).Perm l) (hR : ∀ l, (env.rangeRes l).Perm l) :
    (∀ t err, compileTables env fuel tokdefs grammar start = some (.ok (t, err)) →
      ∃ set, startSets env none t.res = [set] ∧ set.Perm (tokdefs.map Prod.snd) ∧
        set.Nodup) ∧
    (∀ lexer err, CompileLexer env fuel none tokdefs grammar start = some (some lexer, err) →
      lexer.starts.length = 1) := by
  constructor
  · intro t err h
    obtain ⟨hk, hn⟩ := compileTables_keys env fuel tokdefs grammar start t err hT h
    have hp : ((env.rangeRes t.res).map Prod.fst).Perm (tokdefs.map Prod.snd) := by
      rw [← hk]
      exact (hR t.res).map Prod.fst
    exact ⟨_, rfl, hp, hp.nodup_iff.mpr hn⟩
  · intro lexer err h
    unfold CompileLexer at h
    rcases hc : compileTables env fuel tokdefs grammar start with _ | ⟨e | ⟨t, err0⟩⟩
    · rw [hc] at h; simp at h
    · rw [hc] at h; simp at h
    · rw [hc] at h
      have he := compileTables_err env fuel tokdefs grammar start t err0 hc
      subst he
      simp only at h
      rcases hb : buildLexer env none start t none with e | ⟨lx, e1⟩
      · rw [hb] at h; simp at h
      · rw [hb] at h
        simp only [Option.some.injEq, Prod.mk.injEq] at h
        obtain ⟨h1, _⟩ := h
        subst h1
        exact (buildLexer_ok env none start t lx e1 hb).2

/-- The statement of C4 at `tokdefs = {"if": 1, "else": 2, "==": 3}` without a
grammar, with the lexer that the call returns. -/
theorem CompileLexer_default_start_set_witness :
    (∀ l, ((toyEnv numberGrammar).rangeTokdefs l).Perm l) ∧
    (∀ l, ((toyEnv numberGrammar).rangeRes l).Perm l) ∧
    CompileLexer (toyEnv numberGrammar) 0 none
        [([105, 102], 1), ([101, 108, 115, 101], 2), ([61, 61], 3)] [] [84, 79, 75]
      = some (some ⟨8, [1], 0⟩, none) ∧
    ((∀ t err, compileTables (toyEnv numberGrammar) 0
        [([105, 102], 1), ([101, 108, 115, 101], 2), ([61, 61], 3)] [] [84, 79, 75]
          = some (.ok (t, err)) →
      ∃ set, startSets (toyEnv numberGrammar) none t.res = [set] ∧
        set.Perm ([([105, 102], (1 : Int)), ([101, 108, 115, 101], 2), ([61, 61], 3)].map
          Prod.snd) ∧ set.Nodup) ∧
    (∀ lexer err, CompileLexer (toyEnv numberGrammar) 0 none
        [([105, 102], 1), ([101, 108, 115, 101], 2), ([61, 61], 3)] [] [84, 79, 75]
          = some (some lexer, err) →
      lexer.starts.length = 1)) :=
  ⟨fun l => List.Perm.refl l, fun l => List.reverse_perm l, by decide,
    CompileLexer_default_start_set (toyEnv numberGrammar) 0 _ [] [84, 79, 75]
      (fun l => List.Perm.refl l) (fun l => List.reverse_perm l)⟩

/-- Without a grammar the grammar pass is not entered: the tables are those of the
first loop, whatever `ebnf.Parse` would do and whatever the bound. -/
theorem compileTables_no_grammar {N S : Type} (env : Env N S) (fuel : Nat)
    (tokdefs : List (GoString × Int)) (start : GoString) :
    compileTables env fuel tokdefs [] start =
      match classify env [] ⟨[], [], []⟩ tokdefs with
      | .error e => some (.error e)
      | .ok t => some (.ok (t, none)) := by
  unfold compileTables
  rcases hc : classify env [] ⟨[], [], []⟩ tokdefs with e | t
  · rfl
  · have hp := (classify_no_grammar env tokdefs ⟨[], [], []⟩ t (by simp) hc).1
    simp only at hp
    simp [grammarPass, hp]

/-- C5, amended. For every call in which some start set lists an id that is not the
id of any token definition in `tokdefs`, and in which the first loop and the
grammar pass come to an end, `CompileLexer` returns a non-nil error and no lexer. -/
theorem CompileLexer_unknown_id {N S : Type} (env : Env N S) (fuel : Nat)
    (starts : List (List Int)) (tokdefs : List (GoString × Int)) (grammar start : GoString)
    (hT : ∀ l, (env.rangeTokdefs l).Perm l)
    (hret : (compileTables env fuel tokdefs grammar start).isSome = true)
    (hunk : ∃ set ∈ starts, ∃ id ∈ set, id ∉ tokdefs.map Prod.snd) :
    ∃ e, CompileLexer env fuel (some starts) tokdefs grammar start = some (none, some e) := by
  obtain ⟨set, hset, id, hid, hno⟩ := hunk
  unfold CompileLexer
  rcases hc : compileTables env fuel tokdefs grammar start with _ | ⟨e | ⟨t, err⟩⟩
  · rw [hc] at hret; simp at hret
  · exact ⟨e, rfl⟩
  · obtain ⟨hk, _⟩ := compileTables_keys env fuel tokdefs grammar start t err hT hc
    have hres : mapGet t.res id = none := by
      rw [mapGet_eq_none_iff, hk]; exact hno
    obtain ⟨e, he⟩ := addSets_unknown env start t (env.newState env.zeroNfa).1 0 starts
      ((env.newState env.zeroNfa).2, err) set id hset hid hres
    refine ⟨e, ?_⟩
    simp [buildLexer, startSets, he]

/-- The amended statement of C5 at `tokdefs = {"n": 30}` with the grammar of numbers
and the start sets `[[30], [31]]`. -/
theorem CompileLexer_unknown_id_witness :
    (∀ l, ((toyEnv numberGrammar).rangeTokdefs l).Perm l) ∧
    (compileTables (toyEnv numberGrammar) 20 [([110], 30)] numberSource
      [84, 79, 75]).isSome = true ∧
    (∃ set ∈ [[(30 : Int)], [31]], ∃ id ∈ set, id ∉ [([110], (30 : Int))].map Prod.snd) ∧
    ∃ e, CompileLexer (toyEnv numberGrammar) 20 (some [[30], [31]]) [([110], 30)] numberSource
      [84, 79, 75] = some (none, some e) :=
  ⟨fun l => List.Perm.refl l, by decide, ⟨[31], by decide, 31, by decide, by decide⟩,
    CompileLexer_unknown_id (toyEnv numberGrammar) 20 [[30], [31]] [([110], 30)] numberSource
      [84, 79, 75] (fun l => List.Perm.refl l) (by decide)
      ⟨[31], by decide, 31, by decide, by decide⟩⟩

/-- C5 as stated fails. With `tokdefs = {"a": 1}`, the grammar
`a = "x" | "(" a ")" .` and the start sets `[[2]]`, the id 2 is unknown, and
`CompileLexer` returns nothing: the lowering of `a` calls itself without end. -/
theorem CompileLexer_unknown_id_no_return :
    (∃ set ∈ [[(2 : Int)]], ∃ id ∈ set, id ∉ [([97], (1 : Int))].map Prod.snd) ∧
    ∀ fuel, CompileLexer (toyEnv nestedGrammar) fuel (some [[2]]) [([97], 1)] nestedSource
      [84, 79, 75] = none := by
  refine ⟨⟨[2], by decide, 2, by decide, by decide⟩, fun fuel => ?_⟩
  simp [CompileLexer, compileTables_nestedGrammar]

/-- C6. When `grammar` is the empty string, `CompileLexer` goes from the first loop
straight to the start sets: the grammar pass is not run, whatever the bound and
whatever the parser would return.  `prodnames` stays empty, and for every token
definition that is not of the form `/…/` the expression recorded for its id is the
quoted token definition.  The first loop ends without panic when the ids are
distinct. -/
theorem CompileLexer_no_grammar {N S : Type} (env : Env N S) (fuel : Nat)
    (starts : Option (List (List Int))) (tokdefs : List (GoString × Int))
    (start : GoString) :
    (CompileLexer env fuel starts tokdefs [] start =
      match classify env [] ⟨[], [], []⟩ tokdefs with
      | .error e => some (none, some e)
      | .ok t =>
        match buildLexer env starts start t none with
        | .error e => some (none, some e)
        | .ok (lexer, err) => some (some lexer, err)) ∧
    (∀ t, classify env [] ⟨[], [], []⟩ tokdefs = .ok t →
      t.prodnames = [] ∧
      ∀ tokdef id, (tokdef, id) ∈ tokdefs → (isRE tokdef).2 = false →
        mapGet t.res id = some (env.quoteMeta tokdef)) ∧
    ((tokdefs.map Prod.snd).Nodup → ∃ t, classify env [] ⟨[], [], []⟩ tokdefs = .ok t) := by
  refine ⟨?_, ?_, ?_⟩
  · unfold CompileLexer
    rw [compileTables_no_grammar env fuel tokdefs start]
    rcases classify env [] ⟨[], [], []⟩ tokdefs with e | t <;> rfl
  · intro t h
    obtain ⟨h1, _, h3⟩ := classify_no_grammar env tokdefs ⟨[], [], []⟩ t (by simp) h
    exact ⟨h1, h3⟩
  · intro hn
    exact classify_of_nodup env [] tokdefs ⟨[], [], []⟩ (by simpa using hn)

/-- C7, amended. Whenever `CompileLexer` returns, exactly one of its two results is
non-nil: a lexer and a nil error, or no lexer and a non-nil error.  It returns
whenever the first loop and the grammar pass come to an end, which they do when
`grammar` is the empty string. -/
theorem CompileLexer_results {N S : Type} (env : Env N S) (fuel : Nat)
    (starts : Option (List (List Int))) (tokdefs : List (GoString × Int))
    (grammar start : GoString) :
    (∀ lexer err, CompileLexer env fuel starts tokdefs grammar start = some (lexer, err) →
      (lexer.isSome = true ∧ err = none) ∨ (lexer = none ∧ err.isSome = true)) ∧
    ((compileTables env fuel tokdefs grammar start).isSome = true →
      (CompileLexer env fuel starts tokdefs grammar start).isSome = true) ∧
    (grammar = [] → (CompileLexer env fuel starts tokdefs grammar start).isSome = true) := by
  have hsome : (compileTables env fuel tokdefs grammar start).isSome = true →
      (CompileLexer env fuel starts tokdefs grammar start).isSome = true := by
    intro h
    unfold CompileLexer
    rcases hc : compileTables env fuel tokdefs grammar start with _ | ⟨e | ⟨t, err0⟩⟩
    · rw [hc] at h; simp at h
    · rfl
    · simp only
      rcases buildLexer env starts start t err0 with e | ⟨lx, e1⟩ <;> rfl
  refine ⟨?_, hsome, ?_⟩
  · intro lexer err h
    unfold CompileLexer at h
    rcases hc : compileTables env fuel tokdefs grammar start with _ | ⟨e | ⟨t, err0⟩⟩
    · rw [hc] at h; simp at h
    · rw [hc] at h
      simp only [Option.some.injEq, Prod.mk.injEq] at h
      exact Or.inr ⟨h.1.symm, by rw [← h.2]; rfl⟩
    · rw [hc] at h
      have he := compileTables_err env fuel tokdefs grammar start t err0 hc
      subst he
      simp only at h
      rcases hb : buildLexer env starts start t none with e | ⟨lx, e1⟩
      · rw [hb] at h
        simp only [Option.some.injEq, Prod.mk.injEq] at h
        exact Or.inr ⟨h.1.symm, by rw [← h.2]; rfl⟩
      · rw [hb] at h
        simp only [Option.some.injEq, Prod.mk.injEq] at h
        have := (buildLexer_ok env starts start t lx e1 hb).1
        exact Or.inl ⟨by rw [← h.1]; rfl, by rw [← h.2, this]⟩
  · intro hg
    subst hg
    apply hsome
    rw [compileTables_no_grammar]
    rcases classify env [] ⟨[], [], []⟩ tokdefs with e | t <;> rfl

/-- C7 as stated fails. With `tokdefs = {"a": 1}` and the grammar
`a = "x" | "(" a ")" .`, which names a production that refers to itself,
`CompileLexer` returns neither a lexer nor an error: the lowering of `a` calls
itself without end. -/
theorem CompileLexer_no_return :
    isIdent asciiLetter asciiDigit asciiRange [97] = true ∧
    mapGet nestedGrammar [97] =
      some ⟨.Alternative [.Token [120], .Sequence [.Token [40], .Name [97], .Token [41]]]⟩ ∧
    ∀ fuel, CompileLexer (toyEnv nestedGrammar) fuel none [([97], 1)] nestedSource
      [84, 79, 75] = none := by
  refine ⟨by rfl, by rfl, fun fuel => ?_⟩
  simp [CompileLexer, compileTables_nestedGrammar]

/-! ### C19: the code points of a normalised slice -/

/-- Two neighbours that are joined overlap or touch. -/
theorem joinable_le (y z : Range32) (h : joinable y z = true) : z.Lo ≤ y.Hi + 1 := by
  simp only [joinable, Bool.or_eq_true, decide_eq_true_eq] at h
  rcases h with h | h
  · omega
  · have := Nat.mod_le (y.Hi + 1) 4294967296
    omega

/-- The range that takes the place of two joined neighbours of stride 1 holds the
code points of both and no other. -/
theorem joined_contains (y z : Range32) (c : Nat) (hyz : y.Lo ≤ z.Lo)
    (hj : z.Lo ≤ y.Hi + 1) (hys : y.Stride = 1) (hzs : z.Stride = 1) :
    (joined y z).contains c ↔ y.contains c ∨ z.contains c := by
  unfold Range32.contains
  rw [joined_Lo, joined_Hi, joined_Stride, hys, hzs]
  simp only [Nat.mod_one, and_true]
  omega

/-- One run of the inner loop keeps the set of code points of a slice that is sorted
by `Lo` and holds ranges of stride 1 with `Lo ≤ Hi`. -/
theorem mergePass_contains (r : rangeSlice)
    (hsorted : r.Pairwise (fun a b => a.Lo ≤ b.Lo))
    (hle : ∀ x ∈ r, x.Lo ≤ x.Hi) (hst : ∀ x ∈ r, x.Stride = 1) (c : Nat) :
    (∃ x ∈ (mergePass r).1, x.contains c) ↔ ∃ x ∈ r, x.contains c := by
  induction r with
  | nil => simp [mergePass]
  | cons y rest ih =>
    obtain ⟨hy, hrest⟩ := List.pairwise_cons.mp hsorted
    have hle' : ∀ x ∈ rest, x.Lo ≤ x.Hi := fun x hx => hle x (List.mem_cons_of_mem _ hx)
    have hst' : ∀ x ∈ rest, x.Stride = 1 := fun x hx => hst x (List.mem_cons_of_mem _ hx)
    have ihr := ih hrest hle' hst'
    have hlo := mergePass_map_Lo rest
    have hq1 := mergePass_forall (fun x => x.Lo ≤ x.Hi) (fun a b ha _ => joined_le a b ha)
      rest hle'
    have hq2 := mergePass_forall (fun x => x.Stride = 1)
      (fun a b ha _ => by simp only [joined_Stride]; exact ha) rest hst'
    rw [mergePass_cons]
    rcases hp : mergePass rest with ⟨l, ok⟩
    rw [hp] at ihr hlo hq1 hq2
    cases l with
    | nil =>
      simp only [List.mem_nil_iff, false_and, exists_false, false_iff, not_exists,
        not_and] at ihr
      simp only [List.mem_singleton, exists_eq_left, List.mem_cons, exists_eq_or_imp]
      constructor
      · rintro (h | ⟨x, hx, _⟩)
        · exact Or.inl h
        · simp at hx
      · rintro (h | ⟨x, hx, hc⟩)
        · exact Or.inl h
        · exact absurd hc (ihr x hx)
    | cons z t =>
      simp only at ihr hlo hq1 hq2 ⊢
      have hzmem : z.Lo ∈ rest.map Range32.Lo :=
        hlo.subset (by simp)
      obtain ⟨z0, hz0, hz0lo⟩ := List.mem_map.mp hzmem
      have hyz : y.Lo ≤ z.Lo := by rw [← hz0lo]; exact hy z0 hz0
      by_cases hj : joinable y z = true
      · simp only [hj, if_true]
        have hjc := joined_contains y z c hyz (joinable_le y z hj)
          (hst y (by simp)) (hq2 z (by simp))
        simp only [List.mem_cons, exists_eq_or_imp] at ihr ⊢
        rw [hjc, ← ihr]
        tauto
      · simp only [hj, Bool.false_eq_true, if_false]
        simp only [List.mem_cons, exists_eq_or_imp] at ihr ⊢
        rw [← ihr]

/-- The outer loop keeps the set of code points. -/
theorem mergeLoop_contains (fuel : Nat) (r out : rangeSlice)
    (hsorted : r.Pairwise (fun a b => a.Lo ≤ b.Lo))
    (hle : ∀ x ∈ r, x.Lo ≤ x.Hi) (hst : ∀ x ∈ r, x.Stride = 1)
    (h : mergeLoop fuel r = some out) (c : Nat) :
    (∃ x ∈ out, x.contains c) ↔ ∃ x ∈ r, x.contains c := by
  induction fuel generalizing r with
  | zero => simp [mergeLoop] at h
  | succ n ih =>
    have hc := mergePass_contains r hsorted hle hst c
    have hlo := mergePass_map_Lo r
    have hq1 := mergePass_forall (fun x => x.Lo ≤ x.Hi) (fun a b ha _ => joined_le a b ha)
      r hle
    have hq2 := mergePass_forall (fun x => x.Stride = 1)
      (fun a b ha _ => by simp only [joined_Stride]; exact ha) r hst
    rcases hp : mergePass r with ⟨r', ok⟩
    rw [hp] at hc hlo hq1 hq2
    simp only at hc hlo hq1 hq2
    have hs' : r'.Pairwise (fun a b => a.Lo ≤ b.Lo) := by
      have h1 : (r.map Range32.Lo).Pairwise (· ≤ ·) := List.pairwise_map.mpr hsorted
      exact List.pairwise_map.mp (h1.sublist hlo)
    cases ok with
    | true =>
      simp only [mergeLoop, hp, Option.some.injEq] at h
      subst h
      exact hc
    | false =>
      simp only [mergeLoop, hp] at h
      rw [ih r' hs' hq1 hq2 h, hc]

/-- C19. For every slice of ranges with `Lo ≤ Hi` and stride 1, and for every sort
that keeps the contract of `sort.Sort`, `normalize` ends, leaves ranges of stride 1,
and a code point lies in some range of the result if and only if it lies in some
range of the slice it was given. -/
theorem normalize_preserves_code_points (sort : rangeSlice → rangeSlice)
    (hsort : SortContract sort) (r : rangeSlice)
    (hle : ∀ x ∈ r, x.Lo ≤ x.Hi) (hst : ∀ x ∈ r, x.Stride = 1) :
    ∃ out, normalize sort r = some out ∧ (∀ x ∈ out, x.Stride = 1) ∧
      ∀ c, (∃ x ∈ out, x.contains c) ↔ ∃ x ∈ r, x.contains c := by
  obtain ⟨out, h1, _, _, h4⟩ :=
    mergeLoop_spec ((sort r).length + 1) (sort r) (by omega)
  have hperm := hsort.1 r
  have hmem : ∀ x, x ∈ sort r ↔ x ∈ r := fun x => hperm.mem_iff
  have hsorted : (sort r).Pairwise (fun a b => a.Lo ≤ b.Lo) := by
    refine (hsort.2 r).imp ?_
    intro a b hab
    simpa [rangeLess] using hab
  refine ⟨out, h1, ?_, ?_⟩
  · exact h4 (fun x => x.Stride = 1)
      (fun a b ha _ => by simp only [joined_Stride]; exact ha)
      (fun x hx => hst x ((hmem x).mp hx))
  · intro c
    rw [mergeLoop_contains _ (sort r) out hsorted (fun x hx => hle x ((hmem x).mp hx))
      (fun x hx => hst x ((hmem x).mp hx)) h1 c]
    constructor
    · rintro ⟨x, hx, hc⟩; exact ⟨x, (hmem x).mp hx, hc⟩
    · rintro ⟨x, hx, hc⟩; exact ⟨x, (hmem x).mpr hx, hc⟩

/-- The statement of C19 at `[5,9]`, `[1,3]`, `[4,6]`, whose code points are 1 to 9. -/
theorem normalize_preserves_code_points_witness :
    SortContract stableSort ∧
    (∀ x ∈ [Range32.mk 5 9 1, Range32.mk 1 3 1, Range32.mk 4 6 1], x.Lo ≤ x.Hi) ∧
    (∀ x ∈ [Range32.mk 5 9 1, Range32.mk 1 3 1, Range32.mk 4 6 1], x.Stride = 1) ∧
    normalize stableSort [Range32.mk 5 9 1, Range32.mk 1 3 1, Range32.mk 4 6 1]
      = some [Range32.mk 1 9 1] ∧
    ∃ out, normalize stableSort [Range32.mk 5 9 1, Range32.mk 1 3 1, Range32.mk 4 6 1]
        = some out ∧ (∀ x ∈ out, x.Stride = 1) ∧
      ∀ c, (∃ x ∈ out, x.contains c) ↔
        ∃ x ∈ [Range32.mk 5 9 1, Range32.mk 1 3 1, Range32.mk 4 6 1], x.contains c :=
  ⟨stableSort_contract, by decide, by decide, by decide,
    normalize_preserves_code_points stableSort stableSort_contract _ (by decide) (by decide)⟩

/-! ### The translation of the specification: depth -/

/-- A translation found within depth `d` is found within depth `d + 1`. -/
theorem spec_mono_succ (q : GoString → GoString) (g : Grammar) (d : Nat) :
    (∀ e s, specRE q g d e = some s → specRE q g (d + 1) e = some s) ∧
    (∀ xs ts, specList q g d xs = some ts → specList q g (d + 1) xs = some ts) := by
  induction d with
  | zero =>
    exact ⟨fun e s h => by simp [specRE] at h, fun xs ts h => by simp [specList] at h⟩
  | succ d ih =>
    obtain ⟨ih1, ih2⟩ := ih
    constructor
    · intro e s h
      cases e with
      | Alternative x =>
        simp only [specRE, Option.map_eq_some'] at h ⊢
        obtain ⟨ts, h1, h2⟩ := h
        exact ⟨ts, ih2 x ts h1, h2⟩
      | Sequence x =>
        simp only [specRE, Option.map_eq_some'] at h ⊢
        obtain ⟨ts, h1, h2⟩ := h
        exact ⟨ts, ih2 x ts h1, h2⟩
      | Group body =>
        simp only [specRE, Option.map_eq_some'] at h ⊢
        obtain ⟨t, h1, h2⟩ := h
        exact ⟨t, ih1 body t h1, h2⟩
      | Option body =>
        simp only [specRE, Option.map_eq_some'] at h ⊢
        obtain ⟨t, h1, h2⟩ := h
        exact ⟨t, ih1 body t h1, h2⟩
      | Repetition body =>
        simp only [specRE, Option.map_eq_some'] at h ⊢
        obtain ⟨t, h1, h2⟩ := h
        exact ⟨t, ih1 body t h1, h2⟩
      | Range lo hi =>
        simp only [specRE] at h ⊢
        exact h
      | Token t =>
        simp only [specRE] at h ⊢
        exact h
      | Name m =>
        simp only [specRE] at h ⊢
        rcases hm : mapGet g m with _ | p
        · rw [hm] at h; simp at h
        · rw [hm] at h
          simp only [Option.map_eq_some'] at h ⊢
          obtain ⟨t, h1, h2⟩ := h
          exact ⟨t, ih1 p.Expr t h1, h2⟩
      | Other => simp [specRE] at h
    · intro xs ts h
      cases xs with
      | nil =>
        simp only [specList] at h ⊢
        exact h
      | cons x rest =>
        simp only [specList] at h ⊢
        rcases hx : specRE q g d x with _ | t
        · rw [hx] at h; simp at h
        · rw [hx] at h
          simp only at h
          rcases hr : specList q g d rest with _ | ts'
          · rw [hr] at h; simp at h
          · rw [hr] at h
            rw [ih1 x t hx, ih2 rest ts' hr]
            exact h

/-- A translation found within depth `d` is found within every larger depth. -/
theorem spec_mono (q : GoString → GoString) (g : Grammar) (d d' : Nat) (hd : d ≤ d') :
    (∀ e s, specRE q g d e = some s → specRE q g d' e = some s) ∧
    (∀ xs ts, specList q g d xs = some ts → specList q g d' xs = some ts) := by
  induction hd with
  | refl => exact ⟨fun _ _ h => h, fun _ _ h => h⟩
  | step _ ih =>
    exact ⟨fun e s h => (spec_mono_succ q g _).1 e s (ih.1 e s h),
      fun xs ts h => (spec_mono_succ q g _).2 xs ts (ih.2 xs ts h)⟩

/-- The table gives an expression one translation at most. -/
theorem SpecTranslation_unique (q : GoString → GoString) (g : Grammar) (e : Expression)
    (s s' : GoString) (h : SpecTranslation q g e s) (h' : SpecTranslation q g e s') :
    s = s' := by
  obtain ⟨d, hd⟩ := h
  obtain ⟨d', hd'⟩ := h'
  have h1 := (spec_mono q g d (max d d') (le_max_left _ _)).1 e s hd
  have h2 := (spec_mono q g d' (max d d') (le_max_right _ _)).1 e s' hd'
  rw [h1] at h2
  exact Option.some.inj h2

/-- The translations of an item and of the items after it give the translations of
the list. -/
theorem SpecTranslations_cons (q : GoString → GoString) (g : Grammar) (x : Expression)
    (rest : List Expression) (t : GoString) (ts : List GoString)
    (h : SpecTranslation q g x t) (h' : SpecTranslations q g rest ts) :
    SpecTranslations q g (x :: rest) (t :: ts) := by
  obtain ⟨d, hd⟩ := h
  obtain ⟨d', hd'⟩ := h'
  have h1 := (spec_mono q g d (max d d') (le_max_left _ _)).1 x t hd
  have h2 := (spec_mono q g d' (max d d') (le_max_right _ _)).2 rest ts hd'
  exact ⟨max d d' + 1, by simp [specList, h1, h2]⟩

/-! ### What the loops of compile write -/

theorem written_false (i : Nat) (ts : List GoString) : written false i ts = ts.flatten := by
  induction ts generalizing i with
  | nil => rfl
  | cons t ts ih => simp [written, ih]

theorem written_true_succ (i : Nat) (ts : List GoString) :
    written true (i + 1) ts = (ts.map (fun t => [124] ++ t)).flatten := by
  induction ts generalizing i with
  | nil => rfl
  | cons t ts ih => simp [written, pipe, ih]

theorem intercalate_cons (sep t : GoString) (ts : List GoString) :
    sep.intercalate (t :: ts) = t ++ (ts.map (fun u => sep ++ u)).flatten := by
  induction ts generalizing t with
  | nil => simp [List.intercalate]
  | cons u ts ih =>
    have := ih u
    simp only [List.intercalate, List.intersperse_cons₂, List.flatten_cons, List.map_cons,
      List.append_assoc] at this ⊢
    rw [this]

/-- The loop over an `Alternative` writes the translations of its items with `"|"`
between them. -/
theorem written_true_zero (ts : List GoString) :
    written true 0 ts = [124].intercalate ts := by
  cases ts with
  | nil => rfl
  | cons t ts =>
    rw [intercalate_cons]
    simp [written, pipe, written_true_succ]

/-- The function `isRE` takes a literal for enclosed by `/…/` exactly when the
specification does, and then returns the text between the slashes. -/
theorem isRE_specInline (s : GoString) :
    isRE s = match specInline s with
      | some inner => (inner, true)
      | none => (s, false) := by
  have hh : s.head? = s[0]? := by cases s <;> simp
  have hl : s.getLast? = s[s.length - 1]? := List.getLast?_eq_getElem? s
  unfold specInline
  rw [hh, hl]
  by_cases hc : s.length > 2 ∧ s[0]? = some slash ∧ s[s.length - 1]? = some slash
  · obtain ⟨t, ht, hs⟩ := (isRE_cond_iff s).mp hc
    rw [if_pos hc, isRE_of_cond s hc]
    subst hs
    simp
  · rw [if_neg hc, isRE_of_not_cond s hc]

/-! ### The memo table -/

theorem MemoInv_nil (q : GoString → GoString) (g : Grammar) : MemoInv q g [] :=
  ⟨fun n r h => by simp [mapGet] at h, fun n p h => by simp [mapGet] at h⟩

theorem MemoExtends_refl (memo : Memo) : MemoExtends memo memo := fun _ _ h => h

theorem MemoExtends_trans {a b c : Memo} (h1 : MemoExtends a b) (h2 : MemoExtends b c) :
    MemoExtends a c := fun n r h => h2 n r (h1 n r h)

theorem MemoExtends_isSome {a b : Memo} (h : MemoExtends a b) (m : GoString)
    (hm : (mapGet a m).isSome = true) : (mapGet b m).isSome = true := by
  rcases ha : mapGet a m with _ | r
  · rw [ha] at hm; simp at hm
  · rw [h m r ha]; rfl

/-- The assignment `res[p] = re` at the end of `ebnf2RE` keeps the memo table in
order: the entry is the translation of the production, and the productions it
refers to are in the table. -/
theorem MemoInv_mapSet (q : GoString → GoString) (g : Grammar) (memo : Memo)
    (name re : GoString) (p : Production) (hinv : MemoInv q g memo)
    (hp : mapGet g name = some p) (hre : SpecTranslation q g p.Expr re)
    (hrefs : ∀ m ∈ refs p.Expr, (mapGet memo m).isSome = true) :
    MemoInv q g (mapSet memo name re) ∧ MemoExtends memo (mapSet memo name re) ∧
      mapGet (mapSet memo name re) name = some re := by
  have hext : MemoExtends memo (mapSet memo name re) := by
    intro n r hn
    by_cases hnn : name = n
    · subst hnn
      obtain ⟨p', hp', hs'⟩ := hinv.1 name r hn
      rw [hp] at hp'
      have hpp : p = p' := Option.some.inj hp'
      subst hpp
      rw [mapGet_mapSet_self, SpecTranslation_unique q g p.Expr r re hs' hre]
    · rw [mapGet_mapSet_of_ne _ _ _ _ hnn]; exact hn
  refine ⟨⟨?_, ?_⟩, hext, mapGet_mapSet_self _ _ _⟩
  · intro n r hn
    by_cases hnn : name = n
    · subst hnn
      rw [mapGet_mapSet_self] at hn
      have : re = r := Option.some.inj hn
      subst this
      exact ⟨p, hp, hre⟩
    · rw [mapGet_mapSet_of_ne _ _ _ _ hnn] at hn
      exact hinv.1 n r hn
  · intro n p' hn hp' m hm
    by_cases hnn : name = n
    · subst hnn
      rw [hp] at hp'
      have hpp : p = p' := Option.some.inj hp'
      subst hpp
      exact MemoExtends_isSome hext m (hrefs m hm)
    · rw [mapGet_mapSet_of_ne _ _ _ _ hnn] at hn
      exact MemoExtends_isSome hext m (hinv.2 n p' hn hp' m hm)

/-! ### What a call that returns has computed -/

theorem SpecTranslation_wrap (q : GoString → GoString) (g : Grammar) (body : Expression)
    (s : GoString) (h : SpecTranslation q g body s) :
    SpecTranslation q g (.Group body) ([40] ++ s ++ [41]) ∧
    SpecTranslation q g (.Option body) ([40] ++ s ++ [41, 63]) ∧
    SpecTranslation q g (.Repetition body) ([40] ++ s ++ [41, 42]) := by
  obtain ⟨d, hd⟩ := h
  exact ⟨⟨d + 1, by simp [specRE, hd]⟩, ⟨d + 1, by simp [specRE, hd]⟩,
    ⟨d + 1, by simp [specRE, hd]⟩⟩

/-- When `ebnf2RE`, `compile` or the loop over a list of items returns, started with
a memo table that is in order, the bytes written are those of the translation of
the specification, the memo table is in order again, it holds what it held, and
it holds every production that was referred to. -/
theorem code_sound (q : GoString → GoString) (g : Grammar) (fuel : Nat) :
    (∀ name memo re memo', MemoInv q g memo →
        ebnf2RE q fuel g name memo = some (.ok (re, memo')) →
        (∃ p, mapGet g name = some p ∧ SpecTranslation q g p.Expr re) ∧
          MemoInv q g memo' ∧ MemoExtends memo memo' ∧ mapGet memo' name = some re) ∧
    (∀ pre e post memo w memo', MemoInv q g memo →
        compile q fuel g pre e post memo = some (.ok (w, memo')) →
        ∃ s, SpecTranslation q g e s ∧ w = pre ++ s ++ post ∧
          MemoInv q g memo' ∧ MemoExtends memo memo' ∧
          ∀ m ∈ refs e, (mapGet memo' m).isSome = true) ∧
    (∀ alt i xs memo w memo', MemoInv q g memo →
        compileItems q fuel g alt i xs memo = some (.ok (w, memo')) →
        ∃ ts, SpecTranslations q g xs ts ∧ w = written alt i ts ∧
          MemoInv q g memo' ∧ MemoExtends memo memo' ∧
          ∀ m ∈ refsList xs, (mapGet memo' m).isSome = true) := by
  induction fuel with
  | zero =>
    refine ⟨?_, ?_, ?_⟩
    · intro name memo re memo' _ h; simp [ebnf2RE] at h
    · intro pre e post memo w memo' _ h; simp [compile] at h
    · intro alt i xs memo w memo' _ h; simp [compileItems] at h
  | succ f ih =>
    obtain ⟨ih1, ih2, ih3⟩ := ih
    refine ⟨?_, ?_, ?_⟩
    · intro name memo re memo' hinv h
      simp only [ebnf2RE] at h
      rcases hg : mapGet g name with _ | p
      · rw [hg] at h; simp at h
      · rw [hg] at h
        simp only at h
        rcases hm : mapGet memo name with _ | r
        · rw [hm] at h
          simp only at h
          rcases hc : compile q f g [] p.Expr [] memo with _ | ⟨e | ⟨w, res'⟩⟩
          · rw [hc] at h; simp at h
          · rw [hc] at h; simp at h
          · rw [hc] at h
            simp only [Option.some.injEq, Except.ok.injEq, Prod.mk.injEq] at h
            obtain ⟨h1, h2⟩ := h
            obtain ⟨s, hs, hw, hi, he, hr⟩ := ih2 [] p.Expr [] memo w res' hinv hc
            simp only [List.nil_append, List.append_nil] at hw
            subst hw h1
            obtain ⟨j1, j2, j3⟩ := MemoInv_mapSet q g res' name w p hi hg hs hr
            rw [← h2]
            exact ⟨⟨p, rfl, hs⟩, j1, MemoExtends_trans he j2, j3⟩
        · rw [hm] at h
          simp only [Option.some.injEq, Except.ok.injEq, Prod.mk.injEq] at h
          obtain ⟨h1, h2⟩ := h
          subst h1 h2
          obtain ⟨p', hp', hs'⟩ := hinv.1 name r hm
          rw [hg] at hp'
          exact ⟨⟨p, rfl, by rw [Option.some.inj hp']; exact hs'⟩, hinv,
            MemoExtends_refl _, hm⟩
    · intro pre e post memo w memo' hinv h
      cases e with
      | Alternative x =>
        simp only [compile] at h
        rcases hc : compileItems q f g true 0 x memo with _ | ⟨e | ⟨body, res'⟩⟩
        · rw [hc] at h; simp at h
        · rw [hc] at h; simp at h
        · rw [hc] at h
          simp only [Option.some.injEq, Except.ok.injEq, Prod.mk.injEq] at h
          obtain ⟨h1, h2⟩ := h
          subst h2
          obtain ⟨ts, ⟨d, hd⟩, hw, hi, he, hr⟩ := ih3 true 0 x memo body res' hinv hc
          refine ⟨[124].intercalate ts, ⟨d + 1, by simp [specRE, hd]⟩, ?_, hi, he, ?_⟩
          · rw [← h1, hw, written_true_zero]
          · simpa [refs] using hr
      | Sequence x =>
        simp only [compile] at h
        rcases hc : compileItems q f g false 0 x memo with _ | ⟨e | ⟨body, res'⟩⟩
        · rw [hc] at h; simp at h
        · rw [hc] at h; simp at h
        · rw [hc] at h
          simp only [Option.some.injEq, Except.ok.injEq, Prod.mk.injEq] at h
          obtain ⟨h1, h2⟩ := h
          subst h2
          obtain ⟨ts, ⟨d, hd⟩, hw, hi, he, hr⟩ := ih3 false 0 x memo body res' hinv hc
          refine ⟨ts.flatten, ⟨d + 1, by simp [specRE, hd]⟩, ?_, hi, he, ?_⟩
          · rw [← h1, hw, written_false]
          · simpa [refs] using hr
      | Group body =>
        simp only [compile] at h
        rcases hc : compile q f g [40] body [41] memo with _ | ⟨e | ⟨w', res'⟩⟩
        · rw [hc] at h; simp at h
        · rw [hc] at h; simp at h
        · rw [hc] at h
          simp only [Option.some.injEq, Except.ok.injEq, Prod.mk.injEq] at h
          obtain ⟨h1, h2⟩ := h
          subst h2
          obtain ⟨s, hs, hw, hi, he, hr⟩ := ih2 [40] body [41] memo w' res' hinv hc
          refine ⟨[40] ++ s ++ [41], (SpecTranslation_wrap q g body s hs).1, ?_, hi, he, ?_⟩
          · rw [← h1, hw]
          · simpa [refs] using hr
      | Option body =>
        simp only [compile] at h
        rcases hc : compile q f g [40] body [41, 63] memo with _ | ⟨e | ⟨w', res'⟩⟩
        · rw [hc] at h; simp at h
        · rw [hc] at h; simp at h
        · rw [hc] at h
          simp only [Option.some.injEq, Except.ok.injEq, Prod.mk.injEq] at h
          obtain ⟨h1, h2⟩ := h
          subst h2
          obtain ⟨s, hs, hw, hi, he, hr⟩ := ih2 [40] body [41, 63] memo w' res' hinv hc
          refine ⟨[40] ++ s ++ [41, 63], (SpecTranslation_wrap q g body s hs).2.1, ?_,
            hi, he, ?_⟩
          · rw [← h1, hw]
          · simpa [refs] using hr
      | Repetition body =>
        simp only [compile] at h
        rcases hc : compile q f g [40] body [41, 42] memo with _ | ⟨e | ⟨w', res'⟩⟩
        · rw [hc] at h; simp at h
        · rw [hc] at h; simp at h
        · rw [hc] at h
          simp only [Option.some.injEq, Except.ok.injEq, Prod.mk.injEq] at h
          obtain ⟨h1, h2⟩ := h
          subst h2
          obtain ⟨s, hs, hw, hi, he, hr⟩ := ih2 [40] body [41, 42] memo w' res' hinv hc
          refine ⟨[40] ++ s ++ [41, 42], (SpecTranslation_wrap q g body s hs).2.2, ?_,
            hi, he, ?_⟩
          · rw [← h1, hw]
          · simpa [refs] using hr
      | Name n =>
        simp only [compile] at h
        rcases hc : ebnf2RE q f g n memo with _ | ⟨e | ⟨re, res'⟩⟩
        · rw [hc] at h; simp at h
        · rw [hc] at h; simp at h
        · rw [hc] at h
          simp only [Option.some.injEq, Except.ok.injEq, Prod.mk.injEq] at h
          obtain ⟨h1, h2⟩ := h
          subst h2
          obtain ⟨⟨p, hp, ⟨d, hd⟩⟩, hi, he, hn⟩ := ih1 n memo re res' hinv hc
          refine ⟨[40] ++ re ++ [41], ⟨d + 1, by simp [specRE, hp, hd]⟩, ?_, hi, he, ?_⟩
          · rw [← h1]
          · intro m hm
            simp only [refs, List.mem_singleton] at hm
            subst hm
            rw [hn]; rfl
      | Range lo hi =>
        simp only [compile, Option.some.injEq, Except.ok.injEq, Prod.mk.injEq] at h
        obtain ⟨h1, h2⟩ := h
        subst h2
        exact ⟨[91] ++ q lo ++ [45] ++ q hi ++ [93], ⟨1, by simp [specRE]⟩, by rw [← h1],
          hinv, MemoExtends_refl _, by simp [refs]⟩
      | Token t =>
        simp only [compile] at h
        have hre := isRE_specInline t
        rcases hs : specInline t with _ | inner
        · rw [hs] at hre
          simp only at hre
          rw [hre] at h
          simp only [Option.some.injEq, Except.ok.injEq, Prod.mk.injEq] at h
          obtain ⟨h1, h2⟩ := h
          subst h2
          exact ⟨q t, ⟨1, by simp [specRE, hs]⟩, by rw [← h1], hinv, MemoExtends_refl _,
            by simp [refs]⟩
        · rw [hs] at hre
          simp only at hre
          rw [hre] at h
          simp only [Option.some.injEq, Except.ok.injEq, Prod.mk.injEq] at h
          obtain ⟨h1, h2⟩ := h
          subst h2
          exact ⟨inner, ⟨1, by simp [specRE, hs]⟩, by rw [← h1], hinv, MemoExtends_refl _,
            by simp [refs]⟩
      | Other => simp [compile] at h
    · intro alt i xs memo w memo' hinv h
      cases xs with
      | nil =>
        simp only [compileItems, Option.some.injEq, Except.ok.injEq, Prod.mk.injEq] at h
        obtain ⟨h1, h2⟩ := h
        subst h1 h2
        exact ⟨[], ⟨1, by simp [specList]⟩, rfl, hinv, MemoExtends_refl _, by simp [refsList]⟩
      | cons x rest =>
        simp only [compileItems] at h
        rcases hc : compile q f g (if alt = true then pipe (decide (i > 0)) else []) x [] memo
          with _ | ⟨e | ⟨w1, res1⟩⟩
        · rw [hc] at h; simp at h
        · rw [hc] at h; simp at h
        · rw [hc] at h
          simp only at h
          rcases hr : compileItems q f g alt (i + 1) rest res1 with _ | ⟨e | ⟨w2, res2⟩⟩
          · rw [hr] at h; simp at h
          · rw [hr] at h; simp at h
          · rw [hr] at h
            simp only [Option.some.injEq, Except.ok.injEq, Prod.mk.injEq] at h
            obtain ⟨h1, h2⟩ := h
            subst h2
            obtain ⟨s, hs, hw1, hi1, he1, hr1⟩ := ih2 _ x [] memo w1 res1 hinv hc
            obtain ⟨ts, hts, hw2, hi2, he2, hr2⟩ := ih3 alt (i + 1) rest res1 w2 res2 hi1 hr
            refine ⟨s :: ts, SpecTranslations_cons q g x rest s ts hs hts, ?_, hi2,
              MemoExtends_trans he1 he2, ?_⟩
            · rw [← h1, hw1, hw2]
              simp [written]
            · intro m hm
              simp only [refsList, List.mem_append] at hm
              rcases hm with hm | hm
              · exact MemoExtends_isSome he2 m (hr1 m hm)
              · exact hr2 m hm

/-! ### A translation of the specification is computed -/

/-- When the specification gives a translation within depth `d`, `compile` and the
loop over a list of items return it, from every memo table that is in order and
for every bound of at least `2 * d`. -/
theorem code_complete (q : GoString → GoString) (g : Grammar) (d : Nat) :
    (∀ e s, specRE q g d e = some s → ∀ pre post memo f, MemoInv q g memo → 2 * d ≤ f →
      ∃ memo', compile q f g pre e post memo = some (.ok (pre ++ s ++ post, memo'))) ∧
    (∀ xs ts, specList q g d xs = some ts → ∀ alt i memo f, MemoInv q g memo → 2 * d ≤ f →
      ∃ memo', compileItems q f g alt i xs memo = some (.ok (written alt i ts, memo'))) := by
  induction d with
  | zero =>
    exact ⟨fun e s h => by simp [specRE] at h, fun xs ts h => by simp [specList] at h⟩
  | succ d ih =>
    obtain ⟨ih1, ih2⟩ := ih
    constructor
    · intro e s h pre post memo f hinv hf
      obtain ⟨f', rfl⟩ : ∃ f', f = f' + 1 := ⟨f - 1, by omega⟩
      have hf' : 2 * d ≤ f' := by omega
      cases e with
      | Alternative x =>
        simp only [specRE, Option.map_eq_some'] at h
        obtain ⟨ts, h1, h2⟩ := h
        obtain ⟨memo', hc⟩ := ih2 x ts h1 true 0 memo f' hinv hf'
        refine ⟨memo', ?_⟩
        simp only [compile, hc]
        rw [written_true_zero, h2]
      | Sequence x =>
        simp only [specRE, Option.map_eq_some'] at h
        obtain ⟨ts, h1, h2⟩ := h
        obtain ⟨memo', hc⟩ := ih2 x ts h1 false 0 memo f' hinv hf'
        refine ⟨memo', ?_⟩
        simp only [compile, hc]
        rw [written_false, h2]
      | Group body =>
        simp only [specRE, Option.map_eq_some'] at h
        obtain ⟨t, h1, h2⟩ := h
        obtain ⟨memo', hc⟩ := ih1 body t h1 [40] [41] memo f' hinv hf'
        refine ⟨memo', ?_⟩
        simp only [compile, hc]
        rw [h2]
      | Option body =>
        simp only [specRE, Option.map_eq_some'] at h
        obtain ⟨t, h1, h2⟩ := h
        obtain ⟨memo', hc⟩ := ih1 body t h1 [40] [41, 63] memo f' hinv hf'
        refine ⟨memo', ?_⟩
        simp only [compile, hc]
        rw [h2]
      | Repetition body =>
        simp only [specRE, Option.map_eq_some'] at h
        obtain ⟨t, h1, h2⟩ := h
        obtain ⟨memo', hc⟩ := ih1 body t h1 [40] [41, 42] memo f' hinv hf'
        refine ⟨memo', ?_⟩
        simp only [compile, hc]
        rw [h2]
      | Range lo hi =>
        simp only [specRE, Option.some.injEq] at h
        exact ⟨memo, by simp only [compile]; rw [h]⟩
      | Token t =>
        simp only [specRE] at h
        have hre := isRE_specInline t
        rcases hs : specInline t with _ | inner
        · rw [hs] at hre h
          simp only [Option.some.injEq] at hre h
          exact ⟨memo, by simp only [compile, hre]; rw [h]⟩
        · rw [hs] at hre h
          simp only [Option.some.injEq] at hre h
          exact ⟨memo, by simp only [compile, hre]; rw [h]⟩
      | Name m =>
        simp only [specRE] at h
        rcases hm : mapGet g m with _ | p
        · rw [hm] at h; simp at h
        · rw [hm] at h
          simp only [Option.map_eq_some'] at h
          obtain ⟨t, h1, h2⟩ := h
          obtain ⟨f'', rfl⟩ : ∃ f'', f' = f'' + 1 := ⟨f' - 1, by omega⟩
          have hf'' : 2 * d ≤ f'' := by omega
          rcases hmm : mapGet memo m with _ | r
          · obtain ⟨memo', hc⟩ := ih1 p.Expr t h1 [] [] memo f'' hinv hf''
            simp only [List.nil_append, List.append_nil] at hc
            refine ⟨mapSet memo' m t, ?_⟩
            simp only [compile, ebnf2RE, hm, hmm, hc]
            rw [h2]
          · obtain ⟨p', hp', hs'⟩ := hinv.1 m r hmm
            rw [hm] at hp'
            have hpp : p = p' := Option.some.inj hp'
            subst hpp
            have hrt : r = t := SpecTranslation_unique q g p.Expr r t hs' ⟨d, h1⟩
            subst hrt
            refine ⟨memo, ?_⟩
            simp only [compile, ebnf2RE, hm, hmm]
            rw [h2]
      | Other => simp [specRE] at h
    · intro xs ts h alt i memo f hinv hf
      obtain ⟨f', rfl⟩ : ∃ f', f = f' + 1 := ⟨f - 1, by omega⟩
      have hf' : 2 * d ≤ f' := by omega
      cases xs with
      | nil =>
        simp only [specList, Option.some.injEq] at h
        subst h
        exact ⟨memo, by simp [compileItems, written]⟩
      | cons x rest =>
        simp only [specList] at h
        rcases hx : specRE q g d x with _ | t
        · rw [hx] at h; simp at h
        · rw [hx] at h
          simp only at h
          rcases hr : specList q g d rest with _ | ts'
          · rw [hr] at h; simp at h
          · rw [hr] at h
            simp only [Option.some.injEq] at h
            subst h
            obtain ⟨memo1, hc1⟩ := ih1 x t hx
              (if alt = true then pipe (decide (i > 0)) else []) [] memo f' hinv hf'
            obtain ⟨_, _, _, hinv1, _, _⟩ := (code_sound q g f').2.1 _ x [] memo _ memo1 hinv hc1
            obtain ⟨memo2, hc2⟩ := ih2 rest ts' hr alt (i + 1) memo1 f' hinv1 hf'
            refine ⟨memo2, ?_⟩
            simp only [compileItems, hc1, hc2]
            simp [written]

/-- When the specification gives the expression of a production a translation
within depth `d`, `ebnf2RE` returns it, from every memo table that is in order and
for every bound above `2 * d`. -/
theorem ebnf2RE_complete (q : GoString → GoString) (g : Grammar) (name : GoString)
    (p : Production) (s : GoString) (d : Nat) (hp : mapGet g name = some p)
    (hs : specRE q g d p.Expr = some s) (memo : Memo) (hinv : MemoInv q g memo)
    (f : Nat) (hf : 2 * d + 1 ≤ f) :
    ∃ memo', ebnf2RE q f g name memo = some (.ok (s, memo')) := by
  have h := (code_complete q g (d + 1)).1 (.Name name) ([40] ++ s ++ [41])
    (by simp [specRE, hp, hs]) [] [] memo (f + 1) hinv (by omega)
  obtain ⟨memo', hc⟩ := h
  simp only [compile] at hc
  rcases he : ebnf2RE q f g name memo with _ | ⟨e | ⟨re, res'⟩⟩
  · rw [he] at hc; simp at hc
  · rw [he] at hc; simp at hc
  · rw [he] at hc
    simp only [List.nil_append, List.append_nil, Option.some.injEq, Except.ok.injEq,
      Prod.mk.injEq, List.append_cancel_right_eq, List.cons.injEq, true_and] at hc
    refine ⟨res', ?_⟩
    have : re = s := by
      have h1 := hc.1
      simpa using h1
    rw [this]

/-! ### Grammars without cycles have translations -/

mutual

/-- An expression of known variants has a translation when the productions it refers
to have one. -/
theorem spec_total_expr (q : GoString → GoString) (g : Grammar) :
    ∀ e : Expression, handled e = true →
      (∀ m ∈ refs e, ∃ p s, mapGet g m = some p ∧ SpecTranslation q g p.Expr s) →
      ∃ s, SpecTranslation q g e s
  | .Alternative x, h, hr => by
    obtain ⟨ts, d, hd⟩ := spec_total_list q g x (by simpa [handled] using h)
      (by simpa [refs] using hr)
    exact ⟨[124].intercalate ts, d + 1, by simp [specRE, hd]⟩
  | .Sequence x, h, hr => by
    obtain ⟨ts, d, hd⟩ := spec_total_list q g x (by simpa [handled] using h)
      (by simpa [refs] using hr)
    exact ⟨ts.flatten, d + 1, by simp [specRE, hd]⟩
  | .Group body, h, hr => by
    obtain ⟨s, hs⟩ := spec_total_expr q g body (by simpa [handled] using h)
      (by simpa [refs] using hr)
    exact ⟨_, (SpecTranslation_wrap q g body s hs).1⟩
  | .Option body, h, hr => by
    obtain ⟨s, hs⟩ := spec_total_expr q g body (by simpa [handled] using h)
      (by simpa [refs] using hr)
    exact ⟨_, (SpecTranslation_wrap q g body s hs).2.1⟩
  | .Repetition body, h, hr => by
    obtain ⟨s, hs⟩ := spec_total_expr q g body (by simpa [handled] using h)
      (by simpa [refs] using hr)
    exact ⟨_, (SpecTranslation_wrap q g body s hs).2.2⟩
  | .Range lo hi, _, _ => ⟨[91] ++ q lo ++ [45] ++ q hi ++ [93], 1, by simp [specRE]⟩
  | .Token t, _, _ => by
    rcases hs : specInline t with _ | inner
    · exact ⟨q t, 1, by simp [specRE, hs]⟩
    · exact ⟨inner, 1, by simp [specRE, hs]⟩
  | .Name m, _, hr => by
    obtain ⟨p, s, hp, d, hd⟩ := hr m (by simp [refs])
    exact ⟨[40] ++ s ++ [41], d + 1, by simp [specRE, hp, hd]⟩
  | .Other, h, _ => by simp [handled] at h

/-- A list of expressions of known variants has translations when the productions
it refers to have one. -/
theorem spec_total_list (q : GoString → GoString) (g : Grammar) :
    ∀ xs : List Expression, handledList xs = true →
      (∀ m ∈ refsList xs, ∃ p s, mapGet g m = some p ∧ SpecTranslation q g p.Expr s) →
      ∃ ts, SpecTranslations q g xs ts
  | [], _, _ => ⟨[], 1, by simp [specList]⟩
  | x :: rest, h, hr => by
    simp only [handledList, Bool.and_eq_true] at h
    obtain ⟨s, hs⟩ := spec_total_expr q g x h.1
      (fun m hm => hr m (by simp only [refsList, List.mem_append]; exact Or.inl hm))
    obtain ⟨ts, hts⟩ := spec_total_list q g rest h.2
      (fun m hm => hr m (by simp only [refsList, List.mem_append]; exact Or.inr hm))
    exact ⟨s :: ts, SpecTranslations_cons q g x rest s ts hs hts⟩

end

theorem mem_keys_of_mapGet {κ ν : Type} [DecidableEq κ] (m : List (κ × ν)) (k : κ) (v : ν)
    (h : mapGet m k = some v) : k ∈ m.map Prod.fst :=
  (mapGet_isSome_iff m k).mp (by rw [h]; rfl)

/-- In a grammar without cycles in which every name referred to is defined and every
node is of a known variant, the specification gives every production a
translation. -/
theorem spec_total (q : GoString → GoString) (g : Grammar) (hacyc : Acyclic g)
    (hwf : WellFormed g) (n : GoString) (p : Production) (hp : mapGet g n = some p) :
    ∃ s, SpecTranslation q g p.Expr s := by
  let K := {n : GoString // n ∈ g.map Prod.fst}
  let r : K → K → Prop := fun a b => Relation.TransGen (Refers g) b.1 a.1
  haveI : IsTrans K r := ⟨fun a b c hab hbc => Relation.TransGen.trans hbc hab⟩
  haveI : IsIrrefl K r := ⟨fun a h => hacyc a.1 h⟩
  have wf : WellFounded r := Finite.wellFounded_of_trans_of_irrefl r
  have key : ∀ k : K, ∀ p, mapGet g k.1 = some p → ∃ s, SpecTranslation q g p.Expr s := by
    intro k
    induction k using wf.induction with
    | _ k ih =>
      intro p hp
      obtain ⟨hh, hd⟩ := hwf k.1 p hp
      refine spec_total_expr q g p.Expr hh ?_
      intro m hm
      rcases hpm : mapGet g m with _ | pm
      · have := hd m hm
        rw [hpm] at this
        simp at this
      · obtain ⟨s, hs⟩ := ih ⟨m, mem_keys_of_mapGet g m pm hpm⟩
          (Relation.TransGen.single ⟨p, hp, hm⟩) pm hpm
        exact ⟨pm, s, rfl, hs⟩
  exact key ⟨n, mem_keys_of_mapGet g n p hp⟩ p hp

/-! ### Productions that refer to themselves have no translation -/

/-- A translation within depth `d` needs, for every production referred to, a
translation within a smaller depth. -/
theorem spec_refs_depth (q : GoString → GoString) (g : Grammar) (d : Nat) :
    (∀ e s, specRE q g d e = some s → ∀ m ∈ refs e,
      ∃ pm d' sm, d' < d ∧ mapGet g m = some pm ∧ specRE q g d' pm.Expr = some sm) ∧
    (∀ xs ts, specList q g d xs = some ts → ∀ m ∈ refsList xs,
      ∃ pm d' sm, d' < d ∧ mapGet g m = some pm ∧ specRE q g d' pm.Expr = some sm) := by
  induction d with
  | zero =>
    exact ⟨fun e s h => by simp [specRE] at h, fun xs ts h => by simp [specList] at h⟩
  | succ d ih =>
    obtain ⟨ih1, ih2⟩ := ih
    have up : ∀ m, (∃ pm d' sm, d' < d ∧ mapGet g m = some pm ∧
        specRE q g d' pm.Expr = some sm) →
        ∃ pm d' sm, d' < d + 1 ∧ mapGet g m = some pm ∧ specRE q g d' pm.Expr = some sm := by
      rintro m ⟨pm, d', sm, h1, h2, h3⟩
      exact ⟨pm, d', sm, by omega, h2, h3⟩
    constructor
    · intro e s h m hm
      cases e with
      | Alternative x =>
        simp only [specRE, Option.map_eq_some'] at h
        obtain ⟨ts, h1, _⟩ := h
        exact up m (ih2 x ts h1 m (by simpa [refs] using hm))
      | Sequence x =>
        simp only [specRE, Option.map_eq_some'] at h
        obtain ⟨ts, h1, _⟩ := h
        exact up m (ih2 x ts h1 m (by simpa [refs] using hm))
      | Group body =>
        simp only [specRE, Option.map_eq_some'] at h
        obtain ⟨t, h1, _⟩ := h
        exact up m (ih1 body t h1 m (by simpa [refs] using hm))
      | Option body =>
        simp only [specRE, Option.map_eq_some'] at h
        obtain ⟨t, h1, _⟩ := h
        exact up m (ih1 body t h1 m (by simpa [refs] using hm))
      | Repetition body =>
        simp only [specRE, Option.map_eq_some'] at h
        obtain ⟨t, h1, _⟩ := h
        exact up m (ih1 body t h1 m (by simpa [refs] using hm))
      | Range lo hi => simp [refs] at hm
      | Token t => simp [refs] at hm
      | Name n =>
        simp only [refs, List.mem_singleton] at hm
        subst hm
        simp only [specRE] at h
        rcases hg : mapGet g m with _ | p
        · rw [hg] at h; simp at h
        · rw [hg] at h
          simp only [Option.map_eq_some'] at h
          obtain ⟨t, h1, _⟩ := h
          exact ⟨p, d, t, by omega, rfl, h1⟩
      | Other => simp [specRE] at h
    · intro xs ts h m hm
      cases xs with
      | nil => simp [refsList] at hm
      | cons x rest =>
        simp only [specList] at h
        rcases hx : specRE q g d x with _ | t
        · rw [hx] at h; simp at h
        · rw [hx] at h
          simp only at h
          rcases hr : specList q g d rest with _ | ts'
          · rw [hr] at h; simp at h
          · simp only [refsList, List.mem_append] at hm
            rcases hm with hm | hm
            · exact up m (ih1 x t hx m hm)
            · exact up m (ih2 rest ts' hr m hm)

/-- Along a path of references the depth of the translations falls. -/
theorem spec_depth_along (q : GoString → GoString) (g : Grammar) (n m : GoString)
    (hpath : Relation.TransGen (Refers g) n m) (d : Nat) (p : Production) (s : GoString)
    (hp : mapGet g n = some p) (hs : specRE q g d p.Expr = some s) :
    ∃ pm d' sm, d' < d ∧ mapGet g m = some pm ∧ specRE q g d' pm.Expr = some sm := by
  induction hpath with
  | single h =>
    obtain ⟨p', hp', hm⟩ := h
    rw [hp] at hp'
    have hpp : p = p' := Option.some.inj hp'
    subst hpp
    exact (spec_refs_depth q g d).1 p.Expr s hs _ hm
  | tail _ h ih =>
    obtain ⟨pb, d', sb, h1, h2, h3⟩ := ih
    obtain ⟨p', hp', hm⟩ := h
    rw [h2] at hp'
    have hpp : pb = p' := Option.some.inj hp'
    subst hpp
    obtain ⟨pm, d'', sm, j1, j2, j3⟩ := (spec_refs_depth q g d').1 pb.Expr sb h3 _ hm
    exact ⟨pm, d'', sm, by omega, j2, j3⟩

/-- The specification gives no translation to a production that refers to itself,
directly or through other productions. -/
theorem spec_none_of_cycle (q : GoString → GoString) (g : Grammar) (n : GoString)
    (hcyc : Relation.TransGen (Refers g) n n) (p : Production) (s : GoString)
    (hp : mapGet g n = some p) : ¬ SpecTranslation q g p.Expr s := by
  rintro ⟨d, hd⟩
  induction d using Nat.strong_induction_on generalizing p s with
  | _ d ih =>
    obtain ⟨pm, d', sm, h1, h2, h3⟩ := spec_depth_along q g n n hcyc d p s hp hd
    exact ih d' h1 pm sm h2 h3

/-! ### Grammars in good order do not panic -/

/-- In a grammar in which every name referred to is defined and every node is of a
known variant, neither `ebnf2RE` on a defined production nor `compile` on an
expression of the grammar panics, whatever the memo table. -/
theorem code_no_panic (q : GoString → GoString) (g : Grammar) (hwf : WellFormed g)
    (fuel : Nat) :
    (∀ name memo e, (mapGet g name).isSome = true →
      ebnf2RE q fuel g name memo ≠ some (.error e)) ∧
    (∀ pre x post memo e, handled x = true →
      (∀ m ∈ refs x, (mapGet g m).isSome = true) →
      compile q fuel g pre x post memo ≠ some (.error e)) ∧
    (∀ alt i xs memo e, handledList xs = true →
      (∀ m ∈ refsList xs, (mapGet g m).isSome = true) →
      compileItems q fuel g alt i xs memo ≠ some (.error e)) := by
  induction fuel with
  | zero =>
    refine ⟨?_, ?_, ?_⟩
    · intro name memo e _; simp [ebnf2RE]
    · intro pre x post memo e _ _; simp [compile]
    · intro alt i xs memo e _ _; simp [compileItems]
  | succ f ih =>
    obtain ⟨ih1, ih2, ih3⟩ := ih
    refine ⟨?_, ?_, ?_⟩
    · intro name memo e hdef h
      simp only [ebnf2RE] at h
      rcases hg : mapGet g name with _ | p
      · rw [hg] at hdef; simp at hdef
      · rw [hg] at h
        simp only at h
        rcases hm : mapGet memo name with _ | r
        · rw [hm] at h
          simp only at h
          obtain ⟨hh, hd⟩ := hwf name p hg
          rcases hc : compile q f g [] p.Expr [] memo with _ | ⟨e' | ⟨w, res'⟩⟩
          · rw [hc] at h; simp at h
          · exact ih2 [] p.Expr [] memo e' hh hd hc
          · rw [hc] at h; simp at h
        · rw [hm] at h; simp at h
    · intro pre x post memo e hh hd h
      cases x with
      | Alternative x =>
        simp only [compile] at h
        rcases hc : compileItems q f g true 0 x memo with _ | ⟨e' | ⟨w, res'⟩⟩
        · rw [hc] at h; simp at h
        · exact ih3 true 0 x memo e' (by simpa [handled] using hh) (by simpa [refs] using hd) hc
        · rw [hc] at h; simp at h
      | Sequence x =>
        simp only [compile] at h
        rcases hc : compileItems q f g false 0 x memo with _ | ⟨e' | ⟨w, res'⟩⟩
        · rw [hc] at h; simp at h
        · exact ih3 false 0 x memo e' (by simpa [handled] using hh)
            (by simpa [refs] using hd) hc
        · rw [hc] at h; simp at h
      | Group body =>
        simp only [compile] at h
        rcases hc : compile q f g [40] body [41] memo with _ | ⟨e' | ⟨w, res'⟩⟩
        · rw [hc] at h; simp at h
        · exact ih2 _ body _ memo e' (by simpa [handled] using hh) (by simpa [refs] using hd) hc
        · rw [hc] at h; simp at h
      | Option body =>
        simp only [compile] at h
        rcases hc : compile q f g [40] body [41, 63] memo with _ | ⟨e' | ⟨w, res'⟩⟩
        · rw [hc] at h; simp at h
        · exact ih2 _ body _ memo e' (by simpa [handled] using hh) (by simpa [refs] using hd) hc
        · rw [hc] at h; simp at h
      | Repetition body =>
        simp only [compile] at h
        rcases hc : compile q f g [40] body [41, 42] memo with _ | ⟨e' | ⟨w, res'⟩⟩
        · rw [hc] at h; simp at h
        · exact ih2 _ body _ memo e' (by simpa [handled] using hh) (by simpa [refs] using hd) hc
        · rw [hc] at h; simp at h
      | Name n =>
        simp only [compile] at h
        rcases hc : ebnf2RE q f g n memo with _ | ⟨e' | ⟨re, res'⟩⟩
        · rw [hc] at h; simp at h
        · exact ih1 n memo e' (hd n (by simp [refs])) hc
        · rw [hc] at h; simp at h
      | Range lo hi => simp [compile] at h
      | Token t =>
        simp only [compile] at h
        rcases hre : isRE t with ⟨a, b⟩
        rw [hre] at h
        cases b <;> simp at h
      | Other => simp [handled] at hh
    · intro alt i xs memo e hh hd h
      cases xs with
      | nil => simp [compileItems] at h
      | cons x rest =>
        simp only [handledList, Bool.and_eq_true] at hh
        simp only [refsList, List.mem_append] at hd
        simp only [compileItems] at h
        rcases hc : compile q f g (if alt = true then pipe (decide (i > 0)) else []) x [] memo
          with _ | ⟨e' | ⟨w1, res1⟩⟩
        · rw [hc] at h; simp at h
        · exact ih2 _ x _ memo e' hh.1 (fun m hm => hd m (Or.inl hm)) hc
        · rw [hc] at h
          simp only at h
          rcases hr : compileItems q f g alt (i + 1) rest res1 with _ | ⟨e' | ⟨w2, res2⟩⟩
          · rw [hr] at h; simp at h
          · exact ih3 alt (i + 1) rest res1 e' hh.2 (fun m hm => hd m (Or.inr hm)) hr
          · rw [hr] at h; simp at h

/-- A memo table filled by earlier calls of `ebnf2RE` is in order. -/
theorem MemoInv_of_FilledBy (q : GoString → GoString) (g : Grammar) (memo : Memo)
    (h : FilledBy q g memo) : MemoInv q g memo := by
  induction h with
  | empty => exact MemoInv_nil q g
  | call _ hc ih => exact ((code_sound q g _).1 _ _ _ _ ih hc).2.1

/-! ### Concrete grammars -/

theorem mem_of_mapGet {κ ν : Type} [DecidableEq κ] (m : List (κ × ν)) (k : κ) (v : ν)
    (h : mapGet m k = some v) : (k, v) ∈ m := by
  induction m with
  | nil => simp [mapGet] at h
  | cons x t ih =>
    obtain ⟨k', v'⟩ := x
    by_cases hk : k' = k
    · simp only [mapGet, hk, if_true, Option.some.injEq] at h
      simp [hk, h]
    · simp only [mapGet, hk, if_false] at h
      exact List.mem_cons_of_mem _ (ih h)

/-- A grammar whose productions can be numbered so that every production refers to
productions of smaller number only has no cycle. -/
theorem acyclic_of_rank (g : Grammar) (rank : GoString → Nat)
    (h : ∀ x ∈ g, ∀ m ∈ refs x.2.Expr, rank m < rank x.1) : Acyclic g := by
  have step : ∀ n m, Refers g n m → rank m < rank n := by
    rintro n m ⟨p, hp, hm⟩
    exact h (n, p) (mem_of_mapGet g n p hp) m hm
  have path : ∀ n m, Relation.TransGen (Refers g) n m → rank m < rank n := by
    intro n m hnm
    induction hnm with
    | single h1 => exact step _ _ h1
    | tail _ h1 ih => exact lt_trans (step _ _ h1) ih
  intro n hn
  exact lt_irrefl _ (path n n hn)

theorem wellFormed_of_forall (g : Grammar)
    (h : ∀ x ∈ g, handled x.2.Expr = true ∧
      ∀ m ∈ refs x.2.Expr, (mapGet g m).isSome = true) : WellFormed g :=
  fun n p hp => h (n, p) (mem_of_mapGet g n p hp)

/-- A numbering of the productions of `numberGrammar`: `d`, then `n`, then `TOK`. -/
theorem numberGrammar_acyclic : Acyclic numberGrammar :=
  acyclic_of_rank numberGrammar
    (fun n => if n = [100] then 0 else if n = [110] then 1 else 2) (by decide)

theorem numberGrammar_wellFormed : WellFormed numberGrammar :=
  wellFormed_of_forall numberGrammar (by decide)

/-! ### C11: ebnf2RE and the table of the specification -/

/-- C11. For every grammar with an acyclic production-reference graph and every
defined production name `N`: when the table of the specification gives `expr(N)`
the translation `s`, `ebnf2RE(g, N, empty memo)` returns `s` for every bound that is
large enough; a string that `ebnf2RE(g, N, empty memo)` returns is that
translation; and the table gives a translation whenever every name referred to is
defined and every node is of one of the eight variants. -/
theorem ebnf2RE_eq_spec (q : GoString → GoString) (g : Grammar) (N : GoString)
    (p : Production) (hN : mapGet g N = some p) (hacyc : Acyclic g) :
    (∀ s, SpecTranslation q g p.Expr s →
      ∃ F, ∀ fuel, F ≤ fuel → ∃ memo', ebnf2RE q fuel g N [] = some (.ok (s, memo'))) ∧
    (∀ fuel s memo', ebnf2RE q fuel g N [] = some (.ok (s, memo')) →
      SpecTranslation q g p.Expr s) ∧
    (WellFormed g → ∃ s, SpecTranslation q g p.Expr s) := by
  refine ⟨?_, ?_, ?_⟩
  · rintro s ⟨d, hd⟩
    exact ⟨2 * d + 1, fun fuel hf =>
      ebnf2RE_complete q g N p s d hN hd [] (MemoInv_nil q g) fuel hf⟩
  · intro fuel s memo' h
    obtain ⟨⟨p', hp', hs⟩, _⟩ := (code_sound q g fuel).1 N [] s memo' (MemoInv_nil q g) h
    rw [hN] at hp'
    rw [Option.some.inj hp']
    exact hs
  · intro hwf
    exact spec_total q g hacyc hwf N p hN

/-- The statement of C11 at the production `n = d { d } .` of the grammar of numbers,
whose translation is `([0-9])(([0-9]))*`. -/
theorem ebnf2RE_eq_spec_witness :
    mapGet numberGrammar [110] = some ⟨.Sequence [.Name [100], .Repetition (.Name [100])]⟩ ∧
    Acyclic numberGrammar ∧
    specRE (fun s => s) numberGrammar 6 (.Sequence [.Name [100], .Repetition (.Name [100])])
      = some [40, 91, 48, 45, 57, 93, 41, 40, 40, 91, 48, 45, 57, 93, 41, 41, 42] ∧
    (ebnf2RE (fun s => s) 11 numberGrammar [110] []).map (fun r => r.map Prod.fst)
      = some (.ok [40, 91, 48, 45, 57, 93, 41, 40, 40, 91, 48, 45, 57, 93, 41, 41, 42]) ∧
    ((∀ s, SpecTranslation (fun s => s) numberGrammar
        (Production.mk (.Sequence [.Name [100], .Repetition (.Name [100])])).Expr s →
      ∃ F, ∀ fuel, F ≤ fuel → ∃ memo',
        ebnf2RE (fun s => s) fuel numberGrammar [110] [] = some (.ok (s, memo'))) ∧
    (∀ fuel s memo',
        ebnf2RE (fun s => s) fuel numberGrammar [110] [] = some (.ok (s, memo')) →
      SpecTranslation (fun s => s) numberGrammar
        (Production.mk (.Sequence [.Name [100], .Repetition (.Name [100])])).Expr s) ∧
    (WellFormed numberGrammar → ∃ s, SpecTranslation (fun s => s) numberGrammar
        (Production.mk (.Sequence [.Name [100], .Repetition (.Name [100])])).Expr s)) :=
  ⟨rfl, numberGrammar_acyclic, rfl, rfl,
    ebnf2RE_eq_spec (fun s => s) numberGrammar [110] _ rfl numberGrammar_acyclic⟩

/-! ### C12: productions that refer to themselves -/

/-- A production from which a path of references starts is defined. -/
theorem defined_of_path (g : Grammar) (n m : GoString)
    (h : Relation.TransGen (Refers g) n m) : (mapGet g n).isSome = true := by
  induction h with
  | single h1 =>
    obtain ⟨p, hp, _⟩ := h1
    rw [hp]; rfl
  | tail _ _ ih => exact ih

/-- In `mutualGrammar` the production `a` refers to `b` and `b` to `a`. -/
theorem mutualGrammar_cycle : Relation.TransGen (Refers mutualGrammar) [97] [97] :=
  Relation.TransGen.tail
    (Relation.TransGen.single
      (show Refers mutualGrammar [97] [98] from
        ⟨⟨.Sequence [.Token [120], .Name [98]]⟩, rfl, by decide⟩))
    (show Refers mutualGrammar [98] [97] from
      ⟨⟨.Alternative [.Sequence [.Token [121], .Name [97]], .Token [122]]⟩, rfl, by decide⟩)

theorem mutualGrammar_wellFormed : WellFormed mutualGrammar :=
  wellFormed_of_forall mutualGrammar (by decide)

/-- C12, amended. For every grammar in which the production named `N` refers to
itself, directly or through other productions, `ebnf2RE(g, N, memo)`, with the empty
memo or a memo filled by earlier calls, returns no regex, whatever the bound; and
when every name referred to is defined and every node is of a known variant it
does not panic either: the call does not end. -/
theorem ebnf2RE_recursive_production (q : GoString → GoString) (g : Grammar) (N : GoString)
    (hcyc : Relation.TransGen (Refers g) N N) :
    (∀ fuel memo, FilledBy q g memo → ∀ re memo',
      ebnf2RE q fuel g N memo ≠ some (.ok (re, memo'))) ∧
    (WellFormed g → ∀ fuel memo, FilledBy q g memo → ebnf2RE q fuel g N memo = none) := by
  have hnot : ∀ fuel memo, FilledBy q g memo → ∀ re memo',
      ebnf2RE q fuel g N memo ≠ some (.ok (re, memo')) := by
    intro fuel memo hf re memo' h
    obtain ⟨⟨p, hp, hs⟩, _⟩ :=
      (code_sound q g fuel).1 N memo re memo' (MemoInv_of_FilledBy q g memo hf) h
    exact spec_none_of_cycle q g N hcyc p re hp hs
  refine ⟨hnot, ?_⟩
  intro hwf fuel memo hf
  rcases h : ebnf2RE q fuel g N memo with _ | ⟨e | ⟨re, memo'⟩⟩
  · rfl
  · exact absurd h ((code_no_panic q g hwf fuel).1 N memo e (defined_of_path g N N hcyc))
  · exact absurd h (hnot fuel memo hf re memo')

/-- The amended statement of C12 at the production `a` of `mutualGrammar`. -/
theorem ebnf2RE_recursive_production_witness :
    Relation.TransGen (Refers mutualGrammar) [97] [97] ∧
    (∀ fuel memo, FilledBy (fun s => s) mutualGrammar memo → ∀ re memo',
      ebnf2RE (fun s => s) fuel mutualGrammar [97] memo ≠ some (.ok (re, memo'))) ∧
    (WellFormed mutualGrammar → ∀ fuel memo, FilledBy (fun s => s) mutualGrammar memo →
      ebnf2RE (fun s => s) fuel mutualGrammar [97] memo = none) :=
  ⟨mutualGrammar_cycle,
    ebnf2RE_recursive_production (fun s => s) mutualGrammar [97] mutualGrammar_cycle⟩

/-- On `mutualGrammar` the lowering of `a` does not end, whatever the bound. -/
theorem ebnf2RE_mutualGrammar (fuel : Nat) :
    ebnf2RE (fun s => s) fuel mutualGrammar [97] [] = none := by
  rcases h : ebnf2RE (fun s => s) fuel mutualGrammar [97] [] with _ | ⟨e | ⟨re, memo'⟩⟩
  · rfl
  · exact absurd h ((code_no_panic _ _ mutualGrammar_wellFormed fuel).1 [97] [] e rfl)
  · obtain ⟨⟨p, hp, hs⟩, _⟩ :=
      (code_sound (fun s => s) mutualGrammar fuel).1 [97] [] re memo' (MemoInv_nil _ _) h
    exact absurd hs (spec_none_of_cycle _ _ [97] mutualGrammar_cycle p re hp)

/-- With the token definition `a` and the grammar `a = "x" b . b = "y" a | "z" .` the
grammar pass does not end, whatever the bound. -/
theorem compileTables_mutualGrammar (fuel : Nat) :
    compileTables (toyEnv mutualGrammar) fuel [([97], 1)] mutualSource [84, 79, 75] = none := by
  have hc : classify (toyEnv mutualGrammar) mutualSource ⟨[], [], []⟩ [([97], 1)]
      = .ok ⟨[97], [(1, [])], [(1, [105, 100, 45, 49])]⟩ := by rfl
  have hi : isIdent (toyEnv mutualGrammar).isLetter (toyEnv mutualGrammar).isDigit
      (toyEnv mutualGrammar).rangeString [97] = true := by rfl
  have hq : (toyEnv mutualGrammar).quoteMeta = fun s => s := rfl
  have hl : ∀ t, lowerAll (toyEnv mutualGrammar) fuel mutualGrammar [([97], 1)] [] t = none := by
    intro t
    simp only [lowerAll, hi, if_true, hq, ebnf2RE_mutualGrammar]
  unfold compileTables
  rw [hc]
  simp only [grammarPass]
  rw [if_pos (by decide)]
  have h3 := hl ⟨[97], [(1, [])], [(1, [105, 100, 45, 49])]⟩
  simp only [toyEnv] at h3 ⊢
  rw [h3]

/-- C12 as stated fails. In the grammar `a = "x" b . b = "y" a | "z" .` the production
`a` refers to itself through `b`; `ebnf2RE(g, "a", empty memo)` returns nothing, no
error either, and `CompileLexer` with the token definition `a` returns neither a
lexer nor an error. -/
theorem ebnf2RE_no_recursion_error :
    Relation.TransGen (Refers mutualGrammar) [97] [97] ∧
    (∀ fuel, ebnf2RE (fun s => s) fuel mutualGrammar [97] [] = none) ∧
    (∀ fuel, CompileLexer (toyEnv mutualGrammar) fuel none [([97], 1)] mutualSource
      [84, 79, 75] = none) := by
  refine ⟨mutualGrammar_cycle, ebnf2RE_mutualGrammar, fun fuel => ?_⟩
  simp [CompileLexer, compileTables_mutualGrammar]

/-! ### C20: the memo table -/

/-- With a production the memo table holds every production that can be reached
from it through references. -/
theorem memo_reach (q : GoString → GoString) (g : Grammar) (memo : Memo)
    (hinv : MemoInv q g memo) (n m : GoString) (hn : (mapGet memo n).isSome = true)
    (hpath : Relation.TransGen (Refers g) n m) : (mapGet memo m).isSome = true := by
  induction hpath with
  | single h =>
    obtain ⟨p, hp, hm⟩ := h
    exact hinv.2 n p hn hp _ hm
  | tail _ h ih =>
    obtain ⟨p, hp, hm⟩ := h
    exact hinv.2 _ p ih hp _ hm

/-- C20. For every grammar with an acyclic production-reference graph and every memo
table filled by earlier calls of `ebnf2RE` on it: a string that `ebnf2RE(g, N, memo)`
returns is returned by `ebnf2RE(g, N, empty memo)` and the other way round, for
every bound that is large enough; after the call the memo table maps `N` and every
production reached from `N` through references to its own translation, the one of
the specification, which `ebnf2RE` returns for it from the empty memo; and the
call returns whenever `N` is defined, every name referred to is defined and every
node is of a known variant. -/
theorem ebnf2RE_memo (q : GoString → GoString) (g : Grammar) (N : GoString)
    (hacyc : Acyclic g) (memo : Memo) (hfilled : FilledBy q g memo) :
    (∀ fuel s memo', ebnf2RE q fuel g N memo = some (.ok (s, memo')) →
      (∃ F, ∀ f, F ≤ f → ∃ memo₀, ebnf2RE q f g N [] = some (.ok (s, memo₀))) ∧
      ∀ m, (m = N ∨ Relation.TransGen (Refers g) N m) →
        ∃ pm sm, mapGet g m = some pm ∧ SpecTranslation q g pm.Expr sm ∧
          mapGet memo' m = some sm ∧
          ∃ F, ∀ f, F ≤ f → ∃ memo₁, ebnf2RE q f g m [] = some (.ok (sm, memo₁))) ∧
    (∀ fuel s memo₀, ebnf2RE q fuel g N [] = some (.ok (s, memo₀)) →
      ∃ F, ∀ f, F ≤ f → ∃ memo', ebnf2RE q f g N memo = some (.ok (s, memo'))) ∧
    (WellFormed g → (mapGet g N).isSome = true →
      ∃ s F, ∀ f, F ≤ f → ∃ memo', ebnf2RE q f g N memo = some (.ok (s, memo'))) := by
  have hinv := MemoInv_of_FilledBy q g memo hfilled
  refine ⟨?_, ?_, ?_⟩
  · intro fuel s memo' h
    obtain ⟨⟨p, hp, ⟨d, hd⟩⟩, hinv', _, hN⟩ := (code_sound q g fuel).1 N memo s memo' hinv h
    refine ⟨⟨2 * d + 1, fun f hf =>
      ebnf2RE_complete q g N p s d hp hd [] (MemoInv_nil q g) f hf⟩, ?_⟩
    intro m hm
    have hsome : (mapGet memo' m).isSome = true := by
      rcases hm with rfl | hm
      · rw [hN]; rfl
      · exact memo_reach q g memo' hinv' N m (by rw [hN]; rfl) hm
    rcases hv : mapGet memo' m with _ | sm
    · rw [hv] at hsome; simp at hsome
    · obtain ⟨pm, hpm, ⟨dm, hdm⟩⟩ := hinv'.1 m sm hv
      exact ⟨pm, sm, hpm, ⟨dm, hdm⟩, rfl, 2 * dm + 1, fun f hf =>
        ebnf2RE_complete q g m pm sm dm hpm hdm [] (MemoInv_nil q g) f hf⟩
  · intro fuel s memo₀ h
    obtain ⟨⟨p, hp, ⟨d, hd⟩⟩, _⟩ := (code_sound q g fuel).1 N [] s memo₀ (MemoInv_nil q g) h
    exact ⟨2 * d + 1, fun f hf => ebnf2RE_complete q g N p s d hp hd memo hinv f hf⟩
  · intro hwf hdef
    rcases hp : mapGet g N with _ | p
    · rw [hp] at hdef; simp at hdef
    · obtain ⟨s, d, hd⟩ := spec_total q g hacyc hwf N p hp
      exact ⟨s, 2 * d + 1, fun f hf => ebnf2RE_complete q g N p s d hp hd memo hinv f hf⟩

/-- The statement of C20 at the production `n` of the grammar of numbers, with the
memo table that a call for the production `d` left behind. -/
theorem ebnf2RE_memo_witness :
    Acyclic numberGrammar ∧
    FilledBy (fun s => s) numberGrammar [([100], [91, 48, 45, 57, 93])] ∧
    ((∀ fuel s memo',
        ebnf2RE (fun s => s) fuel numberGrammar [110] [([100], [91, 48, 45, 57, 93])]
          = some (.ok (s, memo')) →
      (∃ F, ∀ f, F ≤ f → ∃ memo₀,
        ebnf2RE (fun s => s) f numberGrammar [110] [] = some (.ok (s, memo₀))) ∧
      ∀ m, (m = [110] ∨ Relation.TransGen (Refers numberGrammar) [110] m) →
        ∃ pm sm, mapGet numberGrammar m = some pm ∧
          SpecTranslation (fun s => s) numberGrammar pm.Expr sm ∧
          mapGet memo' m = some sm ∧
          ∃ F, ∀ f, F ≤ f → ∃ memo₁,
            ebnf2RE (fun s => s) f numberGrammar m [] = some (.ok (sm, memo₁))) ∧
    (∀ fuel s memo₀, ebnf2RE (fun s => s) fuel numberGrammar [110] [] = some (.ok (s, memo₀)) →
      ∃ F, ∀ f, F ≤ f → ∃ memo',
        ebnf2RE (fun s => s) f numberGrammar [110] [([100], [91, 48, 45, 57, 93])]
          = some (.ok (s, memo'))) ∧
    (WellFormed numberGrammar → (mapGet numberGrammar [110]).isSome = true →
      ∃ s F, ∀ f, F ≤ f → ∃ memo',
        ebnf2RE (fun s => s) f numberGrammar [110] [([100], [91, 48, 45, 57, 93])]
          = some (.ok (s, memo')))) :=
  ⟨numberGrammar_acyclic,
    @FilledBy.call (fun s => s) numberGrammar [] [([100], [91, 48, 45, 57, 93])] 3 [100]
      [91, 48, 45, 57, 93] FilledBy.empty rfl,
    ebnf2RE_memo (fun s => s) numberGrammar [110] numberGrammar_acyclic _
      (@FilledBy.call (fun s => s) numberGrammar [] [([100], [91, 48, 45, 57, 93])] 3 [100]
        [91, 48, 45, 57, 93] FilledBy.empty rfl)⟩

/-! ### Lemmas on Source.Read -/

theorem runesReader_cons (rune size : Int) (rest : List (Int × Int)) :
    (runesReader ((rune, size) :: rest)).ReadRune = ((rune, size, none), runesReader rest) := by
  unfold RuneReader.ReadRune
  refine Prod.ext ?_ ?_
  · simp [runesReader]
  · funext n
    simp [runesReader]

theorem runesReader_nil :
    (runesReader []).ReadRune = ((0, 0, some .EOF), runesReader []) := by
  unfold RuneReader.ReadRune
  refine Prod.ext ?_ ?_
  · simp [runesReader]
  · funext n
    simp [runesReader]

/-- A `Read` from a reader that has a rune left returns the rune with the position of
the top source and moves that position on; the stack is not touched. -/
theorem Read_rune (stack : List source) (p : Position) (rune size : Int)
    (rest : List (Int × Int)) :
    Source.Read { stack := stack, tos := { reader := runesReader ((rune, size) :: rest),
                                           position := p } } =
      ({ Position := p, Rune := rune, Size := size, Err := none },
       { stack := stack, tos := { reader := runesReader rest,
                                  position := advance p rune size } }) := by
  cases stack <;> simp [Source.Read, readLoop, runesReader_cons]

/-- A `Read` from a reader at its end, with a source below on the stack, is the
`Read` of the `Source` that has that source on top. -/
theorem Read_pop (parent : source) (rest : List source) (p : Position) :
    Source.Read { stack := parent :: rest, tos := { reader := runesReader [], position := p } }
      = Source.Read { stack := rest, tos := parent } := by
  simp [Source.Read, readLoop, runesReader_nil]

/-- A `Read` from a reader at its end, with nothing below on the stack, returns rune 0,
size 0 and `os.EOF` and leaves the `Source` as it is. -/
theorem Read_end (p : Position) :
    Source.Read { stack := [], tos := { reader := runesReader [], position := p } } =
      ({ Position := p, Rune := 0, Size := 0, Err := some .EOF },
       { stack := [], tos := { reader := runesReader [], position := p } }) := by
  simp [Source.Read, readLoop, runesReader_nil]

theorem readN_add (a b : Nat) (s : Source) :
    readN (a + b) s = ((readN a s).1 ++ (readN b (readN a s).2).1, (readN b (readN a s).2).2) := by
  induction a generalizing s with
  | zero => simp [readN]
  | succ a ih =>
    have h : a + 1 + b = (a + b) + 1 := by omega
    rw [h]
    simp only [readN]
    rw [ih]
    simp

/-- The first `n` calls of `Read` on a reader with at least `n` runes left return
these runes, each without error and with its starting position. -/
theorem readN_runes (n : Nat) (stack : List source) (p : Position) (rs : List (Int × Int))
    (hn : n ≤ rs.length) :
    readN n { stack := stack, tos := { reader := runesReader rs, position := p } } =
      (runeResults p (rs.take n),
       { stack := stack, tos := { reader := runesReader (rs.drop n),
                                  position := positionAfter p (rs.take n) } }) := by
  induction n generalizing p rs with
  | zero => simp [readN, runeResults, positionAfter]
  | succ n ih =>
    cases rs with
    | nil => simp at hn
    | cons x rest =>
      obtain ⟨rune, size⟩ := x
      simp only [List.length_cons, Nat.add_le_add_iff_right] at hn
      simp only [readN, Read_rune, ih (advance p rune size) rest hn, List.take_succ_cons,
        List.drop_succ_cons, runeResults, positionAfter]

/-! ### C13: Include and Read -/

/-- After the runes of an included reader, `Read` behaves as on the `Source` before
the `Include`. -/
theorem readN_after_Include (s : Source) (fname : GoString) (B : List (Int × Int)) (n : Nat) :
    (readN (B.length + n) (s.Include fname (runesReader B))).1 =
      runeResults { Filename := fname, Offset := 0, Line := 1, Column := 1 } B
        ++ (readN n s).1 := by
  rw [readN_add]
  have h := readN_runes B.length (s.tos :: s.stack)
    { Filename := fname, Offset := 0, Line := 1, Column := 1 } B (le_refl _)
  simp only [List.take_length, List.drop_length] at h
  have hi : s.Include fname (runesReader B) =
      { stack := s.tos :: s.stack,
        tos := { reader := runesReader B,
                 position := { Filename := fname, Offset := 0, Line := 1, Column := 1 } } } := rfl
  rw [hi, h]
  simp only [List.append_cancel_left_eq]
  cases n with
  | zero => simp [readN]
  | succ n =>
    simp only [readN, Read_pop]

/-- C13, amended. For every `Source` whose current reader still has the runes `A`
left, after `Include(fname, r)` with `r` yielding the runes `B`, successive `Read`
calls return the runes of `B` in order, then the runes of `A` in order, each
without error, the runes of `A` with the positions they have without the
`Include`; the calls after the runes of `B` return what they return without the
`Include`, which after the runes of `A` is end of input (rune 0, size 0, `EOF`)
when no other reader is on the stack. -/
theorem Include_then_Read (s : Source) (fname : GoString) (A B : List (Int × Int))
    (hA : s.tos.reader = runesReader A) :
    (readN (B.length + A.length) (s.Include fname (runesReader B))).1 =
      runeResults { Filename := fname, Offset := 0, Line := 1, Column := 1 } B
        ++ runeResults s.tos.position A ∧
    (readN A.length s).1 = runeResults s.tos.position A ∧
    (∀ n, (readN (B.length + n) (s.Include fname (runesReader B))).1 =
      runeResults { Filename := fname, Offset := 0, Line := 1, Column := 1 } B
        ++ (readN n s).1) ∧
    (s.stack = [] →
      (readN (B.length + (A.length + 1)) (s.Include fname (runesReader B))).1 =
        runeResults { Filename := fname, Offset := 0, Line := 1, Column := 1 } B
          ++ (runeResults s.tos.position A
            ++ [{ Position := positionAfter s.tos.position A, Rune := 0, Size := 0,
                  Err := some .EOF }])) := by
  obtain ⟨stack, ⟨reader, pos⟩⟩ := s
  simp only at hA
  subst hA
  have hr := readN_runes A.length stack pos A (le_refl _)
  simp only [List.take_length, List.drop_length] at hr
  refine ⟨?_, ?_, fun n => readN_after_Include _ fname B n, ?_⟩
  · rw [readN_after_Include, hr]
  · rw [hr]
  · intro hs
    simp only at hs
    subst hs
    rw [readN_after_Include, readN_add, hr]
    simp [readN, Read_end]

/-- The amended statement of C13 at a `Source` reading `"a\n"` with `"b"` included. -/
theorem Include_then_Read_witness :
    (NewSource [102] (some (runesReader [(97, 1), (10, 1)]))).tos.reader
      = runesReader [(97, 1), (10, 1)] ∧
    (readN (1 + (2 + 1))
      ((NewSource [102] (some (runesReader [(97, 1), (10, 1)]))).Include [103]
        (runesReader [(98, 1)]))).1 =
      [{ Position := { Filename := [103], Offset := 0, Line := 1, Column := 1 },
         Rune := 98, Size := 1, Err := none },
       { Position := { Filename := [102], Offset := 0, Line := 1, Column := 1 },
         Rune := 97, Size := 1, Err := none },
       { Position := { Filename := [102], Offset := 1, Line := 1, Column := 2 },
         Rune := 10, Size := 1, Err := none },
       { Position := { Filename := [102], Offset := 2, Line := 2, Column := 1 },
         Rune := 0, Size := 0, Err := some .EOF }] :=
  ⟨rfl,
    ((Include_then_Read (NewSource [102] (some (runesReader [(97, 1), (10, 1)]))) [103]
      [(97, 1), (10, 1)] [(98, 1)] rfl).2.2.2 rfl).trans (by decide)⟩

/-- C13 as stated fails. A `Source` reading `"a"` that was included into a `Source`
reading `"c"` has the rune `a` left in its current reader; after `Include` of a
reader yielding `"b"` the calls of `Read` return `b`, then `a`, and then not end of
input but the rune `c` of the reader below. -/
theorem Include_then_Read_stack :
    ((NewSource [104] (some (runesReader [(99, 1)]))).Include [102]
      (runesReader [(97, 1)])).tos.reader = runesReader [(97, 1)] ∧
    (readN 3
      (((NewSource [104] (some (runesReader [(99, 1)]))).Include [102]
        (runesReader [(97, 1)])).Include [103] (runesReader [(98, 1)]))).1 =
      [{ Position := { Filename := [103], Offset := 0, Line := 1, Column := 1 },
         Rune := 98, Size := 1, Err := none },
       { Position := { Filename := [102], Offset := 0, Line := 1, Column := 1 },
         Rune := 97, Size := 1, Err := none },
       { Position := { Filename := [104], Offset := 0, Line := 1, Column := 1 },
         Rune := 99, Size := 1, Err := none }] :=
  ⟨rfl, by decide⟩

/-! ### C14: Position and the next Read -/

/-- C14 at a `Source` reading `"x"` from file `a` into which an empty reader was
included as file `b`: `Position()` is the start of `b`, the next `Read` returns
the rune `x` with its position in `a`. -/
theorem Position_not_of_next_Read :
    ((NewSource [97] (some (runesReader [(120, 1)]))).Include [98] (runesReader [])).Position
      = { Filename := [98], Offset := 0, Line := 1, Column := 1 } ∧
    ((NewSource [97] (some (runesReader [(120, 1)]))).Include [98] (runesReader [])).Read.1
      = { Position := { Filename := [97], Offset := 0, Line := 1, Column := 1 },
          Rune := 120, Size := 1, Err := none } ∧
    ((NewSource [97] (some (runesReader [(120, 1)]))).Include [98] (runesReader [])).Position
      ≠ ((NewSource [97] (some (runesReader [(120, 1)]))).Include [98]
          (runesReader [])).Read.1.Position := by
  decide

/-! ### C15: the positions of a fresh Source -/

theorem sinceNewline_of_not_mem (l : List Int) (h : (10 : Int) ∉ l) :
    sinceNewline l = l.length := by
  unfold sinceNewline
  rw [List.takeWhile_eq_self_iff.mpr]
  · simp
  · intro x hx
    have hx' : x ∈ l := List.mem_reverse.mp hx
    simp only [ne_eq, decide_not, Bool.not_eq_true', decide_eq_false_iff_not]
    intro hx10
    exact h (hx10 ▸ hx')

theorem takeWhile_append_of_exists {α : Type} (p : α → Bool) (l₁ l₂ : List α)
    (h : ∃ x ∈ l₁, p x = false) : (l₁ ++ l₂).takeWhile p = l₁.takeWhile p := by
  induction l₁ with
  | nil => simp at h
  | cons a t ih =>
    cases hp : p a
    · simp [List.takeWhile, hp]
    · obtain ⟨x, hx, hpx⟩ := h
      rcases List.mem_cons.mp hx with rfl | hx'
      · rw [hp] at hpx; simp at hpx
      · simp [List.takeWhile, hp, ih ⟨x, hx', hpx⟩]

theorem sinceNewline_cons_of_mem (x : Int) (l : List Int) (h : (10 : Int) ∈ l) :
    sinceNewline (x :: l) = sinceNewline l := by
  unfold sinceNewline
  rw [List.reverse_cons]
  rw [takeWhile_append_of_exists]
  exact ⟨10, List.mem_reverse.mpr h, by simp⟩

theorem sinceNewline_cons_of_not_mem (x : Int) (l : List Int) (h : (10 : Int) ∉ l) :
    sinceNewline (x :: l) = if x = 10 then l.length else l.length + 1 := by
  unfold sinceNewline
  rw [List.reverse_cons, List.takeWhile_append_of_pos]
  · by_cases hx : x = 10
    · simp [hx, List.takeWhile]
    · simp [hx, List.takeWhile]
  · intro y hy
    have hy' : y ∈ l := List.mem_reverse.mp hy
    simp only [ne_eq, decide_not, Bool.not_eq_true', decide_eq_false_iff_not]
    intro hy10
    exact h (hy10 ▸ hy')

theorem wrapInt_of_range (x : Int) (h1 : -2147483648 ≤ x) (h2 : x < 2147483648) :
    wrapInt x = x := by
  unfold wrapInt
  omega

theorem wrapInt_range (x : Int) : -2147483648 ≤ wrapInt x ∧ wrapInt x < 2147483648 := by
  unfold wrapInt
  omega

theorem wrapInt_idem (x : Int) : wrapInt (wrapInt x) = wrapInt x :=
  wrapInt_of_range _ (wrapInt_range x).1 (wrapInt_range x).2

/-- An addition to a wrapped value wraps to what the exact sum wraps to. -/
theorem wrapInt_add (a b : Int) : wrapInt (wrapInt a + b) = wrapInt (a + b) := by
  unfold wrapInt
  omega

/-- The position after a list of runes, from a position whose numbers are values of
`int`: the sizes are added to the offset, every `'\n'` adds a line, and the column
counts from the last `'\n'`, or goes on from where it was when there is none, each
of them wrapping around as `int` does. -/
theorem positionAfter_eq (p : Position) (l : List (Int × Int))
    (hoff : wrapInt p.Offset = p.Offset) (hline : wrapInt p.Line = p.Line)
    (hcol : wrapInt p.Column = p.Column) :
    positionAfter p l =
      { Filename := p.Filename,
        Offset := wrapInt (p.Offset + (l.map Prod.snd).sum),
        Line := wrapInt (p.Line + ((l.map Prod.fst).count 10 : Nat)),
        Column :=
          if (10 : Int) ∈ l.map Prod.fst then
            wrapInt (1 + (sinceNewline (l.map Prod.fst) : Nat))
          else wrapInt (p.Column + (l.length : Nat)) } := by
  induction l generalizing p with
  | nil => simp [positionAfter, hoff, hline, hcol]
  | cons x rest ih =>
    obtain ⟨rune, size⟩ := x
    simp only [positionAfter, List.map_cons, List.sum_cons, List.length_cons]
    by_cases hr : rune = 10
    · subst hr
      have hadv : advance p 10 size =
          { Filename := p.Filename, Offset := wrapInt (p.Offset + size),
            Line := wrapInt (p.Line + 1), Column := 1 } := by
        simp [advance]
      have hmem : (10 : Int) ∈ (10 : Int) :: rest.map Prod.fst := List.mem_cons_self _ _
      have ih' := ih ⟨p.Filename, wrapInt (p.Offset + size), wrapInt (p.Line + 1), 1⟩
        (wrapInt_idem _) (wrapInt_idem _) (show wrapInt 1 = 1 by decide)
      rw [hadv, ih', if_pos hmem]
      simp only [wrapInt_add, List.count_cons_self, Position.mk.injEq, true_and]
      refine ⟨by congr 1; ring, by congr 1; push_cast; ring, ?_⟩
      by_cases hrest : (10 : Int) ∈ rest.map Prod.fst
      · rw [if_pos hrest, sinceNewline_cons_of_mem _ _ hrest]
      · rw [if_neg hrest, sinceNewline_cons_of_not_mem _ _ hrest]
        simp
    · have hadv : advance p rune size =
          { Filename := p.Filename, Offset := wrapInt (p.Offset + size),
            Line := p.Line, Column := wrapInt (p.Column + 1) } := by
        simp [advance, hr]
      have hc : (rune :: rest.map Prod.fst).count 10 = (rest.map Prod.fst).count 10 :=
        List.count_cons_of_ne (Ne.symm hr) _
      have ih' := ih ⟨p.Filename, wrapInt (p.Offset + size), p.Line, wrapInt (p.Column + 1)⟩
        (wrapInt_idem _) hline (wrapInt_idem _)
      rw [hadv, ih', hc]
      simp only [wrapInt_add, Position.mk.injEq, true_and]
      refine ⟨by congr 1; ring, ?_⟩
      by_cases hrest : (10 : Int) ∈ rest.map Prod.fst
      · have hmem : (10 : Int) ∈ rune :: rest.map Prod.fst := List.mem_cons_of_mem _ hrest
        rw [if_pos hrest, if_pos hmem, sinceNewline_cons_of_mem _ _ hrest]
      · have hmem : (10 : Int) ∉ rune :: rest.map Prod.fst := by
          intro hm
          rcases List.mem_cons.mp hm with e | e
          · exact hr e.symm
          · exact hrest e
        rw [if_neg hrest, if_neg hmem]
        congr 1
        push_cast
        ring

theorem runeResults_getElem (p : Position) (l : List (Int × Int)) (k : Nat)
    (hk : k < l.length) :
    (runeResults p l)[k]? = some
      { Position := positionAfter p (l.take k), Rune := (l.get ⟨k, hk⟩).1,
        Size := (l.get ⟨k, hk⟩).2, Err := none } := by
  induction l generalizing p k with
  | nil => simp at hk
  | cons x rest ih =>
    obtain ⟨rune, size⟩ := x
    cases k with
    | zero => simp [runeResults, positionAfter]
    | succ k =>
      simp only [List.length_cons, Nat.add_lt_add_iff_right] at hk
      simp only [runeResults, List.getElem?_cons_succ, List.take_succ_cons, positionAfter,
        List.get_cons_succ]
      exact ih (advance p rune size) k hk

/-- The `k`-th `Read` (counted from 0) of a `Source` made by `NewSource` over a
reader that yields the runes `rs`: the rune and its size without error, the file
name given to `NewSource`, and as offset, line and column what the sum of the
sizes before it, 1 plus the number of `'\n'` before it and 1 plus the number of
runes since the last `'\n'` (or since the start) wrap around to. -/
theorem NewSource_Read_wrapped (fname : GoString) (rs : List (Int × Int)) (k : Nat)
    (hk : k < rs.length) :
    (readN (k + 1) (NewSource fname (some (runesReader rs)))).1[k]? = some
      { Position :=
          { Filename := fname,
            Offset := wrapInt ((rs.take k).map Prod.snd).sum,
            Line := wrapInt (1 + (((rs.take k).map Prod.fst).count 10 : Nat)),
            Column := wrapInt (1 + (sinceNewline ((rs.take k).map Prod.fst) : Nat)) },
        Rune := (rs.get ⟨k, hk⟩).1,
        Size := (rs.get ⟨k, hk⟩).2,
        Err := none } := by
  have hn : NewSource fname (some (runesReader rs)) =
      { stack := [],
        tos := { reader := runesReader rs,
                 position := { Filename := fname, Offset := 0, Line := 1, Column := 1 } } } := rfl
  rw [hn, readN_runes (k + 1) [] _ rs (by omega)]
  simp only
  have hk' : k < (rs.take (k + 1)).length := by
    rw [List.length_take]; omega
  rw [runeResults_getElem _ _ k hk',
    positionAfter_eq _ _ (show wrapInt 0 = 0 by decide) (show wrapInt 1 = 1 by decide)
      (show wrapInt 1 = 1 by decide)]
  have ht : (rs.take (k + 1)).take k = rs.take k := by
    rw [List.take_take]; congr 1; omega
  have hg : (rs.take (k + 1)).get ⟨k, hk'⟩ = rs.get ⟨k, hk⟩ := by
    simp [List.getElem_take]
  rw [ht, hg]
  simp only [zero_add, Option.some.injEq, ScannerRune.mk.injEq, Position.mk.injEq, true_and,
    and_true]
  by_cases hmem : (10 : Int) ∈ (rs.take k).map Prod.fst
  · rw [if_pos hmem]
  · rw [if_neg hmem, sinceNewline_of_not_mem _ hmem]
    simp

/-- C15. For a `Source` made by `NewSource` over a reader that yields the runes
`r_1..r_n` with the sizes `z_1..z_n`, the `k`-th `Read` (counted from 0 here)
returns `r_k` and `z_k` without error, with the file name given to `NewSource`,
the sum of the sizes of the runes before it as offset, 1 plus the number of `'\n'`
before it as line, and 1 plus the number of runes since the last `'\n'` (or since
the start) as column, whenever these three numbers are values of `int`. -/
theorem NewSource_Read_position (fname : GoString) (rs : List (Int × Int)) (k : Nat)
    (hk : k < rs.length)
    (hoff : -2147483648 ≤ ((rs.take k).map Prod.snd).sum ∧
      ((rs.take k).map Prod.snd).sum < 2147483648)
    (hline : (1 : Int) + (((rs.take k).map Prod.fst).count 10 : Nat) < 2147483648)
    (hcol : (1 : Int) + (sinceNewline ((rs.take k).map Prod.fst) : Nat) < 2147483648) :
    (readN (k + 1) (NewSource fname (some (runesReader rs)))).1[k]? = some
      { Position :=
          { Filename := fname,
            Offset := ((rs.take k).map Prod.snd).sum,
            Line := 1 + (((rs.take k).map Prod.fst).count 10 : Nat),
            Column := 1 + (sinceNewline ((rs.take k).map Prod.fst) : Nat) },
        Rune := (rs.get ⟨k, hk⟩).1,
        Size := (rs.get ⟨k, hk⟩).2,
        Err := none } := by
  rw [NewSource_Read_wrapped fname rs k hk, wrapInt_of_range _ hoff.1 hoff.2,
    wrapInt_of_range _ (by omega) hline, wrapInt_of_range _ (by omega) hcol]

/-- The statement of C15 at the third rune of `"a\nbc"`, read as file `f`. -/
theorem NewSource_Read_position_witness :
    2 < [((97 : Int), (1 : Int)), (10, 1), (98, 1), (99, 1)].length ∧
    ((-2147483648 : Int) ≤
        (([((97 : Int), (1 : Int)), (10, 1), (98, 1), (99, 1)].take 2).map Prod.snd).sum ∧
      (([((97 : Int), (1 : Int)), (10, 1), (98, 1), (99, 1)].take 2).map Prod.snd).sum
        < 2147483648) ∧
    (1 : Int) + ((([((97 : Int), (1 : Int)), (10, 1), (98, 1), (99, 1)].take 2).map
      Prod.fst).count 10 : Nat) < 2147483648 ∧
    (1 : Int) + (sinceNewline (([((97 : Int), (1 : Int)), (10, 1), (98, 1), (99, 1)].take 2).map
      Prod.fst) : Nat) < 2147483648 ∧
    (readN (2 + 1) (NewSource [102]
      (some (runesReader [(97, 1), (10, 1), (98, 1), (99, 1)])))).1[2]? = some
      { Position := { Filename := [102], Offset := 2, Line := 2, Column := 1 },
        Rune := 98, Size := 1, Err := none } :=
  ⟨by decide, by decide, by decide, by decide,
    (NewSource_Read_position [102] [(97, 1), (10, 1), (98, 1), (99, 1)] 2 (by decide)
      (by decide) (by decide) (by decide)).trans (by decide)⟩

/-! ### C16: Accept -/

/-- C16. For every `ScannerSource` and every rune `r`, `Accept(r)` returns true if and
only if `r` equals `Current()`; when it returns false the `ScannerSource` is
unchanged, and when it returns true the state is the one `Move()` produces. -/
theorem Accept_spec (s : ScannerSource) (r : Int) :
    ((s.Accept r).1 = true ↔ r = s.Current) ∧
    ((s.Accept r).1 = false → (s.Accept r).2 = s) ∧
    ((s.Accept r).1 = true → (s.Accept r).2 = s.Move) := by
  unfold ScannerSource.Accept
  by_cases h : r = s.Current
  · simp [h]
  · simp [h]

/-! ### C17: Collect -/

theorem Move_runes (s : ScannerSource) : s.Move.runes = s.runes ++ currentIfNotZero s := by
  unfold ScannerSource.Move currentIfNotZero
  by_cases hc : s.Current ≠ 0
  · by_cases hv : s.next.Position.IsValid = true
    · simp [hc, hv, ScannerSource.invalidateNext]
    · simp [hc, hv]
  · by_cases hv : s.next.Position.IsValid = true
    · simp [hc, hv, ScannerSource.invalidateNext]
    · simp [hc, hv]

theorem lookahead_runes (s : ScannerSource) : s.lookahead.runes = s.runes := by
  unfold ScannerSource.lookahead
  split <;> rfl

theorem Include_runes (s : ScannerSource) (fname : GoString) (r : RuneReader) :
    (s.Include fname r).runes = currentIfNotZero s := by
  unfold ScannerSource.Include
  simp only [Move_runes]
  rfl

/-- The collector after a sequence of calls holds what it held, followed by the
runes other than 0 that the calls moved past; an `Include` empties it first. -/
theorem calls_runes (s : ScannerSource) (cs : List ScanCall) :
    (s.calls cs).runes = movedPast s s.runes cs := by
  induction cs generalizing s with
  | nil => rfl
  | cons c rest ih =>
    cases c with
    | Move =>
      simp only [ScannerSource.calls, ScannerSource.call, movedPast]
      rw [ih, Move_runes]
    | Accept rune =>
      simp only [ScannerSource.calls, ScannerSource.call, movedPast, ScannerSource.Accept]
      by_cases h : rune = s.Current
      · simp only [h, if_true]
        rw [ih, Move_runes]
      · simp only [h, if_false]
        rw [ih]
    | Next =>
      simp only [ScannerSource.calls, ScannerSource.call, movedPast]
      rw [ih]
      simp only [ScannerSource.Next, lookahead_runes]
    | Include fname r =>
      simp only [ScannerSource.calls, ScannerSource.call, movedPast]
      rw [ih, Include_runes]

/-- What the collector holds in the code. After a `Collect` (and after
`NewScannerSource`) and any sequence of calls of `Move`, `Accept`, `Next` and
`Include`, `Collect()` returns the list `movedPast` of these calls, and a `Collect()`
called immediately afterwards returns no runes. -/
theorem Collect_spec (s : ScannerSource) (fname : GoString) (r : Option RuneReader)
    (cs : List ScanCall) :
    ((s.Collect.2.calls cs).Collect).1 = movedPast s.Collect.2 [] cs ∧
    (((NewScannerSource fname r).calls cs).Collect).1
      = movedPast (NewScannerSource fname r) [] cs ∧
    (s.Collect.2.Collect).1 = [] := by
  refine ⟨?_, ?_, rfl⟩
  · have := calls_runes s.Collect.2 cs
    exact this
  · have h := calls_runes (NewScannerSource fname r) cs
    have h0 : (NewScannerSource fname r).runes = [] := by
      unfold NewScannerSource
      rw [Move_runes]
      rfl
    rw [h0] at h
    exact h

/-- C17. The code does not return all runes seen since the last `Collect`. On the
input `ab`, `Move()` goes past `a`, and after `Include` of an empty reader
`Collect()` returns `b` alone, where the runes seen are `a` and `b`: `Include`
empties the collector. On an input that starts with the rune 0, that rune is
current without error, `Move()` goes past it, and `Collect()` returns nothing. -/
theorem Collect_misses_runes :
    (NewScannerSource [102] (some (runesReader [(0, 1), (120, 1)]))).CurrentRune
      = { Position := { Filename := [102], Offset := 0, Line := 1, Column := 1 },
          Rune := 0, Size := 1, Err := none } ∧
    ((NewScannerSource [102] (some (runesReader [(0, 1), (120, 1)]))).Move.Collect).1 = [] ∧
    (NewScannerSource [102] (some (runesReader [(97, 1), (98, 1)]))).Current = 97 ∧
    (NewScannerSource [102] (some (runesReader [(97, 1), (98, 1)]))).Move.Current = 98 ∧
    ((NewScannerSource [102] (some (runesReader [(97, 1), (98, 1)]))).Move.Collect).1 = [97] ∧
    (((NewScannerSource [102] (some (runesReader [(97, 1), (98, 1)]))).Move.Include [103]
      (runesReader [])).Collect).1 = [98] := by
  decide

/-! ### C18: lookahead and look-behind -/

/-- A `Read` on a `Source` whose lines count from 1 returns a valid position: the
position returned is the one a source had before the call. -/
theorem readLoop_position (stack : List source) (tos : source)
    (htos : 0 < tos.position.Line) (hstack : ∀ x ∈ stack, 0 < x.position.Line) :
    0 < (readLoop stack tos).1.Position.Line := by
  induction stack generalizing tos with
  | nil =>
    unfold readLoop
    rcases hr : tos.reader.ReadRune with ⟨⟨rune, size, err⟩, reader'⟩
    simp only
    by_cases he : err ≠ some .EOF
    · rw [if_pos he]
      exact htos
    · rw [if_neg he]
      exact htos
  | cons parent rest ih =>
    unfold readLoop
    rcases hr : tos.reader.ReadRune with ⟨⟨rune, size, err⟩, reader'⟩
    simp only
    by_cases he : err ≠ some .EOF
    · rw [if_pos he]
      exact htos
    · rw [if_neg he]
      exact ih parent (hstack parent (List.mem_cons_self _ _))
        (fun x hx => hstack x (List.mem_cons_of_mem _ hx))

theorem Read_position_valid (s : Source) (h : s.WellFormed) :
    s.Read.1.Position.IsValid = true := by
  have h1 := readLoop_position s.stack s.tos h.1 h.2
  simpa [Position.IsValid, Source.Read] using h1

/-- A line that counts from 1 and has not passed `n` counts from 1 and has not
passed `n + 1` after one rune, as long as `n + 1` is a value of `int`. -/
theorem advance_Line (p : Position) (rune size n : Int) (h : 0 < p.Line) (hn : p.Line ≤ n)
    (hmax : n < 2147483647) :
    0 < (advance p rune size).Line ∧ (advance p rune size).Line ≤ n + 1 := by
  unfold advance
  split
  · simp only
    omega
  · simp only
    rw [wrapInt_of_range _ (by omega) (by omega)]
    omega

theorem LinesWithin_mono (s : Source) (n m : Int) (h : s.LinesWithin n) (hnm : n ≤ m) :
    s.LinesWithin m :=
  ⟨⟨h.1.1, le_trans h.1.2 hnm⟩, fun x hx => ⟨(h.2 x hx).1, le_trans (h.2 x hx).2 hnm⟩⟩

theorem LinesWithin_wellFormed (s : Source) (n : Int) (h : s.LinesWithin n) : s.WellFormed :=
  ⟨h.1.1, fun x hx => (h.2 x hx).1⟩

/-- A `Read` on a `Source` whose lines count from 1 and have not passed `n` leaves
a `Source` whose lines count from 1 and have not passed `n + 1`. -/
theorem readLoop_linesWithin (stack : List source) (tos : source) (n : Int)
    (htos : 0 < tos.position.Line ∧ tos.position.Line ≤ n)
    (hstack : ∀ x ∈ stack, 0 < x.position.Line ∧ x.position.Line ≤ n)
    (hmax : n < 2147483647) : (readLoop stack tos).2.LinesWithin (n + 1) := by
  induction stack generalizing tos with
  | nil =>
    unfold readLoop
    rcases hr : tos.reader.ReadRune with ⟨⟨rune, size, err⟩, reader'⟩
    simp only
    by_cases he : err ≠ some .EOF
    · rw [if_pos he]
      exact ⟨advance_Line _ _ _ n htos.1 htos.2 hmax, by simp⟩
    · rw [if_neg he]
      exact ⟨⟨htos.1, by simp only; omega⟩, by simp⟩
  | cons parent rest ih =>
    unfold readLoop
    rcases hr : tos.reader.ReadRune with ⟨⟨rune, size, err⟩, reader'⟩
    simp only
    by_cases he : err ≠ some .EOF
    · rw [if_pos he]
      exact ⟨advance_Line _ _ _ n htos.1 htos.2 hmax,
        fun x hx => ⟨(hstack x hx).1, by have := (hstack x hx).2; omega⟩⟩
    · rw [if_neg he]
      exact ih parent (hstack parent (List.mem_cons_self _ _))
        (fun x hx => hstack x (List.mem_cons_of_mem _ hx))

theorem Read_linesWithin (s : Source) (n : Int) (h : s.LinesWithin n) (hmax : n < 2147483647) :
    s.Read.2.LinesWithin (n + 1) :=
  readLoop_linesWithin s.stack s.tos n h.1 h.2 hmax

theorem NewSource_linesWithin (fname : GoString) (r : Option RuneReader) :
    (NewSource fname r).LinesWithin 1 := by
  constructor
  · simp [NewSource, newSource]
  · intro x hx
    simp [NewSource] at hx

theorem Include_linesWithin (s : Source) (fname : GoString) (r : RuneReader) (n : Int)
    (h : s.LinesWithin n) (h1 : 1 ≤ n) : (s.Include fname r).LinesWithin n := by
  constructor
  · simpa [Source.Include, newSource] using h1
  · intro x hx
    simp only [Source.Include, List.mem_cons] at hx
    rcases hx with rfl | hx
    · exact h.1
    · exact h.2 x hx

theorem Move_source_linesWithin (s : ScannerSource) (n : Int) (h : s.source.LinesWithin n)
    (hmax : n < 2147483647) : s.Move.source.LinesWithin (n + 1) := by
  have h' := LinesWithin_mono _ n (n + 1) h (by omega)
  unfold ScannerSource.Move
  by_cases hc : s.Current ≠ 0 <;> by_cases hv : s.next.Position.IsValid = true
  · simpa [hc, hv, ScannerSource.invalidateNext] using h'
  · simpa [hc, hv] using Read_linesWithin s.source n h hmax
  · simpa [hc, hv, ScannerSource.invalidateNext] using h'
  · simpa [hc, hv] using Read_linesWithin s.source n h hmax

theorem lookahead_source_linesWithin (s : ScannerSource) (n : Int)
    (h : s.source.LinesWithin n) (hmax : n < 2147483647) :
    s.lookahead.source.LinesWithin (n + 1) := by
  unfold ScannerSource.lookahead
  by_cases hv : s.next.Position.IsValid = false
  · simpa [hv] using Read_linesWithin s.source n h hmax
  · simpa [hv] using LinesWithin_mono _ n (n + 1) h (by omega)

/-- Every call of a method reads one rune at most: the lines go up by one at
most. -/
theorem calls_source_linesWithin (cs : List ScanCall) (s : ScannerSource) (n : Int)
    (h : s.source.LinesWithin n) (h1 : 1 ≤ n) (hmax : n + (cs.length : Nat) ≤ 2147483647) :
    (s.calls cs).source.LinesWithin (n + (cs.length : Nat)) := by
  induction cs generalizing s n with
  | nil => simpa [ScannerSource.calls] using h
  | cons c rest ih =>
    simp only [List.length_cons, Nat.cast_add, Nat.cast_one] at hmax ⊢
    have step : (s.call c).source.LinesWithin (n + 1) := by
      cases c with
      | Move => exact Move_source_linesWithin s n h (by omega)
      | Accept rune =>
        simp only [ScannerSource.call, ScannerSource.Accept]
        split
        · exact Move_source_linesWithin s n h (by omega)
        · exact LinesWithin_mono _ n (n + 1) h (by omega)
      | Next => exact lookahead_source_linesWithin s n h (by omega)
      | Include fname' r' =>
        simp only [ScannerSource.call, ScannerSource.Include]
        apply Move_source_linesWithin _ n _ (by omega)
        exact Include_linesWithin _ fname' r' n h h1
    have := ih (s.call c) (n + 1) step (by omega) (by omega)
    simp only [ScannerSource.calls]
    have e : n + ((rest.length : Nat) + 1 : Int) = n + 1 + (rest.length : Nat) := by ring
    rw [e]
    exact this

/-- Every `ScannerSource` made by `NewScannerSource` and changed by calls of its
methods reads from a `Source` whose lines count from 1, as long as the number of
the calls leaves the line numbers within the values of `int`. -/
theorem calls_source_wellFormed (fname : GoString) (r : Option RuneReader)
    (cs : List ScanCall) (hcs : cs.length ≤ 2147483645) :
    ((NewScannerSource fname r).calls cs).source.WellFormed := by
  have h0 : (NewScannerSource fname r).source.LinesWithin (1 + 1) := by
    unfold NewScannerSource
    exact Move_source_linesWithin _ 1 (NewSource_linesWithin fname r) (by decide)
  exact LinesWithin_wellFormed _ _
    (calls_source_linesWithin cs _ (1 + 1) h0 (by decide) (by omega))

/-- After `lookahead` the field `next` holds a valid position, and `current` and
`prev` are as before. -/
theorem lookahead_spec (s : ScannerSource) (h : s.source.WellFormed) :
    s.lookahead.next.Position.IsValid = true ∧ s.lookahead.current = s.current ∧
      s.lookahead.prev = s.prev := by
  unfold ScannerSource.lookahead
  by_cases hv : s.next.Position.IsValid = false
  · rw [if_pos hv]
    exact ⟨Read_position_valid s.source h, rfl, rfl⟩
  · rw [if_neg hv]
    exact ⟨by simpa using hv, rfl, rfl⟩

/-- A `Move` with a valid lookahead makes the lookahead the current rune. -/
theorem Move_of_valid (s : ScannerSource) (hv : s.next.Position.IsValid = true) :
    s.Move.current = s.next := by
  unfold ScannerSource.Move
  by_cases hc : s.Current ≠ 0
  · simp [hc, hv, ScannerSource.invalidateNext]
  · simp [hc, hv, ScannerSource.invalidateNext]

theorem Move_prev (s : ScannerSource) : s.Move.prev = s.current := by
  unfold ScannerSource.Move
  by_cases hc : s.Current ≠ 0 <;> by_cases hv : s.next.Position.IsValid = true
  · simp [hc, hv, ScannerSource.invalidateNext]
  · simp [hc, hv]
  · simp [hc, hv, ScannerSource.invalidateNext]
  · simp [hc, hv]

/-- C18. For every `ScannerSource` whose `Source` has lines counting from 1, as a
`ScannerSource` made by `NewScannerSource` has while its line numbers are values of
`int`: the `ScannerRune` returned by
`NextRune()` is the one `CurrentRune()` returns after the following `Move()`, and
the rune returned by `Next()` the one `Current()` returns then; `NextRune()` and
`Next()` change neither the current nor the previous rune; and after a `Move()`
`PrevRune()` is the `CurrentRune()` from before it. -/
theorem lookahead_lookbehind (s : ScannerSource) (hwf : s.source.WellFormed) :
    s.NextRune.2.Move.CurrentRune = s.NextRune.1 ∧
    s.Next.2.Move.Current = s.Next.1 ∧
    (s.NextRune.2.CurrentRune = s.CurrentRune ∧ s.NextRune.2.PrevRune = s.PrevRune) ∧
    (s.Next.2.CurrentRune = s.CurrentRune ∧ s.Next.2.PrevRune = s.PrevRune) ∧
    s.Move.PrevRune = s.CurrentRune := by
  obtain ⟨hv, hcur, hprev⟩ := lookahead_spec s hwf
  have hm := Move_of_valid s.lookahead hv
  refine ⟨?_, ?_, ⟨hcur, hprev⟩, ⟨hcur, hprev⟩, Move_prev s⟩
  · simp only [ScannerSource.NextRune, ScannerSource.CurrentRune]
    exact hm
  · simp only [ScannerSource.Next, ScannerSource.Current]
    rw [hm]

/-- The statement of C18 at a `ScannerSource` reading `"ab"`. -/
theorem lookahead_lookbehind_witness :
    (NewScannerSource [102] (some (runesReader [(97, 1), (98, 1)]))).source.WellFormed ∧
    (NewScannerSource [102] (some (runesReader [(97, 1), (98, 1)]))).Next.1 = 98 ∧
    (NewScannerSource [102] (some (runesReader [(97, 1), (98, 1)]))).NextRune.2.Move.CurrentRune
      = (NewScannerSource [102] (some (runesReader [(97, 1), (98, 1)]))).NextRune.1 ∧
    (NewScannerSource [102] (some (runesReader [(97, 1), (98, 1)]))).Next.2.Move.Current
      = (NewScannerSource [102] (some (runesReader [(97, 1), (98, 1)]))).Next.1 ∧
    ((NewScannerSource [102] (some (runesReader [(97, 1), (98, 1)]))).NextRune.2.CurrentRune
        = (NewScannerSource [102] (some (runesReader [(97, 1), (98, 1)]))).CurrentRune ∧
      (NewScannerSource [102] (some (runesReader [(97, 1), (98, 1)]))).NextRune.2.PrevRune
        = (NewScannerSource [102] (some (runesReader [(97, 1), (98, 1)]))).PrevRune) ∧
    ((NewScannerSource [102] (some (runesReader [(97, 1), (98, 1)]))).Next.2.CurrentRune
        = (NewScannerSource [102] (some (runesReader [(97, 1), (98, 1)]))).CurrentRune ∧
      (NewScannerSource [102] (some (runesReader [(97, 1), (98, 1)]))).Next.2.PrevRune
        = (NewScannerSource [102] (some (runesReader [(97, 1), (98, 1)]))).PrevRune) ∧
    (NewScannerSource [102] (some (runesReader [(97, 1), (98, 1)]))).Move.PrevRune
      = (NewScannerSource [102] (some (runesReader [(97, 1), (98, 1)]))).CurrentRune :=
  ⟨calls_source_wellFormed [102] _ [] (by decide), by decide,
    lookahead_lookbehind _ (calls_source_wellFormed [102] _ [] (by decide))⟩

/-! ### The bound on the depth of the calls -/

/-- A result reached within a bound is the result within every larger bound: the
bound cuts calls off, it does not change what they return. -/
theorem fuel_succ (q : GoString → GoString) (g : Grammar) (f : Nat) :
    (∀ name memo r, ebnf2RE q f g name memo = some r →
      ebnf2RE q (f + 1) g name memo = some r) ∧
    (∀ pre x post memo r, compile q f g pre x post memo = some r →
      compile q (f + 1) g pre x post memo = some r) ∧
    (∀ alt i xs memo r, compileItems q f g alt i xs memo = some r →
      compileItems q (f + 1) g alt i xs memo = some r) := by
  induction f with
  | zero =>
    refine ⟨?_, ?_, ?_⟩
    · intro name memo r h; simp [ebnf2RE] at h
    · intro pre x post memo r h; simp [compile] at h
    · intro alt i xs memo r h; simp [compileItems] at h
  | succ f ih =>
    obtain ⟨ih1, ih2, ih3⟩ := ih
    refine ⟨?_, ?_, ?_⟩
    · intro name memo r h
      rw [ebnf2RE]
      simp only [ebnf2RE] at h
      rcases hg : mapGet g name with _ | p
      · rw [hg] at h; exact h
      · rw [hg] at h
        simp only at h
        rcases hm : mapGet memo name with _ | t
        · rw [hm] at h
          simp only at h
          rcases hc : compile q f g [] p.Expr [] memo with _ | c
          · rw [hc] at h; simp at h
          · dsimp only
            rw [ih2 _ _ _ _ _ hc]; rw [hc] at h; exact h
        · rw [hm] at h; exact h
    · intro pre x post memo r h
      cases x with
      | Alternative x =>
        simp only [compile] at h
        rw [compile]
        rcases hc : compileItems q f g true 0 x memo with _ | c
        · rw [hc] at h; simp at h
        · rw [ih3 _ _ _ _ _ hc]; rw [hc] at h; exact h
      | Sequence x =>
        simp only [compile] at h
        rw [compile]
        rcases hc : compileItems q f g false 0 x memo with _ | c
        · rw [hc] at h; simp at h
        · rw [ih3 _ _ _ _ _ hc]; rw [hc] at h; exact h
      | Group body =>
        simp only [compile] at h
        rw [compile]
        rcases hc : compile q f g [40] body [41] memo with _ | c
        · rw [hc] at h; simp at h
        · rw [ih2 _ _ _ _ _ hc]; rw [hc] at h; exact h
      | Option body =>
        simp only [compile] at h
        rw [compile]
        rcases hc : compile q f g [40] body [41, 63] memo with _ | c
        · rw [hc] at h; simp at h
        · rw [ih2 _ _ _ _ _ hc]; rw [hc] at h; exact h
      | Repetition body =>
        simp only [compile] at h
        rw [compile]
        rcases hc : compile q f g [40] body [41, 42] memo with _ | c
        · rw [hc] at h; simp at h
        · rw [ih2 _ _ _ _ _ hc]; rw [hc] at h; exact h
      | Name n =>
        simp only [compile] at h
        rw [compile]
        rcases hc : ebnf2RE q f g n memo with _ | c
        · rw [hc] at h; simp at h
        · rw [ih1 _ _ _ hc]; rw [hc] at h; exact h
      | Range lo hi =>
        simp only [compile] at h
        rw [compile]
        exact h
      | Token t =>
        simp only [compile] at h
        rw [compile]
        exact h
      | Other =>
        simp only [compile] at h
        rw [compile]
        exact h
    · intro alt i xs memo r h
      cases xs with
      | nil =>
        simp only [compileItems] at h
        rw [compileItems]
        exact h
      | cons x rest =>
        simp only [compileItems] at h
        rw [compileItems]
        rcases hc : compile q f g (if alt = true then pipe (decide (i > 0)) else []) x [] memo
          with _ | ⟨e1 | ⟨w1, res1⟩⟩
        · rw [hc] at h; simp at h
        · rw [ih2 _ _ _ _ _ hc]; rw [hc] at h; exact h
        · rw [ih2 _ _ _ _ _ hc]
          rw [hc] at h
          simp only at h ⊢
          rcases hr : compileItems q f g alt (i + 1) rest res1 with _ | c
          · rw [hr] at h; simp at h
          · rw [ih3 _ _ _ _ _ hr]; rw [hr] at h; exact h

/-- A result of `ebnf2RE` reached within a bound is its result within every larger
bound. -/
theorem ebnf2RE_fuel_mono (q : GoString → GoString) (g : Grammar) (name : GoString)
    (memo : Memo) (r : Except Error (GoString × Memo)) (f f' : Nat) (hf : f ≤ f')
    (h : ebnf2RE q f g name memo = some r) : ebnf2RE q f' g name memo = some r := by
  induction f' with
  | zero =>
    have : f = 0 := by omega
    subst this
    exact h
  | succ k ih =>
    rcases Nat.lt_or_ge f (k + 1) with hlt | hge
    · exact (fuel_succ q g k).1 name memo r (ih (by omega))
    · have : f = k + 1 := by omega
      subst this
      exact h

/-! ### The calls return, whatever the memo table holds -/

/-- When the specification gives a translation within depth `d`, `compile` and the
loop over a list of items return, from every memo table and for every bound of at
least `2 * d`: an entry of the memo table only spares a call. -/
theorem code_returns (q : GoString → GoString) (g : Grammar) (d : Nat) :
    (∀ e s, specRE q g d e = some s → ∀ pre post memo f, 2 * d ≤ f →
      ∃ w memo', compile q f g pre e post memo = some (.ok (w, memo'))) ∧
    (∀ xs ts, specList q g d xs = some ts → ∀ alt i memo f, 2 * d ≤ f →
      ∃ w memo', compileItems q f g alt i xs memo = some (.ok (w, memo'))) := by
  induction d with
  | zero =>
    exact ⟨fun e s h => by simp [specRE] at h, fun xs ts h => by simp [specList] at h⟩
  | succ d ih =>
    obtain ⟨ih1, ih2⟩ := ih
    constructor
    · intro e s h pre post memo f hf
      obtain ⟨f', rfl⟩ : ∃ f', f = f' + 1 := ⟨f - 1, by omega⟩
      have hf' : 2 * d ≤ f' := by omega
      cases e with
      | Alternative x =>
        simp only [specRE, Option.map_eq_some'] at h
        obtain ⟨ts, h1, _⟩ := h
        obtain ⟨w, memo', hc⟩ := ih2 x ts h1 true 0 memo f' hf'
        exact ⟨pre ++ w ++ post, memo', by simp only [compile, hc]⟩
      | Sequence x =>
        simp only [specRE, Option.map_eq_some'] at h
        obtain ⟨ts, h1, _⟩ := h
        obtain ⟨w, memo', hc⟩ := ih2 x ts h1 false 0 memo f' hf'
        exact ⟨pre ++ w ++ post, memo', by simp only [compile, hc]⟩
      | Group body =>
        simp only [specRE, Option.map_eq_some'] at h
        obtain ⟨t, h1, _⟩ := h
        obtain ⟨w, memo', hc⟩ := ih1 body t h1 [40] [41] memo f' hf'
        exact ⟨pre ++ w ++ post, memo', by simp only [compile, hc]⟩
      | Option body =>
        simp only [specRE, Option.map_eq_some'] at h
        obtain ⟨t, h1, _⟩ := h
        obtain ⟨w, memo', hc⟩ := ih1 body t h1 [40] [41, 63] memo f' hf'
        exact ⟨pre ++ w ++ post, memo', by simp only [compile, hc]⟩
      | Repetition body =>
        simp only [specRE, Option.map_eq_some'] at h
        obtain ⟨t, h1, _⟩ := h
        obtain ⟨w, memo', hc⟩ := ih1 body t h1 [40] [41, 42] memo f' hf'
        exact ⟨pre ++ w ++ post, memo', by simp only [compile, hc]⟩
      | Range lo hi =>
        exact ⟨pre ++ ([91] ++ q lo ++ [45] ++ q hi ++ [93]) ++ post, memo, by simp only [compile]⟩
      | Token t =>
        rcases hre : isRE t with ⟨a, b⟩
        cases b
        · exact ⟨pre ++ q a ++ post, memo, by simp only [compile, hre]⟩
        · exact ⟨pre ++ a ++ post, memo, by simp only [compile, hre]⟩
      | Name m =>
        simp only [specRE] at h
        rcases hm : mapGet g m with _ | p
        · rw [hm] at h; simp at h
        · rw [hm] at h
          simp only [Option.map_eq_some'] at h
          obtain ⟨t, h1, _⟩ := h
          obtain ⟨f'', rfl⟩ : ∃ f'', f' = f'' + 1 := ⟨f' - 1, by omega⟩
          have hf'' : 2 * d ≤ f'' := by omega
          rcases hmm : mapGet memo m with _ | r
          · obtain ⟨w, memo', hc⟩ := ih1 p.Expr t h1 [] [] memo f'' hf''
            exact ⟨pre ++ ([40] ++ w ++ [41]) ++ post, mapSet memo' m w,
              by simp only [compile, ebnf2RE, hm, hmm, hc]⟩
          · exact ⟨pre ++ ([40] ++ r ++ [41]) ++ post, memo,
              by simp only [compile, ebnf2RE, hm, hmm]⟩
      | Other => simp [specRE] at h
    · intro xs ts h alt i memo f hf
      obtain ⟨f', rfl⟩ : ∃ f', f = f' + 1 := ⟨f - 1, by omega⟩
      have hf' : 2 * d ≤ f' := by omega
      cases xs with
      | nil => exact ⟨[], memo, by simp only [compileItems]⟩
      | cons x rest =>
        simp only [specList] at h
        rcases hx : specRE q g d x with _ | t
        · rw [hx] at h; simp at h
        · rw [hx] at h
          simp only at h
          rcases hr : specList q g d rest with _ | ts'
          · rw [hr] at h; simp at h
          · obtain ⟨w1, memo1, hc1⟩ := ih1 x t hx
              (if alt = true then pipe (decide (i > 0)) else []) [] memo f' hf'
            obtain ⟨w2, memo2, hc2⟩ := ih2 rest ts' hr alt (i + 1) memo1 f' hf'
            exact ⟨w1 ++ w2, memo2, by simp only [compileItems, hc1, hc2]⟩

/-- When the specification gives the expression of a production a translation
within depth `d`, `ebnf2RE` returns on that production, from every memo table and
for every bound above `2 * d`. -/
theorem ebnf2RE_returns (q : GoString → GoString) (g : Grammar) (name : GoString)
    (p : Production) (s : GoString) (d : Nat) (hp : mapGet g name = some p)
    (hs : specRE q g d p.Expr = some s) (memo : Memo) (f : Nat) (hf : 2 * d + 1 ≤ f) :
    ∃ r memo', ebnf2RE q f g name memo = some (.ok (r, memo')) := by
  obtain ⟨f', rfl⟩ : ∃ f', f = f' + 1 := ⟨f - 1, by omega⟩
  rcases hm : mapGet memo name with _ | r
  · obtain ⟨w, memo', hc⟩ := (code_returns q g d).1 p.Expr s hs [] [] memo f' (by omega)
    exact ⟨w, mapSet memo' name w, by simp only [ebnf2RE, hp, hm, hc]⟩
  · exact ⟨r, memo, by simp only [ebnf2RE, hp, hm]⟩

/-- On a name that the grammar does not define, `g[name]` is nil and `p.Expr`
panics, whatever the memo table holds. -/
theorem ebnf2RE_undefined (q : GoString → GoString) (g : Grammar) (name : GoString)
    (memo : Memo) (fuel : Nat) (h : mapGet g name = none) :
    ebnf2RE q (fuel + 1) g name memo = some (.error .nilDereference) := by
  simp only [ebnf2RE, h]

/-! ### C21: ebnf2RE returns on grammars in good order -/

/-- C21, amended. For every grammar whose production-reference graph is acyclic,
in which every name referred to is defined and every node is of one of the eight
variants, for every name `N` that the grammar defines and every memo table,
whatever it holds: `ebnf2RE(g, N, memo)` returns a string, the same string and the
same memo table for every bound on the depth of the calls from some bound on, and
it panics for no bound. -/
theorem ebnf2RE_terminates (q : GoString → GoString) (g : Grammar) (N : GoString)
    (memo : Memo) (hacyc : Acyclic g) (hwf : WellFormed g)
    (hN : (mapGet g N).isSome = true) :
    (∃ F s memo', ∀ fuel, F ≤ fuel → ebnf2RE q fuel g N memo = some (.ok (s, memo'))) ∧
    (∀ fuel e, ebnf2RE q fuel g N memo ≠ some (.error e)) := by
  rcases hg : mapGet g N with _ | p
  · rw [hg] at hN; simp at hN
  · obtain ⟨s, d, hd⟩ := spec_total q g hacyc hwf N p hg
    obtain ⟨r, memo', hr⟩ := ebnf2RE_returns q g N p s d hg hd memo (2 * d + 1) le_rfl
    exact ⟨⟨2 * d + 1, r, memo', fun fuel hf =>
        ebnf2RE_fuel_mono q g N memo _ (2 * d + 1) fuel hf hr⟩,
      fun fuel e => (code_no_panic q g hwf fuel).1 N memo e hN⟩

/-- The amended statement of C21 at the production `n` of `numberGrammar`, called
with a memo table that holds the text `x` for `d`: the call returns `(x)((x))*`. -/
theorem ebnf2RE_terminates_witness :
    Acyclic numberGrammar ∧ WellFormed numberGrammar ∧
    (mapGet numberGrammar [110]).isSome = true ∧
    (ebnf2RE (fun s => s) 7 numberGrammar [110] [([100], [120])]).map
        (fun r => r.map Prod.fst)
      = some (.ok [40, 120, 41, 40, 40, 120, 41, 41, 42]) ∧
    ((∃ F s memo', ∀ fuel, F ≤ fuel →
        ebnf2RE (fun s => s) fuel numberGrammar [110] [([100], [120])]
          = some (.ok (s, memo'))) ∧
    (∀ fuel e,
      ebnf2RE (fun s => s) fuel numberGrammar [110] [([100], [120])] ≠ some (.error e))) :=
  ⟨numberGrammar_acyclic, numberGrammar_wellFormed, rfl, rfl,
    ebnf2RE_terminates (fun s => s) numberGrammar [110] [([100], [120])]
      numberGrammar_acyclic numberGrammar_wellFormed rfl⟩

/-- C21 as stated fails. `numberGrammar` is acyclic, defines every name it refers to
and has nodes of the known variants only; it has no production of the empty name,
and on that name `g[name]` is nil and `ebnf2RE` panics at `p.Expr`: no bound gives
a string. -/
theorem ebnf2RE_panics_on_undefined_name :
    Acyclic numberGrammar ∧ WellFormed numberGrammar ∧
    mapGet numberGrammar [] = none ∧
    (∀ fuel, ebnf2RE (fun s => s) (fuel + 1) numberGrammar [] []
      = some (.error .nilDereference)) ∧
    (∀ fuel s memo', ebnf2RE (fun s => s) fuel numberGrammar [] [] ≠ some (.ok (s, memo'))) :=
  ⟨numberGrammar_acyclic, numberGrammar_wellFormed, rfl,
    fun fuel => ebnf2RE_undefined _ numberGrammar [] [] fuel rfl,
    fun fuel s memo' h => by
      cases fuel with
      | zero => simp [ebnf2RE] at h
      | succ f =>
        rw [ebnf2RE_undefined _ numberGrammar [] [] f rfl] at h
        simp at h⟩

end CznicLexer
